import Mathlib

/-!
Verification of the DocuMind Go vector service (`go-vector-service`).

Shallow embedding of the in-memory vector index layer:
* distance/similarity primitives (`internal/index/similarity.go`),
* the brute-force index (`internal/index/bruteforce.go`),
* the HNSW index (`internal/index/hnsw.go`),
* the HTTP handler validation logic (`internal/api/handlers.go`).

Go `float32` arithmetic is idealised as real arithmetic (`ℝ`); Go slices
become `List`s; the `container/heap` package is modelled operation by
operation.  Everything stateful is written in explicit state-passing style.
-/

set_option maxHeartbeats 1000000

namespace DocuMind

/-! ## Data model (`pkg/types/vector.go`) -/

/-- Metadata contains information about the source document and chunk. -/
structure Metadata where
  documentId : String
  chunkIndex : Int
  text : String
  pageNumber : Int
deriving DecidableEq, Repr, Inhabited

/-- Vec represents a single embedding with its associated metadata
(the Go type `types.Vector`; renamed to avoid clashing with Mathlib). -/
structure Vec where
  id : String
  embedding : List ℝ
  metadata : Metadata

/-- SearchResult represents a single result from a vector search operation. -/
structure SearchResult where
  id : String
  score : ℝ
  metadata : Metadata

instance : Inhabited SearchResult := ⟨⟨"", 0, default⟩⟩

/-! ## Distance and similarity primitives (`internal/index/similarity.go`)

The Go code computes `dotProduct`, `normA` and `normB` in a single fused
loop over indices `0 ..< len a`; the three accumulator values are modelled
by `dotAcc`, `sumSq a` and `sumSq b`. -/

/-- Value of the `dotProduct` accumulator of the fused loop. -/
def dotAcc (a b : List ℝ) : ℝ := (List.zipWith (· * ·) a b).sum

/-- Value of the `normA` (sum of squares) accumulator of the fused loop. -/
def sumSq (a : List ℝ) : ℝ := (a.map fun x => x * x).sum

/-- CosineSimilarity, from `similarity.go`: returns `0` when lengths differ
or the inputs are empty, `0` again when either accumulated squared norm is
zero, and otherwise `dot / (√normA * √normB)`. -/
noncomputable def CosineSimilarity (a b : List ℝ) : ℝ :=
  if a.length ≠ b.length ∨ a.length = 0 then 0
  else if sumSq a = 0 ∨ sumSq b = 0 then 0
  else dotAcc a b / (Real.sqrt (sumSq a) * Real.sqrt (sumSq b))

/-- CosineDistance `= 1 - CosineSimilarity` (`similarity.go`). -/
noncomputable def CosineDistance (a b : List ℝ) : ℝ := 1 - CosineSimilarity a b

/-- The exact value of Go's `math.MaxFloat32 = (2^24 - 1) * 2^104`,
used by `L2Distance` as its sentinel for invalid inputs. -/
def maxFloat32 : ℝ := (2 ^ (24:ℕ) - 1) * 2 ^ (104:ℕ)

/-- Accumulator of the `L2Distance` loop: sum of squared differences. -/
def l2Acc (a b : List ℝ) : ℝ := (List.zipWith (fun x y => (x - y) * (x - y)) a b).sum

/-- L2Distance from `similarity.go`: the sentinel `math.MaxFloat32` on
length mismatch or empty input, otherwise `√(Σ (aᵢ-bᵢ)²)`. -/
noncomputable def L2Distance (a b : List ℝ) : ℝ :=
  if a.length ≠ b.length ∨ a.length = 0 then maxFloat32
  else Real.sqrt (l2Acc a b)

/-- DotProduct from `similarity.go`: `0` on length mismatch or empty input. -/
def DotProduct (a b : List ℝ) : ℝ :=
  if a.length ≠ b.length ∨ a.length = 0 then 0
  else dotAcc a b

/-! ## Go `container/heap`, over `List α`

Go's `heap.Interface` exposes `Less (i j : index)` reading the backing
container; the source's `distanceHeap.Less` inspects element `0`'s
`isMaxHeap` flag, so the comparator here takes the whole list.
`heap.Init` on a freshly created empty heap (the only way the source uses
it) is the identity and is not modelled separately. -/

/-- Go's parallel assignment `h[i], h[j] = h[j], h[i]` (`Swap`). -/
def hswap {α : Type} [Inhabited α] (l : List α) (i j : ℕ) : List α :=
  (l.set i (l.getD j default)).set j (l.getD i default)

/-- Sift-up (`container/heap`'s `up`): while `j` is smaller than its
parent `(j-1)/2`, swap them.  Go's `(j-1)/2` on `int` agrees with `ℕ`
truncated subtraction for `j ≥ 0`. -/
def heapUp {α : Type} [Inhabited α] (less : List α → ℕ → ℕ → Prop)
    [∀ l i j, Decidable (less l i j)] (l : List α) (j : ℕ) : List α :=
  if h : (j - 1) / 2 = j ∨ ¬ less l j ((j - 1) / 2) then l
  else heapUp less (hswap l ((j - 1) / 2) j) ((j - 1) / 2)
termination_by j
decreasing_by
  have hj : j ≠ 0 := by
    intro h0
    subst h0
    simp at h
  omega

/-- Sift-down (`container/heap`'s `down`) on the prefix of length `n`:
move `i` below its smaller child while one is smaller. -/
def heapDown {α : Type} [Inhabited α] (less : List α → ℕ → ℕ → Prop)
    [∀ l i j, Decidable (less l i j)] (l : List α) (i n : ℕ) : List α :=
  if h1 : n ≤ 2 * i + 1 then l
  else
    let j := if 2 * i + 2 < n ∧ less l (2 * i + 2) (2 * i + 1)
             then 2 * i + 2 else 2 * i + 1
    if less l j i then heapDown less (hswap l i j) j n else l
termination_by n - i
decreasing_by
  have : 2 * i + 1 ≤ j := by
    simp only [j]
    split <;> omega
  omega

/-- `heap.Push`: append, then sift the new last element up. -/
def heapPushG {α : Type} [Inhabited α] (less : List α → ℕ → ℕ → Prop)
    [∀ l i j, Decidable (less l i j)] (l : List α) (x : α) : List α :=
  heapUp less (l ++ [x]) l.length

/-- `heap.Pop`: swap the root with the last element, sift the new root
down within the shortened prefix, then remove and return the last
element (the old root). -/
def heapPopG {α : Type} [Inhabited α] (less : List α → ℕ → ℕ → Prop)
    [∀ l i j, Decidable (less l i j)] (l : List α) : α × List α :=
  let n := l.length - 1
  let l1 := hswap l 0 n
  let l2 := heapDown less l1 0 n
  (l2.getD n default, l2.take n)

/-- Repeated `heap.Pop` until empty — the extraction loops of `Search`,
`searchChunk`, `mergeResults` and `searchLayer` all pop every element,
writing into the result slice from the back (so the slice is the reverse
of this pop sequence). -/
def heapDrain {α : Type} [Inhabited α] (less : List α → ℕ → ℕ → Prop)
    [∀ l i j, Decidable (less l i j)] (l : List α) : List α :=
  if _h : l.length = 0 then []
  else
    let p := heapPopG less l
    p.1 :: heapDrain less p.2
termination_by l.length
decreasing_by
  simp only [heapPopG, List.length_take]
  omega

/-- Element-keyed comparator: the shape of `resultHeap.Less`
(`h[i].Score < h[j].Score`) for a key function into `ℝ`. -/
def kLess {α : Type} [Inhabited α] (key : α → ℝ) (l : List α) (i j : ℕ) : Prop :=
  key (l.getD i default) < key (l.getD j default)

noncomputable instance {α : Type} [Inhabited α] (key : α → ℝ) (l : List α)
    (i j : ℕ) : Decidable (kLess key l i j) := by unfold kLess; infer_instance

/-- The binary min-heap property on the length-`n` prefix: every child's
key is at least its parent's. -/
def heapProp {α : Type} [Inhabited α] (key : α → ℝ) (l : List α) (n : ℕ) : Prop :=
  ∀ c, 0 < c → c < n →
    key (l.getD ((c - 1) / 2) default) ≤ key (l.getD c default)

/-! ## Brute-force index (`internal/index/bruteforce.go`) -/

/-- The `resultHeap.Less` comparator: `h[i].Score < h[j].Score` (min-heap
on score). -/
abbrev resLess : List SearchResult → ℕ → ℕ → Prop := kLess SearchResult.score

/-- One push-or-evict step of the bounded top-k selection.  This block is
written out verbatim three times in the source (in `Search`,
`searchChunk` and `mergeResults`): push while the heap holds fewer than
`topK` results; otherwise, if the new score beats the heap minimum
`(*h)[0].Score`, pop the minimum and push; otherwise discard. -/
noncomputable def mergeStep (topK : ℕ) (h : List SearchResult)
    (r : SearchResult) : List SearchResult :=
  if h.length < topK then heapPushG resLess h r
  else if r.score > (h.getD 0 default).score then
    heapPushG resLess (heapPopG resLess h).2 r
  else h

/-- BruteForceIndex: append-only vector list plus the declared dimension. -/
structure BruteForceIndex where
  vectors : List Vec
  dimensions : ℕ

/-- NewBruteForceIndex creates an empty index. -/
def NewBruteForceIndex (dimensions : ℕ) : BruteForceIndex :=
  { vectors := [], dimensions := dimensions }

/-- `Insert` appends and always returns `nil` error (`Except.ok`). -/
def BruteForceIndex.Insert (idx : BruteForceIndex) (v : Vec) :
    Except String BruteForceIndex :=
  Except.ok { idx with vectors := idx.vectors ++ [v] }

/-- `InsertBatch` appends all and reports the count; never fails. -/
def BruteForceIndex.InsertBatch (idx : BruteForceIndex) (vs : List Vec) :
    Except String (ℕ × BruteForceIndex) :=
  Except.ok (vs.length, { idx with vectors := idx.vectors ++ vs })

/-- The `SearchResult` built from stored vector `v` for `query`. -/
noncomputable def resOf (query : List ℝ) (v : Vec) : SearchResult :=
  { id := v.id, score := CosineSimilarity query v.embedding,
    metadata := v.metadata }

/-- `Search`: linear scan feeding a bounded min-heap, then drain the heap
into the result slice from the back (descending order).  `heap.Init` on
the fresh empty heap is a no-op. -/
noncomputable def BruteForceIndex.Search (idx : BruteForceIndex)
    (query : List ℝ) (topK : ℕ) : List SearchResult :=
  if idx.vectors.length = 0 then []
  else
    let h := idx.vectors.foldl (fun h v => mergeStep topK h (resOf query v)) []
    (heapDrain resLess h).reverse

/-- `searchChunk`: the same scan-and-drain on a chunk, without the
empty-index guard. -/
noncomputable def searchChunk (query : List ℝ) (vectors : List Vec)
    (topK : ℕ) : List SearchResult :=
  let h := vectors.foldl (fun h v => mergeStep topK h (resOf query v)) []
  (heapDrain resLess h).reverse

/-- Worker-count default: `numWorkers <= 0` is replaced by 4
(`SearchConcurrent`). -/
def numWorkersOf (numWorkers : ℤ) : ℕ :=
  (if numWorkers ≤ 0 then (4 : ℤ) else numWorkers).toNat

/-- The worker-launch loop of `SearchConcurrent`: worker `i` receives
`vectors[i*chunkSize : min((i+1)*chunkSize, n)]`; the loop breaks at the
first `i` with `i*chunkSize ≥ n`. -/
def chunkLoop (vs : List Vec) (chunkSize w i : ℕ) : List (List Vec) :=
  if i < w then
    if i * chunkSize < vs.length then
      ((vs.drop (i * chunkSize)).take chunkSize) :: chunkLoop vs chunkSize w (i + 1)
    else []
  else []
termination_by w - i

/-- The chunks handed to the workers, with Go's ceiling-division chunk
size `(n + numWorkers - 1) / numWorkers`. -/
def chunksOf (vs : List Vec) (numWorkers : ℤ) : List (List Vec) :=
  chunkLoop vs ((vs.length + numWorkersOf numWorkers - 1) / numWorkersOf numWorkers)
    (numWorkersOf numWorkers) 0

/-- `mergeResults`: stream every received partial result list through one
more bounded top-k heap and drain it. -/
noncomputable def mergeResults (partials : List (List SearchResult))
    (topK : ℕ) : List SearchResult :=
  let h := partials.foldl (fun h rs => rs.foldl (mergeStep topK) h) []
  (heapDrain resLess h).reverse

/-- `SearchConcurrent`: chunk the vectors, search every chunk, merge.
`arrival` models the scheduling-dependent order in which the worker
results are received on `resultsChan`: entry `i` of `arrival` names a
worker index, and a faithful execution is any `arrival` that is a
permutation of `List.range (number of launched workers)`. -/
noncomputable def BruteForceIndex.SearchConcurrent (idx : BruteForceIndex)
    (query : List ℝ) (topK : ℕ) (numWorkers : ℤ) (arrival : List ℕ) :
    List SearchResult :=
  if idx.vectors.length = 0 then []
  else
    let partials := (chunksOf idx.vectors numWorkers).map
      (fun chunk => searchChunk query chunk topK)
    mergeResults (arrival.filterMap (fun i => partials.get? i)) topK

/-- `Count` returns the number of stored vectors. -/
def BruteForceIndex.Count (idx : BruteForceIndex) : ℕ := idx.vectors.length

/-- `Dimensions` returns the declared dimension. -/
def BruteForceIndex.Dimensions (idx : BruteForceIndex) : ℕ := idx.dimensions

/-- Specification predicate (not from the source): `H` retains
`min k |m|` of the result multiset `m`, and every non-retained result of
`m` scores no higher than any retained one. -/
def TopKSel (k : ℕ) (m : Multiset SearchResult) (H : List SearchResult) : Prop :=
  H.length = min k (Multiset.card m) ∧
  ∃ C : Multiset SearchResult, m = ↑H + C ∧
    (H.length < k → C = 0) ∧
    ∀ x ∈ C, ∀ y ∈ H, x.score ≤ y.score

/-- Specification predicate (not from the source): the multiset `A` is a
largest-`min k |m|`-elements sub-multiset of `m`.  This is `TopKSel` at
the level of score multisets. -/
def ScoreSel (k : ℕ) (m A : Multiset ℝ) : Prop :=
  Multiset.card A = min k (Multiset.card m) ∧
  ∃ C : Multiset ℝ, m = A + C ∧ (Multiset.card A < k → C = 0) ∧
    ∀ x ∈ C, ∀ y ∈ A, x ≤ y

/-! ## HNSW index (`internal/index/hnsw.go`)

The node map `map[string]*HNSWNode` is modelled as an association list
with replace-on-write (`setN`) and in-place field update (`adjustN`);
Go never iterates the map, so the representation order is irrelevant.
Pointer aliasing matters: `node` (the node being inserted) lives in the
map, so every neighborhood mutation is threaded through the map by id.
The `math/rand` stream consumed by `randomLevel` is passed in explicitly
as a list of draws. -/

/-- HNSWConfig contains configuration parameters for the HNSW index. -/
structure HNSWConfig where
  m : ℕ
  mMax : ℕ
  efConstruction : ℕ
  efSearch : ℕ
  ml : ℝ
  dimensions : ℕ

/-- DefaultHNSWConfig returns the defaults (`m = 16`). -/
noncomputable def DefaultHNSWConfig (dimensions : ℕ) : HNSWConfig :=
  { m := 16, mMax := 32, efConstruction := 200, efSearch := 100,
    ml := 1 / Real.log 16, dimensions := dimensions }

/-- HNSWNode: `neighbors[layer]` is the list of neighbor IDs; `layer` is
the maximum layer this node appears in. -/
structure HNSWNode where
  id : String
  vector : List ℝ
  metadata : Metadata
  neighbors : List (List String)
  layer : ℕ

instance : Inhabited HNSWNode := ⟨⟨"", [], default, [], 0⟩⟩

/-- Reading `idx.nodes[id]` (`nil` becomes `none`). -/
def lookupN (nodes : List (String × HNSWNode)) (id : String) :
    Option HNSWNode :=
  (nodes.find? (fun p => p.1 = id)).map (fun p => p.2)

/-- Writing `idx.nodes[id] = node`: replace in place, or append a fresh
key. -/
def setN (nodes : List (String × HNSWNode)) (id : String)
    (node : HNSWNode) : List (String × HNSWNode) :=
  if (lookupN nodes id).isSome then
    nodes.map (fun p => if p.1 = id then (p.1, node) else p)
  else nodes ++ [(id, node)]

/-- Mutating the node struct `idx.nodes[id]` points to (a no-op if the
key is absent). -/
def adjustN (nodes : List (String × HNSWNode)) (id : String)
    (f : HNSWNode → HNSWNode) : List (String × HNSWNode) :=
  nodes.map (fun p => if p.1 = id then (p.1, f p.2) else p)

/-- Bookkeeping (not from the source): the key list of the node map. -/
def keysOf (nodes : List (String × HNSWNode)) : List String :=
  nodes.map Prod.fst

/-- Bookkeeping (not from the source): the fields of a node that the
linking phase never rewrites (everything but `neighbors`). -/
def nodeCore (nd : HNSWNode) : String × List ℝ × Metadata × ℕ :=
  (nd.id, nd.vector, nd.metadata, nd.layer)

/-- Specification shorthand (not from the source): the per-layer degree
bound of claim P2 — `MMax` at layer 0, `M` above. -/
def mBound (cfg : HNSWConfig) (l : ℕ) : ℕ :=
  if l = 0 then cfg.mMax else cfg.m

/-- Bookkeeping (not from the source): all ids referenced at layer `l`
by some stored node's neighbor list. -/
def refsAt (nodes : List (String × HNSWNode)) (l : ℕ) : List String :=
  (nodes.map (fun p => p.2.neighbors.getD l [])).flatten

/-- Specification predicate (not from the source): every stored
neighbor list respects the per-layer degree bound. -/
def DegreeBounded (cfg : HNSWConfig)
    (nodes : List (String × HNSWNode)) : Prop :=
  ∀ p ∈ nodes, ∀ l : ℕ, (p.2.neighbors.getD l []).length ≤ mBound cfg l

/-- distanceNode pairs an ID with its distance for heap operations. -/
structure DistanceNode where
  id : String
  distance : ℝ
  isMaxHeap : Bool

instance : Inhabited DistanceNode := ⟨⟨"", 0, false⟩⟩

/-- `distanceHeap.Less`: the comparator direction is chosen by the
`isMaxHeap` flag of the CURRENT root `h[0]` (max-heap when set). -/
def dnLess (l : List DistanceNode) (i j : ℕ) : Prop :=
  if (l.getD 0 default).isMaxHeap then
    (l.getD j default).distance < (l.getD i default).distance
  else
    (l.getD i default).distance < (l.getD j default).distance

noncomputable instance (l : List DistanceNode) (i j : ℕ) :
    Decidable (dnLess l i j) := by unfold dnLess; infer_instance

/-- `randomLevel`'s loop: each check consumes one `rng.Float64()` draw
`u` and increments while `u < ML && level < 16`. -/
noncomputable def randomLevelAux (ml : ℝ) : List ℝ → ℕ → ℕ
  | [], level => level
  | u :: rest, level =>
    if u < ml ∧ level < 16 then randomLevelAux ml rest (level + 1)
    else level

/-- `randomLevel` starting from `level = 0`. -/
noncomputable def randomLevel (ml : ℝ) (draws : List ℝ) : ℕ :=
  randomLevelAux ml draws 0

/-- One pass of the greedy-descent loop body (`for changed` body): the
iterated neighbor list is the pass-start node's, but each comparison is
against the distance of the CURRENT node, which moves mid-pass.  Returns
the final current node and the `changed` flag. -/
noncomputable def greedyPass (nodes : List (String × HNSWNode))
    (q : List ℝ) (l : ℕ) (cur : String × HNSWNode) :
    (String × HNSWNode) × Bool :=
  if l < cur.2.neighbors.length then
    (cur.2.neighbors.getD l []).foldl
      (fun acc nid =>
        match lookupN nodes nid with
        | none => acc
        | some nb =>
          if CosineDistance q nb.vector < CosineDistance q acc.1.2.vector
          then ((nid, nb), true)
          else acc)
      (cur, false)
  else (cur, false)

/-- The `for changed` loop: repeat passes while a pass moved.  Each
moving pass strictly decreases the current distance over a finite node
set, so `nodes.length + 1` passes always suffice as fuel. -/
noncomputable def greedyLoop (nodes : List (String × HNSWNode))
    (q : List ℝ) (l : ℕ) (fuel : ℕ) (cur : String × HNSWNode) :
    String × HNSWNode :=
  if _h : fuel = 0 then cur
  else
    let pass := greedyPass nodes q l cur
    if pass.2 then greedyLoop nodes q l (fuel - 1) pass.1 else pass.1
termination_by fuel
decreasing_by omega

/-- The descending layer list `[hi, hi - 1, ..., lo + 1]` of the loops
`for l := hi; l > lo; l--`. -/
def intRangeDown (hi lo : ℤ) : List ℤ :=
  (List.range (hi - lo).toNat).map (fun i : ℕ => hi - (i : ℤ))

/-- The greedy descent over the given layers (`Insert` uses layers
`maxLevel .. level+1`, `Search` uses `maxLevel .. 1`). -/
noncomputable def descend (nodes : List (String × HNSWNode)) (q : List ℝ)
    (cur : String × HNSWNode) (layers : List ℤ) : String × HNSWNode :=
  layers.foldl (fun c l => greedyLoop nodes q l.toNat (nodes.length + 1) c)
    cur

/-- The mutable state of `searchLayer`: the `visited` set and the two
`distanceHeap`s (`candidates` min-heap, `results` max-heap). -/
structure SLState where
  visited : List String
  cands : List DistanceNode
  results : List DistanceNode

/-- The body of `searchLayer`'s neighbor loop for one `neighborID`. -/
noncomputable def slVisit (nodes : List (String × HNSWNode))
    (query : List ℝ) (ef : ℕ) (st : SLState) (neighborID : String) :
    SLState :=
  if st.visited.contains neighborID then st
  else
    let vis := neighborID :: st.visited
    match lookupN nodes neighborID with
    | none => { st with visited := vis }
    | some neighbor =>
      let dist := CosineDistance query neighbor.vector
      if st.results.length < ef then
        { visited := vis,
          cands := heapPushG dnLess st.cands ⟨neighborID, dist, false⟩,
          results := heapPushG dnLess st.results ⟨neighborID, dist, true⟩ }
      else if dist < (st.results.getD 0 default).distance then
        { visited := vis,
          cands := heapPushG dnLess st.cands ⟨neighborID, dist, false⟩,
          results := heapPushG dnLess (heapPopG dnLess st.results).2
            ⟨neighborID, dist, true⟩ }
      else { st with visited := vis }

/-- The `for candidates.Len() > 0` loop of `searchLayer`.  Every
iteration pops one candidate and pushes only never-visited ids, so pops
are bounded by `nodes.length + 1`, the fuel used below. -/
noncomputable def slLoop (nodes : List (String × HNSWNode))
    (query : List ℝ) (ef layer : ℕ) (fuel : ℕ) (st : SLState) : SLState :=
  if _h : fuel = 0 then st
  else
    if st.cands.length = 0 then st
    else
      let p := heapPopG dnLess st.cands
      let closest := p.1
      let st1 : SLState := { st with cands := p.2 }
      if 0 < st1.results.length ∧
          (st1.results.getD 0 default).distance < closest.distance then st1
      else
        match lookupN nodes closest.id with
        | none => slLoop nodes query ef layer (fuel - 1) st1
        | some node =>
          if node.neighbors.length ≤ layer then
            slLoop nodes query ef layer (fuel - 1) st1
          else
            slLoop nodes query ef layer (fuel - 1)
              ((node.neighbors.getD layer []).foldl
                (slVisit nodes query ef) st1)
termination_by fuel
decreasing_by
  all_goals omega

/-- `searchLayer`: beam search at one layer.  The extraction loop fills
the output slice from the back with successive pops of the max-heap
(`(heapDrain ...).reverse`, closest first), and the subsequent
exchange loop reverses the slice once more — so the returned slice is
the raw pop sequence, FURTHEST first, despite the "closest first"
comment in the source. -/
noncomputable def searchLayer (nodes : List (String × HNSWNode))
    (query : List ℝ) (entryID : String) (ef layer : ℕ) :
    List DistanceNode :=
  match lookupN nodes entryID with
  | none => []
  | some entryNode =>
    let entryDist := CosineDistance query entryNode.vector
    let st0 : SLState :=
      { visited := [entryID],
        cands := heapPushG dnLess [] ⟨entryID, entryDist, false⟩,
        results := heapPushG dnLess [] ⟨entryID, entryDist, true⟩ }
    let st := slLoop nodes query ef layer (nodes.length + 1) st0
    ((heapDrain dnLess st.results).reverse).reverse

/-- `selectNeighbors`: plain truncation to the `m` closest candidates
(the input is already ordered). -/
def selectNeighbors (candidates : List DistanceNode) (m : ℕ) :
    List DistanceNode :=
  if candidates.length ≤ m then candidates else candidates.take m

/-- Inner loop of `pruneConnections`' exchange sort: for fixed `i`,
swap `dists[i]` and `dists[j]` whenever `dists[j].dist < dists[i].dist`,
for `j = i+1 .. len-1`. -/
noncomputable def exchInner (l : List (String × ℝ)) (i : ℕ) :
    List (String × ℝ) :=
  (List.range' (i + 1) (l.length - (i + 1))).foldl
    (fun acc j =>
      if (acc.getD j default).2 < (acc.getD i default).2
      then hswap acc i j else acc) l

/-- Outer loop of the exchange sort (`i = 0 .. len-2`; the bound
`len` used here adds one final empty inner loop). -/
noncomputable def exchangeSort (l : List (String × ℝ)) :
    List (String × ℝ) :=
  (List.range l.length).foldl exchInner l

/-- `pruneConnections`: keep the `m` closest of `neighbors` (ids whose
node is missing are silently dropped while computing distances). -/
noncomputable def pruneConnections (nodes : List (String × HNSWNode))
    (nodeVector : List ℝ) (neighbors : List String) (m : ℕ) :
    List String :=
  if neighbors.length ≤ m then neighbors
  else
    let dists := neighbors.filterMap (fun nid =>
      (lookupN nodes nid).map
        (fun node => (nid, CosineDistance nodeVector node.vector)))
    let sorted := exchangeSort dists
    (sorted.take m).map (fun p => p.1)

/-- HNSWIndex state: the node map, the entry point id (`""` = unset),
`maxLevel` (`-1` on a fresh index) and the configuration. -/
structure HNSWIndex where
  nodes : List (String × HNSWNode)
  entryPoint : String
  maxLevel : ℤ
  config : HNSWConfig

/-- NewHNSWIndex creates a new HNSW index with the given configuration. -/
def NewHNSWIndex (config : HNSWConfig) : HNSWIndex :=
  { nodes := [], entryPoint := "", maxLevel := -1, config := config }

/-- One `selectedNeighbors` element of `Insert`'s per-layer loop: append
the forward edge `v → nid` to the (aliased, map-resident) new node, then
append the reverse edge `nid → v` and prune it when it exceeds `mLayer`.
The reverse edge is skipped when the neighbor's list does not reach
layer `l`. -/
noncomputable def insEdgeStep (vID : String) (mLayer l : ℕ)
    (nodes : List (String × HNSWNode)) (nid : String) :
    List (String × HNSWNode) :=
  let nodes1 := adjustN nodes vID (fun nd =>
    { nd with neighbors :=
        nd.neighbors.set l ((nd.neighbors.getD l []) ++ [nid]) })
  match lookupN nodes1 nid with
  | none => nodes1
  | some neighbor =>
    if l < neighbor.neighbors.length then
      let appended := (neighbor.neighbors.getD l []) ++ [vID]
      let nodes2 := adjustN nodes1 nid (fun nd =>
        { nd with neighbors := nd.neighbors.set l appended })
      if mLayer < appended.length then
        let pruned := pruneConnections nodes2 neighbor.vector appended mLayer
        adjustN nodes2 nid (fun nd =>
          { nd with neighbors := nd.neighbors.set l pruned })
      else nodes2
    else nodes1

/-- One layer `l` of `Insert`'s linking phase: beam-search the layer,
select at most `mLayer` neighbors, reset the new node's list at `l`,
link every selected neighbor, and move the entry to `selected[0]`. -/
noncomputable def insertLayer (cfg : HNSWConfig) (vID : String)
    (vEmb : List ℝ) (st : List (String × HNSWNode) × String) (l : ℤ) :
    List (String × HNSWNode) × String :=
  let nbrs := searchLayer st.1 vEmb st.2 cfg.efConstruction l.toNat
  let mLayer := if l = 0 then cfg.mMax else cfg.m
  let selected := selectNeighbors nbrs mLayer
  let nodes1 := adjustN st.1 vID (fun nd =>
    { nd with neighbors := nd.neighbors.set l.toNat [] })
  let nodes2 := selected.foldl
    (fun ns n => insEdgeStep vID mLayer l.toNat ns n.id) nodes1
  (nodes2, if 0 < selected.length then (selected.getD 0 default).id
    else st.2)

/-- `Insert` with the random level already resolved.  The fresh node is
stored BEFORE the entry-point check; the first-node branch only sets the
entry point and `maxLevel`.  The entry-point lookup always succeeds when
`entryPoint ≠ ""` (keys are never removed); `getD node` is the total
rendering of that dereference. -/
noncomputable def insertWithLevel (idx : HNSWIndex) (v : Vec)
    (level : ℕ) : HNSWIndex :=
  let node : HNSWNode :=
    { id := v.id, vector := v.embedding, metadata := v.metadata,
      neighbors := List.replicate (level + 1) [], layer := level }
  let nodes := setN idx.nodes v.id node
  if idx.entryPoint = "" then
    { idx with nodes := nodes, entryPoint := v.id, maxLevel := (level : ℤ) }
  else
    let cur0 : String × HNSWNode :=
      (idx.entryPoint, (lookupN nodes idx.entryPoint).getD node)
    let cur := descend nodes v.embedding cur0
      (intRangeDown idx.maxLevel (level : ℤ))
    let st := (intRangeDown (min (level : ℤ) idx.maxLevel) (-1)).foldl
      (insertLayer idx.config v.id v.embedding) (nodes, cur.1)
    let idx1 := { idx with nodes := st.1 }
    if idx.maxLevel < (level : ℤ) then
      { idx1 with entryPoint := v.id, maxLevel := (level : ℤ) }
    else idx1

/-- `Insert`: draw the level from the rng stream, link, and always
return `nil` error (`Except.ok`). -/
noncomputable def HNSWIndex.Insert (idx : HNSWIndex) (v : Vec)
    (draws : List ℝ) : Except String HNSWIndex :=
  Except.ok (insertWithLevel idx v (randomLevel idx.config.ml draws))

/-- A whole sequence of `Insert` calls, each with its own rng draws. -/
noncomputable def applyInserts (idx : HNSWIndex)
    (ops : List (Vec × List ℝ)) : HNSWIndex :=
  ops.foldl (fun i p => insertWithLevel i p.1 (randomLevel i.config.ml p.2))
    idx

/-- HNSW `Search`: empty-index guard, greedy descent to layer 1, beam
search at layer 0, then the first `topK` candidates are looked up and
scored with `CosineSimilarity` (missing ids are skipped). -/
noncomputable def HNSWIndex.Search (idx : HNSWIndex) (query : List ℝ)
    (topK : ℕ) : List SearchResult :=
  if idx.nodes.length = 0 ∨ idx.entryPoint = "" then []
  else
    let cur0 : String × HNSWNode :=
      (idx.entryPoint, (lookupN idx.nodes idx.entryPoint).getD default)
    let cur := descend idx.nodes query cur0 (intRangeDown idx.maxLevel 0)
    let candidates := searchLayer idx.nodes query cur.1
      idx.config.efSearch 0
    (candidates.take topK).filterMap (fun c =>
      (lookupN idx.nodes c.id).map (fun node =>
        { id := c.id, score := CosineSimilarity query node.vector,
          metadata := node.metadata }))

/-- `Count` returns the number of keys of the node map. -/
def HNSWIndex.Count (idx : HNSWIndex) : ℕ := idx.nodes.length

/-- `Dimensions` of the HNSW index. -/
def HNSWIndex.Dimensions (idx : HNSWIndex) : ℕ := idx.config.dimensions

/-! ## HTTP handler validation (`internal/api/handlers.go`) -/

/-- Handler state: both indexes plus the declared dimension. -/
structure Handler where
  bruteForce : BruteForceIndex
  hnsw : HNSWIndex
  dimensions : ℕ

/-- NewHandler with initialized indexes. -/
noncomputable def NewHandler (dimensions : ℕ) : Handler :=
  { bruteForce := NewBruteForceIndex dimensions,
    hnsw := NewHNSWIndex (DefaultHNSWConfig dimensions),
    dimensions := dimensions }

/-- InsertResponse body (`success`, `message`). -/
structure InsertResponse where
  success : Bool
  message : String
deriving DecidableEq

/-- `HandleInsert` after a successful JSON decode: the ONLY validation
is the embedding-length check; then the vector is inserted into both
indexes (each insert's error path kept as in the source). -/
noncomputable def HandleInsert (h : Handler) (req : Vec)
    (draws : List ℝ) : InsertResponse × Handler :=
  if req.embedding.length ≠ h.dimensions then
    ({ success := false, message := "Invalid embedding dimensions" }, h)
  else
    match h.bruteForce.Insert req with
    | Except.error msg =>
      ({ success := false,
         message := "Failed to insert into brute-force index: " ++ msg },
       h)
    | Except.ok bf =>
      match h.hnsw.Insert req draws with
      | Except.error msg =>
        ({ success := false,
           message := "Failed to insert into HNSW index: " ++ msg },
         { h with bruteForce := bf })
      | Except.ok hn =>
        ({ success := true, message := "Vector inserted successfully" },
         { h with bruteForce := bf, hnsw := hn })

/-! ## Trace model for read idempotence -/

/-- One API-level operation against the pair of indexes. -/
inductive Op where
  | insert (v : Vec) (draws : List ℝ)
  | searchBF (q : List ℝ) (k : ℕ)
  | searchConcBF (q : List ℝ) (k : ℕ) (w : ℤ) (arrival : List ℕ)
  | searchHNSW (q : List ℝ) (k : ℕ)

/-- The joint state of both indexes. -/
structure SysState where
  bf : BruteForceIndex
  hn : HNSWIndex

/-- Executing one operation: the next state and the produced output. -/
noncomputable def stepOp (s : SysState) (op : Op) :
    SysState × List SearchResult :=
  match op with
  | Op.insert v draws =>
    ({ bf := { s.bf with vectors := s.bf.vectors ++ [v] },
       hn := insertWithLevel s.hn v (randomLevel s.hn.config.ml draws) },
     [])
  | Op.searchBF q k => (s, s.bf.Search q k)
  | Op.searchConcBF q k w arrival => (s, s.bf.SearchConcurrent q k w arrival)
  | Op.searchHNSW q k => (s, s.hn.Search q k)

/-- Executing a trace, collecting every output. -/
noncomputable def runTrace (s : SysState) :
    List Op → SysState × List (List SearchResult)
  | [] => (s, [])
  | op :: ops =>
    let p := stepOp s op
    let r := runTrace p.1 ops
    (r.1, p.2 :: r.2)

/-! ## THEOREMS -/

/-! ### Generic heap lemmas -/

theorem hswap_length {α : Type} [Inhabited α] (l : List α) (i j : ℕ) :
    (hswap l i j).length = l.length := by
  simp [hswap]

theorem getD_set_ne {α : Type} (l : List α) (i m : ℕ) (a d : α) (h : i ≠ m) :
    (l.set i a).getD m d = l.getD m d := by
  simp [List.getD_eq_getElem?_getD, List.getElem?_set_ne h]

theorem getD_set_self {α : Type} (l : List α) (i : ℕ) (a d : α) (h : i < l.length) :
    (l.set i a).getD i d = a := by
  simp [List.getD_eq_getElem?_getD, List.getElem?_set_self, h]

theorem set_getD_self {α : Type} (l : List α) (i : ℕ) (d : α) (h : i < l.length) :
    l.set i (l.getD i d) = l := by
  induction l generalizing i with
  | nil => simp at h
  | cons x t ih =>
    cases i with
    | zero => simp [List.getD_cons_zero]
    | succ n =>
      simp only [List.length_cons, Nat.succ_lt_succ_iff] at h
      rw [List.getD_cons_succ, List.set_cons_succ, ih n h]

theorem hswap_getD_fst {α : Type} [Inhabited α] (l : List α) (i j : ℕ)
    (hi : i < l.length) (hij : i ≠ j) :
    (hswap l i j).getD i default = l.getD j default := by
  unfold hswap
  rw [getD_set_ne _ _ _ _ _ (Ne.symm hij), getD_set_self _ _ _ _ hi]

theorem hswap_getD_snd {α : Type} [Inhabited α] (l : List α) (i j : ℕ)
    (hj : j < l.length) :
    (hswap l i j).getD j default = l.getD i default := by
  unfold hswap
  rw [getD_set_self]
  simpa using hj

theorem hswap_getD_other {α : Type} [Inhabited α] (l : List α) (i j m : ℕ)
    (hmi : m ≠ i) (hmj : m ≠ j) :
    (hswap l i j).getD m default = l.getD m default := by
  unfold hswap
  rw [getD_set_ne _ _ _ _ _ (Ne.symm hmj), getD_set_ne _ _ _ _ _ (Ne.symm hmi)]

theorem set_getD_perm {α : Type} (t : List α) (k : ℕ) (a d : α) (hk : k < t.length) :
    (t.getD k d :: t.set k a).Perm (a :: t) := by
  induction t generalizing k with
  | nil => simp at hk
  | cons b s ih =>
    cases k with
    | zero =>
      simp only [List.getD_cons_zero, List.set]
      exact List.Perm.swap _ _ _
    | succ n =>
      simp only [List.length_cons, Nat.succ_lt_succ_iff] at hk
      simp only [List.getD_cons_succ, List.set]
      refine List.Perm.trans (List.Perm.swap b (s.getD n d) (s.set n a)) ?_
      exact List.Perm.trans (List.Perm.cons b (ih n hk)) (List.Perm.swap a b s)

theorem hswap_perm {α : Type} [Inhabited α] (l : List α) (i j : ℕ)
    (hi : i < l.length) (hj : j < l.length) : (hswap l i j).Perm l := by
  induction l generalizing i j with
  | nil => simp at hi
  | cons x t ih =>
    cases i with
    | zero =>
      cases j with
      | zero =>
        simp [hswap, List.getD_cons_zero, List.set]
      | succ m =>
        simp only [List.length_cons, Nat.succ_lt_succ_iff] at hj
        simp only [hswap, List.getD_cons_succ, List.getD_cons_zero, List.set]
        exact set_getD_perm t m x default hj
    | succ n =>
      simp only [List.length_cons, Nat.succ_lt_succ_iff] at hi
      cases j with
      | zero =>
        simp only [hswap, List.getD_cons_succ, List.getD_cons_zero, List.set]
        exact set_getD_perm t n x default hi
      | succ m =>
        simp only [List.length_cons, Nat.succ_lt_succ_iff] at hj
        simp only [hswap, List.getD_cons_succ, List.set]
        exact List.Perm.cons x (ih n m hi hj)

theorem heapUp_length {α : Type} [Inhabited α] (less : List α → ℕ → ℕ → Prop)
    [∀ l i j, Decidable (less l i j)] :
    ∀ (j : ℕ) (l : List α), (heapUp less l j).length = l.length := by
  intro j
  induction j using Nat.strong_induction_on with
  | _ j ih =>
    intro l
    rw [heapUp]
    split
    · rfl
    · rename_i h
      push_neg at h
      have hlt : (j - 1) / 2 < j := by omega
      rw [ih _ hlt, hswap_length]

theorem heapUp_perm {α : Type} [Inhabited α] (less : List α → ℕ → ℕ → Prop)
    [∀ l i j, Decidable (less l i j)] :
    ∀ (j : ℕ) (l : List α), j < l.length → (heapUp less l j).Perm l := by
  intro j
  induction j using Nat.strong_induction_on with
  | _ j ih =>
    intro l hj
    rw [heapUp]
    split
    · exact List.Perm.refl l
    · rename_i h
      push_neg at h
      have hlt : (j - 1) / 2 < j := by omega
      have hsw := hswap_perm l ((j - 1) / 2) j (lt_trans hlt hj) hj
      have hlen : (j - 1) / 2 < (hswap l ((j - 1) / 2) j).length := by
        rw [hswap_length]; exact lt_trans hlt hj
      exact List.Perm.trans (ih _ hlt _ hlen) hsw

theorem heapDown_length {α : Type} [Inhabited α] (less : List α → ℕ → ℕ → Prop)
    [∀ l i j, Decidable (less l i j)] :
    ∀ (k : ℕ) (l : List α) (i n : ℕ), n - i ≤ k →
      (heapDown less l i n).length = l.length := by
  intro k
  induction k with
  | zero =>
    intro l i n hk
    rw [heapDown]
    have : n ≤ 2 * i + 1 := by omega
    simp [this]
  | succ k ih =>
    intro l i n hk
    rw [heapDown]
    split
    · rfl
    · rename_i h1
      simp only []
      split <;> rename_i hsel <;> split <;> rename_i hless
      · rw [ih _ _ _ (by omega), hswap_length]
      · rfl
      · rw [ih _ _ _ (by omega), hswap_length]
      · rfl

theorem heapDown_perm {α : Type} [Inhabited α] (less : List α → ℕ → ℕ → Prop)
    [∀ l i j, Decidable (less l i j)] :
    ∀ (k : ℕ) (l : List α) (i n : ℕ), n - i ≤ k → n ≤ l.length →
      (heapDown less l i n).Perm l := by
  intro k
  induction k with
  | zero =>
    intro l i n hk _
    rw [heapDown]
    have : n ≤ 2 * i + 1 := by omega
    simp [this]
  | succ k ih =>
    intro l i n hk hn
    rw [heapDown]
    split
    · exact List.Perm.refl l
    · rename_i h1
      simp only []
      split <;> rename_i hsel <;> split <;> rename_i hless
      · exact List.Perm.trans
          (ih _ _ _ (by omega) (by rw [hswap_length]; omega))
          (hswap_perm l i (2 * i + 2) (by omega) (by omega))
      · exact List.Perm.refl l
      · exact List.Perm.trans
          (ih _ _ _ (by omega) (by rw [hswap_length]; omega))
          (hswap_perm l i (2 * i + 1) (by omega) (by omega))
      · exact List.Perm.refl l

theorem heapDown_getD_ge {α : Type} [Inhabited α] (less : List α → ℕ → ℕ → Prop)
    [∀ l i j, Decidable (less l i j)] :
    ∀ (k : ℕ) (l : List α) (i n m : ℕ), n - i ≤ k → n ≤ m →
      (heapDown less l i n).getD m default = l.getD m default := by
  intro k
  induction k with
  | zero =>
    intro l i n m hk _
    rw [heapDown]
    have : n ≤ 2 * i + 1 := by omega
    simp [this]
  | succ k ih =>
    intro l i n m hk hm
    rw [heapDown]
    split
    · rfl
    · rename_i h1
      simp only []
      split <;> rename_i hsel <;> split <;> rename_i hless
      · rw [ih _ _ _ _ (by omega) hm,
          hswap_getD_other l i (2 * i + 2) m (by omega) (by omega)]
      · rfl
      · rw [ih _ _ _ _ (by omega) hm,
          hswap_getD_other l i (2 * i + 1) m (by omega) (by omega)]
      · rfl

theorem heapPushG_length {α : Type} [Inhabited α] (less : List α → ℕ → ℕ → Prop)
    [∀ l i j, Decidable (less l i j)] (l : List α) (x : α) :
    (heapPushG less l x).length = l.length + 1 := by
  unfold heapPushG
  rw [heapUp_length, List.length_append, List.length_cons, List.length_nil]

theorem heapPushG_perm {α : Type} [Inhabited α] (less : List α → ℕ → ℕ → Prop)
    [∀ l i j, Decidable (less l i j)] (l : List α) (x : α) :
    (heapPushG less l x).Perm (x :: l) := by
  unfold heapPushG
  have h1 : l.length < (l ++ [x]).length := by simp
  exact List.Perm.trans (heapUp_perm less l.length (l ++ [x]) h1)
    (List.perm_append_singleton x l)

theorem heapPopG_fst {α : Type} [Inhabited α] (less : List α → ℕ → ℕ → Prop)
    [∀ l i j, Decidable (less l i j)] (l : List α) (hl : l ≠ []) :
    (heapPopG less l).1 = l.getD 0 default := by
  unfold heapPopG
  have hlen : 0 < l.length := List.length_pos.mpr hl
  simp only []
  rw [heapDown_getD_ge less (l.length - 1) (hswap l 0 (l.length - 1)) 0
    (l.length - 1) (l.length - 1) (by omega) (le_refl _)]
  by_cases h0 : l.length - 1 = 0
  · rw [h0]
    unfold hswap
    rw [set_getD_self l 0 default hlen, set_getD_self l 0 default hlen]
  · exact hswap_getD_snd l 0 (l.length - 1) (by omega)

theorem heapPopG_len {α : Type} [Inhabited α] (less : List α → ℕ → ℕ → Prop)
    [∀ l i j, Decidable (less l i j)] (l : List α) (hl : l ≠ []) :
    (heapPopG less l).2.length = l.length - 1 := by
  unfold heapPopG
  have hlen : 0 < l.length := List.length_pos.mpr hl
  simp only [List.length_take]
  rw [heapDown_length less (l.length - 1) (hswap l 0 (l.length - 1)) 0
    (l.length - 1) (by omega), hswap_length]
  omega

theorem heapPopG_perm {α : Type} [Inhabited α] (less : List α → ℕ → ℕ → Prop)
    [∀ l i j, Decidable (less l i j)] (l : List α) (hl : l ≠ []) :
    l.Perm ((heapPopG less l).1 :: (heapPopG less l).2) := by
  have hlen : 0 < l.length := List.length_pos.mpr hl
  have hlen2 : (heapDown less (hswap l 0 (l.length - 1)) 0 (l.length - 1)).length
      = l.length := by
    rw [heapDown_length less (l.length - 1) (hswap l 0 (l.length - 1)) 0
      (l.length - 1) (by omega), hswap_length]
  have hperm : (heapDown less (hswap l 0 (l.length - 1)) 0 (l.length - 1)).Perm l := by
    have h1 : l.length - 1 ≤ (hswap l 0 (l.length - 1)).length := by
      rw [hswap_length]; omega
    exact List.Perm.trans
      (heapDown_perm less (l.length - 1) (hswap l 0 (l.length - 1)) 0
        (l.length - 1) (by omega) h1)
      (hswap_perm l 0 (l.length - 1) hlen (by omega))
  generalize hgen : heapDown less (hswap l 0 (l.length - 1)) 0 (l.length - 1) = l2
    at hlen2 hperm
  have h2 : l.length - 1 < l2.length := by omega
  have hdrop : l2.drop (l.length - 1) = [l2.getD (l.length - 1) default] := by
    rw [List.getD_eq_getElem l2 default h2]
    rw [List.drop_eq_getElem_cons h2]
    have : l2.drop (l.length - 1 + 1) = [] := by
      apply List.drop_eq_nil_of_le
      omega
    rw [this]
  have hsplit : l2 = l2.take (l.length - 1) ++ [l2.getD (l.length - 1) default] := by
    conv_lhs => rw [← List.take_append_drop (l.length - 1) l2]
    rw [hdrop]
  have hgoal1 : (heapPopG less l).1 = l2.getD (l.length - 1) default := by
    unfold heapPopG
    simp only []
    rw [hgen]
  have hgoal2 : (heapPopG less l).2 = l2.take (l.length - 1) := by
    unfold heapPopG
    simp only []
    rw [hgen]
  rw [hgoal1, hgoal2]
  refine List.Perm.trans hperm.symm ?_
  nth_rewrite 1 [hsplit]
  exact List.perm_append_singleton _ _

theorem getD_append_left {α : Type} (l l' : List α) (m : ℕ) (d : α)
    (h : m < l.length) : (l ++ l').getD m d = l.getD m d := by
  rw [List.getD_eq_getElem?_getD, List.getD_eq_getElem?_getD,
    List.getElem?_append, if_pos h]

theorem getD_take {α : Type} (l : List α) (n m : ℕ) (d : α) (h : m < n) :
    (l.take n).getD m d = l.getD m d := by
  rw [List.getD_eq_getElem?_getD, List.getD_eq_getElem?_getD,
    List.getElem?_take, if_pos h]

/-- Sift-up restores the heap property: if every parent-child edge is
ordered except possibly the one into `j`, and `j`'s children (if any) are
bounded below by `j`'s parent, then `heapUp` yields a heap. -/
theorem heapUp_heapProp {α : Type} [Inhabited α] (key : α → ℝ) :
    ∀ (j : ℕ) (l : List α), j < l.length →
    (∀ c, 0 < c → c < l.length → c ≠ j →
        key (l.getD ((c - 1) / 2) default) ≤ key (l.getD c default)) →
    (∀ c, 0 < c → c < l.length → (c - 1) / 2 = j → 0 < j →
        key (l.getD ((j - 1) / 2) default) ≤ key (l.getD c default)) →
    heapProp key (heapUp (kLess key) l j) l.length := by
  intro j
  induction j using Nat.strong_induction_on with
  | _ j ih =>
    intro l hj h1 h2
    rw [heapUp]
    split
    · rename_i h
      intro c hc0 hcl
      by_cases hcj : c = j
      · subst hcj
        rcases h with h | h
        · omega
        · exact not_lt.mp h
      · exact h1 c hc0 hcl hcj
    · rename_i h
      push_neg at h
      obtain ⟨hne, hless⟩ := h
      have hj0 : j ≠ 0 := by omega
      have hilt : (j - 1) / 2 < j := by omega
      have hikey : key (l.getD j default) < key (l.getD ((j - 1) / 2) default) := hless
      have hlen : (hswap l ((j - 1) / 2) j).length = l.length := hswap_length ..
      have hgi : (hswap l ((j - 1) / 2) j).getD ((j - 1) / 2) default
          = l.getD j default :=
        hswap_getD_fst l ((j - 1) / 2) j (by omega) (by omega)
      have hgj : (hswap l ((j - 1) / 2) j).getD j default
          = l.getD ((j - 1) / 2) default :=
        hswap_getD_snd l ((j - 1) / 2) j hj
      have hmain := ih ((j - 1) / 2) hilt (hswap l ((j - 1) / 2) j)
        (by omega)
        (by
          intro c hc0 hcl hci
          rw [hlen] at hcl
          by_cases hcj : c = j
          · -- edge (j, i): the swap ordered it
            subst hcj
            have hpc : (c - 1) / 2 = (c - 1) / 2 := rfl
            rw [hgi, hgj]
            exact le_of_lt hikey
          · have hgc : (hswap l ((j - 1) / 2) j).getD c default
                = l.getD c default := hswap_getD_other l _ j c hci hcj
            by_cases hpj : (c - 1) / 2 = j
            · -- c is a child of j: grandparent bound h2
              rw [hpj, hgj, hgc]
              exact h2 c hc0 hcl hpj (by omega)
            · by_cases hpi : (c - 1) / 2 = (j - 1) / 2
              · -- c is the sibling of j (or another child of i)
                rw [hpi, hgi, hgc]
                have h1c := h1 c hc0 hcl hcj
                rw [hpi] at h1c
                exact le_trans (le_of_lt hikey) h1c
              · -- an edge untouched by the swap
                have hgp : (hswap l ((j - 1) / 2) j).getD ((c - 1) / 2) default
                    = l.getD ((c - 1) / 2) default :=
                  hswap_getD_other l _ j _ hpi hpj
                rw [hgp, hgc]
                exact h1 c hc0 hcl hcj)
        (by
          intro c hc0 hcl hpc hi0
          rw [hlen] at hcl
          have hgg : (hswap l ((j - 1) / 2) j).getD (((j - 1) / 2 - 1) / 2) default
              = l.getD (((j - 1) / 2 - 1) / 2) default := by
            apply hswap_getD_other
            · omega
            · omega
          have h1i := h1 ((j - 1) / 2) hi0 (by omega) (by omega)
          have hcne : c ≠ (j - 1) / 2 := by omega
          rw [hgg]
          by_cases hcj : c = j
          · rw [hcj, hswap_getD_snd l ((j - 1) / 2) j hj]
            exact h1i
          · rw [hswap_getD_other l _ j c hcne hcj]
            have h1c := h1 c hc0 hcl hcj
            rw [hpc] at h1c
            exact le_trans h1i h1c)
      rw [hlen] at hmain
      exact hmain

/-- Sift-down restores the heap property on the prefix of length `n`:
if every edge inside the prefix is ordered except possibly the ones out
of `i`, and `i`'s children are bounded below by `i`'s parent, then
`heapDown` yields a heap on the prefix. -/
theorem heapDown_heapProp {α : Type} [Inhabited α] (key : α → ℝ) :
    ∀ (k : ℕ) (l : List α) (i n : ℕ), n - i ≤ k → n ≤ l.length →
    (∀ c, 0 < c → c < n → (c - 1) / 2 ≠ i →
        key (l.getD ((c - 1) / 2) default) ≤ key (l.getD c default)) →
    (∀ c, 0 < c → c < n → (c - 1) / 2 = i → 0 < i →
        key (l.getD ((i - 1) / 2) default) ≤ key (l.getD c default)) →
    heapProp key (heapDown (kLess key) l i n) n := by
  intro k
  induction k with
  | zero =>
    intro l i n hk hn h1 h2
    rw [heapDown]
    have hni : n ≤ 2 * i + 1 := by omega
    rw [dif_pos hni]
    intro c hc0 hcn
    exact h1 c hc0 hcn (by omega)
  | succ k ih =>
    intro l i n hk hn h1 h2
    rw [heapDown]
    split
    · rename_i hni
      intro c hc0 hcn
      exact h1 c hc0 hcn (by omega)
    · rename_i hni
      simp only []
      -- facts shared by both selection branches
      have hstep : ∀ jj : ℕ, 2 * i + 1 ≤ jj → jj ≤ 2 * i + 2 → jj < n →
          (∀ c, c = 2 * i + 1 ∨ c = 2 * i + 2 → c < n →
            key (l.getD jj default) ≤ key (l.getD c default)) →
          heapProp key
            (if kLess key l jj i then
              heapDown (kLess key) (hswap l i jj) jj n else l) n := by
        intro jj hjlo hjhi hjn hjmin
        split
        · rename_i hless
          have hij : i ≠ jj := by omega
          have hikey : key (l.getD jj default) < key (l.getD i default) := hless
          apply ih (hswap l i jj) jj n (by omega)
            (by rw [hswap_length]; omega)
          · intro c hc0 hcn hpj
            have hgi : (hswap l i jj).getD i default = l.getD jj default :=
              hswap_getD_fst l i jj (by omega) hij
            have hgj : (hswap l i jj).getD jj default = l.getD i default :=
              hswap_getD_snd l i jj (by omega)
            by_cases hci : c = i
            · -- the edge from i up to its parent: grandparent bound h2
              subst hci
              have hgp : (hswap l c jj).getD ((c - 1) / 2) default
                  = l.getD ((c - 1) / 2) default := by
                apply hswap_getD_other <;> omega
              rw [hgp, hgi]
              exact h2 jj (by omega) hjn (by omega) hc0
            · by_cases hcj : c = jj
              · -- the swapped edge (jj, i)
                subst hcj
                have hpc : (c - 1) / 2 = i := by omega
                rw [hpc, hgi, hgj]
                exact le_of_lt hikey
              · have hgc : (hswap l i jj).getD c default = l.getD c default :=
                  hswap_getD_other l i jj c hci hcj
                by_cases hpi : (c - 1) / 2 = i
                · -- sibling of jj under i
                  rw [hpi, hgi, hgc]
                  exact hjmin c (by omega) hcn
                · have hgp : (hswap l i jj).getD ((c - 1) / 2) default
                      = l.getD ((c - 1) / 2) default :=
                    hswap_getD_other l i jj _ hpi hpj
                  rw [hgp, hgc]
                  exact h1 c hc0 hcn hpi
          · intro c hc0 hcn hpc hj0
            -- children of jj keep their old values; l[jj] ≤ l[c] from h1,
            -- and jj's parent slot now holds the old l[jj]
            have hcne : c ≠ i := by omega
            have hcnj : c ≠ jj := by omega
            have hpar : (jj - 1) / 2 = i := by omega
            have hgi : (hswap l i jj).getD i default = l.getD jj default :=
              hswap_getD_fst l i jj (by omega) hij
            rw [hswap_getD_other l i jj c hcne hcnj, hpar, hgi]
            have h1c := h1 c hc0 hcn (by omega)
            rw [hpc] at h1c
            exact h1c
        · rename_i hless
          have hikey : key (l.getD i default) ≤ key (l.getD jj default) :=
            not_lt.mp hless
          intro c hc0 hcn
          by_cases hpi : (c - 1) / 2 = i
          · rw [hpi]
            exact le_trans hikey (hjmin c (by omega) hcn)
          · exact h1 c hc0 hcn hpi
      split
      · rename_i hsel
        apply hstep (2 * i + 2) (by omega) (by omega) (by omega)
        intro c hc hcn
        rcases hc with hc | hc
        · subst hc
          exact le_of_lt hsel.2
        · subst hc
          exact le_refl _
      · rename_i hsel
        apply hstep (2 * i + 1) (by omega) (by omega) (by omega)
        intro c hc hcn
        rcases hc with hc | hc
        · subst hc
          exact le_refl _
        · subst hc
          rcases (not_and_or.mp hsel) with hlt | hge
          · omega
          · exact not_lt.mp hge

/-- `heap.Push` preserves the heap property. -/
theorem heapProp_push {α : Type} [Inhabited α] (key : α → ℝ) (l : List α)
    (x : α) (hp : heapProp key l l.length) :
    heapProp key (heapPushG (kLess key) l x) (heapPushG (kLess key) l x).length := by
  rw [heapPushG_length]
  unfold heapPushG
  have hmain := heapUp_heapProp key l.length (l ++ [x]) (by simp)
    (by
      intro c hc0 hcl hcj
      have hc : c < l.length := by
        simp only [List.length_append, List.length_cons, List.length_nil] at hcl
        omega
      rw [getD_append_left _ _ _ _ hc, getD_append_left _ _ _ _ (by omega)]
      exact hp c hc0 hc)
    (by
      intro c hc0 hcl hpc hj0
      simp only [List.length_append, List.length_cons, List.length_nil] at hcl
      omega)
  simpa using hmain

/-- `heap.Pop` preserves the heap property on the remaining elements. -/
theorem heapProp_pop {α : Type} [Inhabited α] (key : α → ℝ) (l : List α)
    (hl : l ≠ []) (hp : heapProp key l l.length) :
    heapProp key (heapPopG (kLess key) l).2 (heapPopG (kLess key) l).2.length := by
  have hlen : 0 < l.length := List.length_pos.mpr hl
  rw [heapPopG_len _ _ hl]
  unfold heapPopG
  simp only []
  have hdown := heapDown_heapProp key (l.length - 1) (hswap l 0 (l.length - 1))
    0 (l.length - 1) (by omega) (by rw [hswap_length]; omega)
    (by
      intro c hc0 hcn hpc
      have hc1 : c ≠ 0 := by omega
      have hc2 : c ≠ l.length - 1 := by omega
      have hp1 : (c - 1) / 2 ≠ l.length - 1 := by omega
      rw [hswap_getD_other l 0 (l.length - 1) c hc1 hc2,
        hswap_getD_other l 0 (l.length - 1) _ hpc hp1]
      exact hp c hc0 (by omega))
    (by
      intro c hc0 hcn hpc h00
      omega)
  intro c hc0 hcn
  rw [getD_take _ _ _ _ hcn, getD_take _ _ _ _ (by omega)]
  exact hdown c hc0 hcn

/-- In a heap the root is minimal among the prefix. -/
theorem heapProp_root_min {α : Type} [Inhabited α] (key : α → ℝ) (l : List α)
    (n : ℕ) (hp : heapProp key l n) :
    ∀ c, c < n → key (l.getD 0 default) ≤ key (l.getD c default) := by
  intro c
  induction c using Nat.strong_induction_on with
  | _ c ih =>
    intro hcn
    rcases Nat.eq_zero_or_pos c with hc | hc
    · subst hc; exact le_refl _
    · exact le_trans (ih ((c - 1) / 2) (by omega) (by omega)) (hp c hc hcn)

theorem heapDrain_perm {α : Type} [Inhabited α] (less : List α → ℕ → ℕ → Prop)
    [∀ l i j, Decidable (less l i j)] :
    ∀ (k : ℕ) (l : List α), l.length ≤ k → (heapDrain less l).Perm l := by
  intro k
  induction k with
  | zero =>
    intro l hk
    rw [heapDrain, dif_pos (by omega)]
    have : l = [] := List.length_eq_zero.mp (by omega)
    subst this
    exact List.Perm.refl []
  | succ k ih =>
    intro l hk
    rw [heapDrain]
    split
    · rename_i h
      have : l = [] := List.length_eq_zero.mp h
      subst this
      exact List.Perm.refl []
    · rename_i h
      have hl : l ≠ [] := by
        intro h0; subst h0; simp at h
      have hlen := heapPopG_len less l hl
      have htail := ih (heapPopG less l).2 (by omega)
      exact List.Perm.trans (List.Perm.cons _ htail) (heapPopG_perm less l hl).symm

/-- Draining a heap yields a key-sorted (ascending) list. -/
theorem heapDrain_sorted {α : Type} [Inhabited α] (key : α → ℝ) :
    ∀ (k : ℕ) (l : List α), l.length ≤ k → heapProp key l l.length →
    (heapDrain (kLess key) l).Pairwise (fun a b => key a ≤ key b) := by
  intro k
  induction k with
  | zero =>
    intro l hk hp
    rw [heapDrain, dif_pos (by omega)]
    exact List.Pairwise.nil
  | succ k ih =>
    intro l hk hp
    rw [heapDrain]
    split
    · exact List.Pairwise.nil
    · rename_i h
      have hl : l ≠ [] := by
        intro h0; subst h0; simp at h
      have hlen := heapPopG_len (kLess key) l hl
      refine List.Pairwise.cons ?_ (ih _ (by omega) (heapProp_pop key l hl hp))
      intro y hy
      have hy2 : y ∈ (heapPopG (kLess key) l).2 :=
        (heapDrain_perm (kLess key) k _ (by omega)).mem_iff.mp hy
      have hyl : y ∈ l :=
        (heapPopG_perm (kLess key) l hl).mem_iff.mpr (List.mem_cons_of_mem _ hy2)
      obtain ⟨c, hc, hval⟩ := List.mem_iff_getElem.mp hyl
      rw [heapPopG_fst _ _ hl]
      have := heapProp_root_min key l l.length hp c hc
      rw [List.getD_eq_getElem l default hc, hval] at this
      exact this

theorem heapProp_min_mem {α : Type} [Inhabited α] (key : α → ℝ) (l : List α)
    (hp : heapProp key l l.length) (y : α) (hy : y ∈ l) :
    key (l.getD 0 default) ≤ key y := by
  obtain ⟨c, hc, hval⟩ := List.mem_iff_getElem.mp hy
  have := heapProp_root_min key l l.length hp c hc
  rwa [List.getD_eq_getElem l default hc, hval] at this

/-! ### The bounded top-k selection loop -/

/-- One `mergeStep` preserves the heap property and the top-k selection
invariant. -/
theorem mergeStep_ok (k : ℕ) (hk : 1 ≤ k) (P : Multiset SearchResult)
    (H : List SearchResult) (r : SearchResult)
    (hheap : heapProp SearchResult.score H H.length)
    (hsel : TopKSel k P H) :
    heapProp SearchResult.score (mergeStep k H r) (mergeStep k H r).length ∧
    TopKSel k (r ::ₘ P) (mergeStep k H r) := by
  obtain ⟨hlen, C, hM, hC0, hdom⟩ := hsel
  unfold mergeStep
  by_cases hfull : H.length < k
  · rw [if_pos hfull]
    have hCz : C = 0 := hC0 hfull
    subst hCz
    have hcard : Multiset.card P = H.length := by
      rw [hM]; simp
    refine ⟨heapProp_push _ _ _ hheap, ?_, 0, ?_, ?_, ?_⟩
    · rw [heapPushG_length]
      simp only [Multiset.card_cons, hcard]
      omega
    · have hperm := heapPushG_perm resLess H r
      have : ((heapPushG resLess H r : List SearchResult) : Multiset SearchResult)
          = ↑(r :: H) := Multiset.coe_eq_coe.mpr hperm
      rw [hM, this]
      simp
    · intro _; rfl
    · intro x hx; simp at hx
  · rw [if_neg hfull]
    have hklen : H.length = k := by omega
    have hcardP : k ≤ Multiset.card P := by omega
    have hne : H ≠ [] := by
      intro h
      subst h
      simp at hklen
      omega
    -- heap at capacity k ≥ 1
    have hroot := heapProp_min_mem SearchResult.score H hheap
    by_cases hbeat : r.score > (H.getD 0 default).score
    · rw [if_pos hbeat]
      have hpopperm := heapPopG_perm resLess H hne
      have hpopfst := heapPopG_fst resLess H hne
      have hpoplen := heapPopG_len resLess H hne
      have hpopheap := heapProp_pop SearchResult.score H hne hheap
      have hpushheap := heapProp_push SearchResult.score _ r hpopheap
      have hpushperm := heapPushG_perm resLess (heapPopG resLess H).2 r
      have hpushlen := heapPushG_length resLess (heapPopG resLess H).2 r
      have hrootmem : (heapPopG resLess H).1 ∈ H := by
        rw [hpopperm.mem_iff]
        exact List.mem_cons_self _ _
      refine ⟨hpushheap, ?_, (heapPopG resLess H).1 ::ₘ C, ?_, ?_, ?_⟩
      · rw [hpushlen, hpoplen, hklen]
        simp only [Multiset.card_cons]
        omega
      · have h1 : (H : Multiset SearchResult)
            = (heapPopG resLess H).1 ::ₘ ↑(heapPopG resLess H).2 :=
          Multiset.coe_eq_coe.mpr hpopperm
        have h2 : ((heapPushG resLess (heapPopG resLess H).2 r : List SearchResult)
            : Multiset SearchResult) = r ::ₘ ↑(heapPopG resLess H).2 :=
          Multiset.coe_eq_coe.mpr hpushperm
        rw [hM, h1, h2]
        simp only [Multiset.cons_add, Multiset.add_cons]
        rw [Multiset.cons_swap]
      · intro hlt
        rw [hpushlen, hpoplen, hklen] at hlt
        omega
      · intro x hx y hy
        have hymem : y = r ∨ y ∈ (heapPopG resLess H).2 := by
          have := hpushperm.mem_iff.mp hy
          simpa using this
        have hyH : y = r ∨ y ∈ H := by
          rcases hymem with h | h
          · exact Or.inl h
          · exact Or.inr (hpopperm.mem_iff.mpr (List.mem_cons_of_mem _ h))
        rcases Multiset.mem_cons.mp hx with hx | hx
        · -- x is the evicted root
          subst hx
          rw [hpopfst]
          rcases hyH with h | h
          · subst h
            exact le_of_lt hbeat
          · exact hroot y h
        · -- x was already outside the heap
          rcases hyH with h | h
          · subst h
            refine le_trans (hdom x hx _ hrootmem) ?_
            rw [hpopfst]
            exact le_of_lt hbeat
          · exact hdom x hx y h
    · rw [if_neg hbeat]
      refine ⟨hheap, ?_, r ::ₘ C, ?_, ?_, ?_⟩
      · rw [hlen]
        simp only [Multiset.card_cons]
        omega
      · rw [hM, Multiset.add_cons]
      · intro hlt; omega
      · intro x hx y hy
        rcases Multiset.mem_cons.mp hx with hx | hx
        · subst hx
          exact le_trans (not_lt.mp hbeat) (hroot y hy)
        · exact hdom x hx y hy

/-- Folding `mergeStep` over a stream preserves heap property and
top-k selection. -/
theorem mergeFold_ok (k : ℕ) (hk : 1 ≤ k) :
    ∀ (rs : List SearchResult) (H : List SearchResult)
      (P : Multiset SearchResult),
      heapProp SearchResult.score H H.length → TopKSel k P H →
      heapProp SearchResult.score (rs.foldl (mergeStep k) H)
        (rs.foldl (mergeStep k) H).length ∧
      TopKSel k (↑rs + P) (rs.foldl (mergeStep k) H) := by
  intro rs
  induction rs with
  | nil =>
    intro H P hh hs
    constructor
    · simpa using hh
    · simpa using hs
  | cons r rs ih =>
    intro H P hh hs
    have hstep := mergeStep_ok k hk P H r hh hs
    have hrec := ih (mergeStep k H r) (r ::ₘ P) hstep.1 hstep.2
    have halg : ((r :: rs : List SearchResult) : Multiset SearchResult) + P
        = ↑rs + (r ::ₘ P) := by
      rw [← Multiset.cons_coe, Multiset.cons_add, Multiset.add_cons]
    rw [List.foldl_cons, halg]
    exact hrec

/-- The whole select-then-drain pipeline shared by `Search`,
`searchChunk` and `mergeResults`: length, descending sortedness, and
top-k domination over the input stream. -/
theorem drainRev_spec (k : ℕ) (hk : 1 ≤ k) (rs : List SearchResult) :
    ((heapDrain resLess (rs.foldl (mergeStep k) [])).reverse).length
        = min k rs.length ∧
    ((heapDrain resLess (rs.foldl (mergeStep k) [])).reverse).Pairwise
        (fun a b => b.score ≤ a.score) ∧
    ∃ C : Multiset SearchResult,
      (↑rs : Multiset SearchResult)
        = ↑((heapDrain resLess (rs.foldl (mergeStep k) [])).reverse) + C ∧
      ∀ x ∈ C, ∀ y ∈ (heapDrain resLess (rs.foldl (mergeStep k) [])).reverse,
        x.score ≤ y.score := by
  have hbase : TopKSel k 0 ([] : List SearchResult) := by
    refine ⟨by simp, 0, by simp, fun _ => rfl, by simp⟩
  have hheap0 : heapProp SearchResult.score ([] : List SearchResult)
      ([] : List SearchResult).length := by
    intro c hc0 hcl
    simp at hcl
  have hmain := mergeFold_ok k hk rs [] 0 hheap0 hbase
  have hsel : TopKSel k ↑rs (rs.foldl (mergeStep k) []) := by
    have := hmain.2
    rwa [add_zero] at this
  obtain ⟨hlen, C, hM, _hC0, hdom⟩ := hsel
  have hdrain := heapDrain_perm resLess (rs.foldl (mergeStep k) []).length
    (rs.foldl (mergeStep k) []) (le_refl _)
  have hsorted := heapDrain_sorted SearchResult.score
    (rs.foldl (mergeStep k) []).length (rs.foldl (mergeStep k) [])
    (le_refl _) hmain.1
  have hrevperm : ((heapDrain resLess (rs.foldl (mergeStep k) [])).reverse).Perm
      (rs.foldl (mergeStep k) []) :=
    List.Perm.trans (List.reverse_perm _) hdrain
  refine ⟨?_, ?_, C, ?_, ?_⟩
  · rw [hrevperm.length_eq, hmain.2.1]
    simp
  · rw [List.pairwise_reverse]
    exact hsorted
  · rw [hM]
    congr 1
    exact (Multiset.coe_eq_coe.mpr hrevperm).symm
  · intro x hx y hy
    exact hdom x hx y (hrevperm.mem_iff.mp hy)

/-! ## Theorems about the primitives -/

theorem sumSq_nonneg (a : List ℝ) : 0 ≤ sumSq a := by
  induction a with
  | nil => simp [sumSq]
  | cons x xs ih =>
    simp only [sumSq, List.map_cons, List.sum_cons]
    have := mul_self_nonneg x
    have h2 : 0 ≤ (xs.map fun x => x * x).sum := ih
    linarith

/-- Cauchy–Schwarz for the accumulators, by induction on the two lists. -/
theorem dotAcc_sq_le (a b : List ℝ) (h : a.length = b.length) :
    dotAcc a b ^ 2 ≤ sumSq a * sumSq b := by
  induction a generalizing b with
  | nil =>
    simp [dotAcc, sumSq]
  | cons x xs ih =>
    cases b with
    | nil => simp at h
    | cons y ys =>
      simp only [List.length_cons, Nat.succ.injEq] at h
      have IH := ih ys h
      have hA : 0 ≤ sumSq xs := sumSq_nonneg xs
      have hB : 0 ≤ sumSq ys := sumSq_nonneg ys
      simp only [dotAcc, sumSq, List.zipWith_cons_cons, List.map_cons,
        List.sum_cons] at *
      set D := (List.zipWith (· * ·) xs ys).sum with hD
      set A := (xs.map fun x => x * x).sum with hA2
      set B := (ys.map fun x => x * x).sum with hB2
      -- key step: 2*(x*y)*D ≤ x^2*B + y^2*A
      have hsq : (2 * (x * y) * D) ^ 2 ≤ (x * x * B + y * y * A) ^ 2 := by
        nlinarith [IH, sq_nonneg (x * x * B - y * y * A), sq_nonneg (x * y),
          mul_nonneg hA hB]
      have hu : 0 ≤ x * x * B + y * y * A := by
        have := mul_self_nonneg x
        have := mul_self_nonneg y
        nlinarith
      have key : 2 * (x * y) * D ≤ x * x * B + y * y * A := by
        nlinarith [hsq, hu, sq_nonneg (2 * (x * y) * D - (x * x * B + y * y * A)),
          sq_nonneg (2 * (x * y) * D + (x * x * B + y * y * A))]
      nlinarith [IH, key]

/-- The cosine similarity always lies in `[-1, 1]`. -/
theorem cosineSimilarity_bounds (a b : List ℝ) :
    -1 ≤ CosineSimilarity a b ∧ CosineSimilarity a b ≤ 1 := by
  unfold CosineSimilarity
  by_cases h1 : a.length ≠ b.length ∨ a.length = 0
  · rw [if_pos h1]; norm_num
  · rw [if_neg h1]
    by_cases h2 : sumSq a = 0 ∨ sumSq b = 0
    · rw [if_pos h2]; norm_num
    · rw [if_neg h2]
      push_neg at h1 h2
      obtain ⟨hlen, _⟩ := h1
      obtain ⟨hA0, hB0⟩ := h2
      have hA : 0 < sumSq a := lt_of_le_of_ne (sumSq_nonneg a) (Ne.symm hA0)
      have hB : 0 < sumSq b := lt_of_le_of_ne (sumSq_nonneg b) (Ne.symm hB0)
      have hsA : 0 < Real.sqrt (sumSq a) := Real.sqrt_pos.mpr hA
      have hsB : 0 < Real.sqrt (sumSq b) := Real.sqrt_pos.mpr hB
      have hden : 0 < Real.sqrt (sumSq a) * Real.sqrt (sumSq b) :=
        mul_pos hsA hsB
      have habs : |dotAcc a b| ≤ Real.sqrt (sumSq a) * Real.sqrt (sumSq b) := by
        have h1 : |dotAcc a b| = Real.sqrt (dotAcc a b ^ 2) :=
          (Real.sqrt_sq_eq_abs _).symm
        rw [h1, ← Real.sqrt_mul (le_of_lt hA)]
        exact Real.sqrt_le_sqrt (dotAcc_sq_le a b hlen)
      have habs2 := abs_le.mp habs
      constructor
      · rw [le_div_iff₀ hden]
        linarith [habs2.1]
      · rw [div_le_one hden]
        linarith [habs2.2]

/-! ### Multisets of reals are determined by their strict upper counts -/

theorem multiset_exists_max (m : Multiset ℝ) (hm : m ≠ 0) :
    ∃ a ∈ m, ∀ x ∈ m, x ≤ a := by
  induction m using Multiset.induction_on with
  | empty => simp at hm
  | cons a s ih =>
    rcases eq_or_ne s 0 with hs | hs
    · subst hs
      refine ⟨a, by simp, ?_⟩
      intro x hx
      simp at hx
      rw [hx]
    · obtain ⟨b, hb, hmax⟩ := ih hs
      rcases le_total a b with h | h
      · refine ⟨b, Multiset.mem_cons_of_mem hb, ?_⟩
        intro x hx
        rcases Multiset.mem_cons.mp hx with hx | hx
        · rw [hx]; exact h
        · exact hmax x hx
      · refine ⟨a, Multiset.mem_cons_self a s, ?_⟩
        intro x hx
        rcases Multiset.mem_cons.mp hx with hx | hx
        · rw [hx]
        · exact le_trans (hmax x hx) h

/-- Two finite multisets of reals with the same number of elements above
every threshold are equal. -/
theorem countP_determines :
    ∀ (n : ℕ) (m1 m2 : Multiset ℝ), Multiset.card m1 ≤ n →
    (∀ t : ℝ, m1.countP (t < ·) = m2.countP (t < ·)) → m1 = m2 := by
  intro n
  induction n with
  | zero =>
    intro m1 m2 hc h
    have h1 : m1 = 0 := by
      rwa [← Multiset.card_eq_zero, ← Nat.le_zero]
    subst h1
    by_contra hne
    obtain ⟨b, hb⟩ := Multiset.exists_mem_of_ne_zero (Ne.symm hne)
    have := h (b - 1)
    rw [Multiset.countP_zero] at this
    have hpos : 0 < m2.countP ((b - 1) < ·) :=
      Multiset.countP_pos.mpr ⟨b, hb, by linarith⟩
    omega
  | succ n ih =>
    intro m1 m2 hc h
    rcases eq_or_ne m1 0 with h1 | h1
    · subst h1
      by_contra hne
      obtain ⟨b, hb⟩ := Multiset.exists_mem_of_ne_zero (Ne.symm hne)
      have := h (b - 1)
      rw [Multiset.countP_zero] at this
      have hpos : 0 < m2.countP ((b - 1) < ·) :=
        Multiset.countP_pos.mpr ⟨b, hb, by linarith⟩
      omega
    · have h2 : m2 ≠ 0 := by
        intro h2
        subst h2
        obtain ⟨b, hb⟩ := Multiset.exists_mem_of_ne_zero h1
        have := h (b - 1)
        rw [Multiset.countP_zero] at this
        have hpos : 0 < m1.countP ((b - 1) < ·) :=
          Multiset.countP_pos.mpr ⟨b, hb, by linarith⟩
        omega
      obtain ⟨a1, ha1, hmax1⟩ := multiset_exists_max m1 h1
      obtain ⟨a2, ha2, hmax2⟩ := multiset_exists_max m2 h2
      have haa : a1 = a2 := by
        have hn1 : m1.countP (a1 < ·) = 0 :=
          Multiset.countP_eq_zero.mpr fun x hx => not_lt.mpr (hmax1 x hx)
        have hn2 : m2.countP (a2 < ·) = 0 :=
          Multiset.countP_eq_zero.mpr fun x hx => not_lt.mpr (hmax2 x hx)
        by_contra hne
        rcases lt_or_gt_of_ne hne with hlt | hlt
        · have := h a1
          rw [hn1] at this
          have hpos : 0 < m2.countP (a1 < ·) :=
            Multiset.countP_pos.mpr ⟨a2, ha2, hlt⟩
          omega
        · have := h a2
          rw [hn2] at this
          have hpos : 0 < m1.countP (a2 < ·) :=
            Multiset.countP_pos.mpr ⟨a1, ha1, hlt⟩
          omega
      subst haa
      have hcount : ∀ t : ℝ,
          (m1.erase a1).countP (t < ·) = (m2.erase a1).countP (t < ·) := by
        intro t
        have e1 : m1.countP (t < ·)
            = (m1.erase a1).countP (t < ·) + if t < a1 then 1 else 0 := by
          conv_lhs => rw [← Multiset.cons_erase ha1]
          rw [Multiset.countP_cons]
        have e2 : m2.countP (t < ·)
            = (m2.erase a1).countP (t < ·) + if t < a1 then 1 else 0 := by
          conv_lhs => rw [← Multiset.cons_erase ha2]
          rw [Multiset.countP_cons]
        have := h t
        omega
      have hcard : Multiset.card (m1.erase a1) ≤ n := by
        rw [Multiset.card_erase_of_mem ha1, Nat.pred_eq_sub_one]
        omega
      have := ih (m1.erase a1) (m2.erase a1) hcard hcount
      calc m1 = a1 ::ₘ m1.erase a1 := (Multiset.cons_erase ha1).symm
        _ = a1 ::ₘ m2.erase a1 := by rw [this]
        _ = m2 := Multiset.cons_erase ha2

/-- The strict-upper-count characterisation of a top-k selection. -/
theorem scoreSel_countP (k : ℕ) (m A : Multiset ℝ) (h : ScoreSel k m A) :
    ∀ t : ℝ, A.countP (t < ·)
      = min (Multiset.card A) (m.countP (t < ·)) := by
  obtain ⟨hcard, C, hM, _hC0, hdom⟩ := h
  intro t
  by_cases hex : ∃ a ∈ A, a ≤ t
  · obtain ⟨a, ha, hat⟩ := hex
    have hCz : C.countP (t < ·) = 0 := by
      rw [Multiset.countP_eq_zero]
      intro x hx
      exact not_lt.mpr (le_trans (hdom x hx a ha) hat)
    have hm : m.countP (t < ·) = A.countP (t < ·) := by
      rw [hM, Multiset.countP_add, hCz, add_zero]
    rw [hm]
    exact (min_eq_right (Multiset.countP_le_card _ _)).symm
  · push_neg at hex
    have hall : A.countP (t < ·) = Multiset.card A :=
      Multiset.countP_eq_card.mpr fun x hx => hex x hx
    have hle : Multiset.card A ≤ m.countP (t < ·) := by
      rw [hM, Multiset.countP_add, ← hall]
      omega
    rw [hall]
    exact (min_eq_left hle).symm

/-- The top-k score multiset of `m` is unique. -/
theorem scoreSel_unique (k : ℕ) (m A B : Multiset ℝ)
    (hA : ScoreSel k m A) (hB : ScoreSel k m B) : A = B := by
  apply countP_determines (Multiset.card A) A B (le_refl _)
  intro t
  rw [scoreSel_countP k m A hA t, scoreSel_countP k m B hB t, hA.1, hB.1]

/-- Summing per-chunk selections: what the chunks discard is dominated by
the corresponding full selection. -/
theorem scoreSel_sum_decomp (k : ℕ) :
    ∀ (parts : List (Multiset ℝ × Multiset ℝ)),
    (∀ p ∈ parts, ScoreSel k p.1 p.2) →
    ∃ D : Multiset ℝ,
      (parts.map Prod.fst).sum = (parts.map Prod.snd).sum + D ∧
      ∀ x ∈ D, ∃ p ∈ parts, Multiset.card p.2 = k ∧ ∀ y ∈ p.2, x ≤ y := by
  intro parts
  induction parts with
  | nil =>
    intro _
    exact ⟨0, by simp, by simp⟩
  | cons p ps ih =>
    intro h
    obtain ⟨D, hD, hDdom⟩ := ih fun q hq => h q (List.mem_cons_of_mem _ hq)
    obtain ⟨hcard, C, hM, hC0, hdom⟩ := h p (List.mem_cons_self _ _)
    refine ⟨C + D, ?_, ?_⟩
    · simp only [List.map_cons, List.sum_cons, hD, hM]
      abel
    · intro x hx
      rcases Multiset.mem_add.mp hx with hx | hx
      · refine ⟨p, List.mem_cons_self _ _, ?_, fun y hy => hdom x hx y hy⟩
        have hne : C ≠ 0 := by
          intro h0
          subst h0
          simp at hx
        have h1 : ¬ Multiset.card p.2 < k := fun hlt => hne (hC0 hlt)
        have h2 : Multiset.card p.2 ≤ k := by
          rw [hcard]
          exact min_le_left _ _
        omega
      · obtain ⟨q, hq, hqk, hqdom⟩ := hDdom x hx
        exact ⟨q, List.mem_cons_of_mem _ hq, hqk, hqdom⟩

/-- Merging the per-chunk top-k selections with one more top-k selection
yields a top-k selection of the whole. -/
theorem scoreSel_compose (k : ℕ) (parts : List (Multiset ℝ × Multiset ℝ))
    (hparts : ∀ p ∈ parts, ScoreSel k p.1 p.2)
    (B : Multiset ℝ) (hB : ScoreSel k ((parts.map Prod.snd).sum) B) :
    ScoreSel k ((parts.map Prod.fst).sum) B := by
  obtain ⟨D, hD, hDdom⟩ := scoreSel_sum_decomp k parts hparts
  obtain ⟨hcardB, C, hS, hC0, hdom⟩ := hB
  have hpartle : ∀ p ∈ parts, p.2 ≤ (parts.map Prod.snd).sum := by
    intro p hp
    exact List.le_sum_of_mem (List.mem_map_of_mem Prod.snd hp)
  have hMcard : Multiset.card ((parts.map Prod.fst).sum)
      = Multiset.card ((parts.map Prod.snd).sum) + Multiset.card D := by
    rw [hD, Multiset.card_add]
  by_cases hsmall : Multiset.card ((parts.map Prod.snd).sum) < k
  · have hBS : Multiset.card B = Multiset.card ((parts.map Prod.snd).sum) := by
      rw [hcardB]
      exact min_eq_right (by omega)
    have hCz : C = 0 := hC0 (by omega)
    have hDz : D = 0 := by
      rcases eq_or_ne D 0 with h0 | h0
      · exact h0
      · obtain ⟨x, hx⟩ := Multiset.exists_mem_of_ne_zero h0
        obtain ⟨p, hp, hpk, _⟩ := hDdom x hx
        have := Multiset.card_le_card (hpartle p hp)
        omega
    refine ⟨?_, C + D, ?_, ?_, ?_⟩
    · rw [hMcard, hDz]
      simp only [Multiset.card_zero, add_zero]
      rw [hcardB]
    · rw [hD, hS, hDz, hCz]
      simp
    · intro _
      rw [hCz, hDz, add_zero]
    · intro x hx y hy
      rcases Multiset.mem_add.mp hx with hx | hx
      · exact hdom x hx y hy
      · rw [hDz] at hx
        simp at hx
  · have hBk : Multiset.card B = k := by
      rw [hcardB]
      exact min_eq_left (by omega)
    refine ⟨?_, C + D, ?_, ?_, ?_⟩
    · rw [hBk, hMcard]
      exact (min_eq_left (by omega)).symm
    · rw [hD, hS]
      abel
    · intro hlt
      omega
    · intro x hx y hy
      rcases Multiset.mem_add.mp hx with hx | hx
      · exact hdom x hx y hy
      · obtain ⟨p, hp, hpk, hpdom⟩ := hDdom x hx
        by_contra hxy
        push_neg at hxy
        have h1 : p.2.countP (y < ·) = k := by
          rw [Multiset.countP_eq_card.mpr, hpk]
          intro z hz
          exact lt_of_lt_of_le hxy (hpdom z hz)
        have hCz : C.countP (y < ·) = 0 := by
          rw [Multiset.countP_eq_zero]
          intro z hz
          exact not_lt.mpr (hdom z hz y hy)
        have hBcount : B.countP (y < ·) ≤ k - 1 := by
          have hY := Multiset.cons_erase hy
          have : B.countP (y < ·)
              = (B.erase y).countP (y < ·) + if y < y then 1 else 0 := by
            conv_lhs => rw [← hY]
            rw [Multiset.countP_cons]
          rw [if_neg (lt_irrefl y), add_zero] at this
          have hle := Multiset.countP_le_card (y < ·) (B.erase y)
          have hcarde : Multiset.card (B.erase y) = Multiset.card B - 1 := by
            rw [Multiset.card_erase_of_mem hy, Nat.pred_eq_sub_one]
          rw [this]
          omega
        have hSc : ((parts.map Prod.snd).sum).countP (y < ·)
            = B.countP (y < ·) + C.countP (y < ·) := by
          rw [hS, Multiset.countP_add]
        have hle2 := Multiset.countP_le_of_le (y < ·) (hpartle p hp)
        have hk1 : 0 < Multiset.card B := by
          apply Multiset.card_pos.mpr
          intro h0
          rw [h0] at hy
          simp at hy
        omega

/-! ### Plumbing for the concurrent search -/

theorem topKSel_perm (k : ℕ) (m : Multiset SearchResult)
    (H H' : List SearchResult) (h : TopKSel k m H) (hp : H'.Perm H) :
    TopKSel k m H' := by
  obtain ⟨hlen, C, hM, hC0, hdom⟩ := h
  refine ⟨by rw [hp.length_eq, hlen], C, ?_, ?_, ?_⟩
  · rw [hM]
    congr 1
    exact (Multiset.coe_eq_coe.mpr hp).symm
  · intro hlt
    rw [hp.length_eq] at hlt
    exact hC0 hlt
  · intro x hx y hy
    exact hdom x hx y (hp.mem_iff.mp hy)

/-- The drained, reversed output of a `mergeStep` fold is a top-k
selection of the input stream. -/
theorem drainRev_sel (k : ℕ) (hk : 1 ≤ k) (rs : List SearchResult) :
    TopKSel k ↑rs ((heapDrain resLess (rs.foldl (mergeStep k) [])).reverse) := by
  have hbase : TopKSel k 0 ([] : List SearchResult) := by
    refine ⟨by simp, 0, by simp, fun _ => rfl, by simp⟩
  have hheap0 : heapProp SearchResult.score ([] : List SearchResult)
      ([] : List SearchResult).length := by
    intro c hc0 hcl
    simp at hcl
  have hmain := mergeFold_ok k hk rs [] 0 hheap0 hbase
  have hsel : TopKSel k ↑rs (rs.foldl (mergeStep k) []) := by
    have := hmain.2
    rwa [add_zero] at this
  have hdrain := heapDrain_perm resLess (rs.foldl (mergeStep k) []).length
    (rs.foldl (mergeStep k) []) (le_refl _)
  exact topKSel_perm k ↑rs _ _ hsel (List.Perm.trans (List.reverse_perm _) hdrain)

/-- A top-k selection of results maps to a top-k selection of scores. -/
theorem topKSel_scoreSel (k : ℕ) (m : Multiset SearchResult)
    (H : List SearchResult) (h : TopKSel k m H) :
    ScoreSel k (m.map SearchResult.score)
      (Multiset.map SearchResult.score ↑H) := by
  obtain ⟨hlen, C, hM, hC0, hdom⟩ := h
  refine ⟨?_, C.map SearchResult.score, ?_, ?_, ?_⟩
  · simp only [Multiset.card_map, Multiset.coe_card, hlen]
  · rw [hM, Multiset.map_add]
  · intro hlt
    simp only [Multiset.card_map, Multiset.coe_card] at hlt
    rw [hC0 hlt]
    simp
  · intro x hx y hy
    obtain ⟨x', hx', hxe⟩ := Multiset.mem_map.mp hx
    obtain ⟨y', hy', hye⟩ := Multiset.mem_map.mp hy
    rw [← hxe, ← hye]
    exact hdom x' hx' y' (Multiset.mem_coe.mp hy')

theorem coe_flatten_eq_sum {α : Type} (L : List (List α)) :
    ((L.flatten : List α) : Multiset α)
      = (L.map (fun l => Multiset.ofList l)).sum := by
  induction L with
  | nil => simp
  | cons a t ih =>
    rw [List.flatten_cons, List.map_cons, List.sum_cons, ← ih,
      Multiset.coe_add]

theorem map_listSum (f : SearchResult → ℝ) :
    ∀ L : List (Multiset SearchResult),
    Multiset.map f L.sum = (L.map (fun m => Multiset.map f m)).sum := by
  intro L
  induction L with
  | nil => simp
  | cons a t ih => simp [Multiset.map_add, ih]

theorem range_filterMap_get {α : Type} : ∀ l : List α,
    (List.range l.length).filterMap (fun i => l.get? i) = l := by
  intro l
  induction l with
  | nil => simp
  | cons a t ih =>
    rw [List.length_cons, List.range_succ_eq_map]
    rw [List.filterMap_cons_some (show (a :: t).get? 0 = some a from rfl),
      List.filterMap_map]
    have hfun : ((fun i => (a :: t).get? i) ∘ Nat.succ) = fun i => t.get? i := by
      funext i
      simp
    rw [hfun, ih]

theorem arrival_filterMap_perm {α : Type} (l : List α) (arrival : List ℕ)
    (h : arrival.Perm (List.range l.length)) :
    (arrival.filterMap (fun i => l.get? i)).Perm l := by
  have hp := List.Perm.filterMap (fun i => l.get? i) h
  rwa [range_filterMap_get l] at hp

theorem numWorkersOf_pos (numWorkers : ℤ) : 1 ≤ numWorkersOf numWorkers := by
  unfold numWorkersOf
  split <;> omega

theorem chunkLoop_join :
    ∀ (fuel : ℕ) (vs : List Vec) (cs w i : ℕ), w - i ≤ fuel →
    vs.length ≤ w * cs → (chunkLoop vs cs w i).flatten = vs.drop (i * cs) := by
  intro fuel
  induction fuel with
  | zero =>
    intro vs cs w i hf hlen
    rw [chunkLoop]
    have hiw : ¬ i < w := by omega
    rw [if_neg hiw]
    have : vs.length ≤ i * cs := by
      calc vs.length ≤ w * cs := hlen
        _ ≤ i * cs := Nat.mul_le_mul_right cs (by omega)
    rw [List.drop_eq_nil_of_le this]
    rfl
  | succ fuel ih =>
    intro vs cs w i hf hlen
    rw [chunkLoop]
    by_cases hiw : i < w
    · rw [if_pos hiw]
      by_cases hstart : i * cs < vs.length
      · rw [if_pos hstart]
        rw [List.flatten_cons, ih vs cs w (i + 1) (by omega) hlen]
        have harith : (i + 1) * cs = i * cs + cs := by ring
        rw [harith, ← List.drop_drop, List.take_append_drop]
      · rw [if_neg hstart]
        rw [List.drop_eq_nil_of_le (by omega)]
        rfl
    · rw [if_neg hiw]
      have : vs.length ≤ i * cs := by
        calc vs.length ≤ w * cs := hlen
          _ ≤ i * cs := Nat.mul_le_mul_right cs (by omega)
      rw [List.drop_eq_nil_of_le this]
      rfl

/-- The worker chunks partition the stored vectors. -/
theorem chunksOf_flatten (vs : List Vec) (numWorkers : ℤ) :
    (chunksOf vs numWorkers).flatten = vs := by
  unfold chunksOf
  have hw := numWorkersOf_pos numWorkers
  have hlen : vs.length ≤ numWorkersOf numWorkers *
      ((vs.length + numWorkersOf numWorkers - 1) / numWorkersOf numWorkers) := by
    have hdm := Nat.div_add_mod (vs.length + numWorkersOf numWorkers - 1)
      (numWorkersOf numWorkers)
    have hmod := Nat.mod_lt (vs.length + numWorkersOf numWorkers - 1)
      (show 0 < numWorkersOf numWorkers by omega)
    omega
  rw [chunkLoop_join (numWorkersOf numWorkers) vs _ _ 0 (by omega) hlen]
  simp

/-! ## Claim C1 -/

/-- Helper: cosine similarity of `[1,0]` with itself is `1`. -/
theorem cosineSimilarity_unit : CosineSimilarity [(1 : ℝ), 0] [(1 : ℝ), 0] = 1 := by
  rw [CosineSimilarity]
  norm_num [sumSq, dotAcc, Real.sqrt_one]

/-- C1 (amended): for every index state, query and `k ≥ 1`, `Search(q,k)`
returns exactly `min(k, n)` results ordered by nonincreasing score, which
are (as a multiset) results of stored vectors, and every stored vector's
result that is not returned scores no higher than any returned result.
The returned order of equal-score results is the heap's drain order, not
insertion order. -/
theorem bruteforce_search_topk (idx : BruteForceIndex) (q : List ℝ) (k : ℕ)
    (hk : 1 ≤ k) :
    (idx.Search q k).length = min k idx.vectors.length ∧
    (idx.Search q k).Pairwise (fun a b => b.score ≤ a.score) ∧
    ∃ C : Multiset SearchResult,
      (↑(idx.vectors.map (resOf q)) : Multiset SearchResult)
        = ↑(idx.Search q k) + C ∧
      ∀ x ∈ C, ∀ y ∈ idx.Search q k, x.score ≤ y.score := by
  simp only [BruteForceIndex.Search]
  by_cases hemp : idx.vectors.length = 0
  · rw [if_pos hemp]
    have hnil : idx.vectors = [] := List.length_eq_zero.mp hemp
    rw [hnil]
    refine ⟨by simp, by simp, 0, by simp, by simp⟩
  · rw [if_neg hemp]
    have hfold : idx.vectors.foldl (fun h v => mergeStep k h (resOf q v)) []
        = (idx.vectors.map (resOf q)).foldl (mergeStep k) [] := by
      rw [List.foldl_map]
    rw [hfold]
    have hmain := drainRev_spec k hk (idx.vectors.map (resOf q))
    simpa [List.length_map] using hmain

theorem bruteforce_search_topk_witness :
    1 ≤ 2 ∧
    ((BruteForceIndex.mk [Vec.mk "a" [1, 0] default] 3).Search [1, 0] 2).length
        = min 2 (BruteForceIndex.mk [Vec.mk "a" [1, 0] default] 3).vectors.length ∧
    ((BruteForceIndex.mk [Vec.mk "a" [1, 0] default] 3).Search [1, 0] 2).Pairwise
        (fun a b => b.score ≤ a.score) ∧
    ∃ C : Multiset SearchResult,
      (↑((BruteForceIndex.mk [Vec.mk "a" [1, 0] default] 3).vectors.map
          (resOf [1, 0])) : Multiset SearchResult)
        = ↑((BruteForceIndex.mk [Vec.mk "a" [1, 0] default] 3).Search [1, 0] 2) + C ∧
      ∀ x ∈ C, ∀ y ∈ (BruteForceIndex.mk [Vec.mk "a" [1, 0] default] 3).Search [1, 0] 2,
        x.score ≤ y.score :=
  ⟨by decide,
    (bruteforce_search_topk (BruteForceIndex.mk [Vec.mk "a" [1, 0] default] 3)
      [1, 0] 2 (by decide)).1,
    (bruteforce_search_topk (BruteForceIndex.mk [Vec.mk "a" [1, 0] default] 3)
      [1, 0] 2 (by decide)).2.1,
    (bruteforce_search_topk (BruteForceIndex.mk [Vec.mk "a" [1, 0] default] 3)
      [1, 0] 2 (by decide)).2.2⟩

set_option maxRecDepth 8000 in
/-- C1 counterexample: three stored vectors with identical embeddings all
have cosine similarity 1 to the query, yet `Search(q, 3)` returns them in
the order `b, c, a` — not the insertion order `a, b, c` that the claim's
tie-breaking rule requires.  (Go's `container/heap` is not stable.) -/
theorem bruteforce_search_tie_counterexample :
    ((BruteForceIndex.mk [Vec.mk "a" [1, 0] default, Vec.mk "b" [1, 0] default,
        Vec.mk "c" [1, 0] default] 2).Search [1, 0] 3).map SearchResult.id
      = ["b", "c", "a"] ∧
    ((BruteForceIndex.mk [Vec.mk "a" [1, 0] default, Vec.mk "b" [1, 0] default,
        Vec.mk "c" [1, 0] default] 2).Search [1, 0] 3).map SearchResult.score
      = [1, 1, 1] ∧
    (["b", "c", "a"] : List String) ≠ ["a", "b", "c"] := by
  have hres : ∀ s : String, resOf [(1 : ℝ), 0] (Vec.mk s [1, 0] default)
      = ⟨s, 1, default⟩ := by
    intro s
    rw [resOf, cosineSimilarity_unit]
  have heval : (BruteForceIndex.mk [Vec.mk "a" [1, 0] default,
      Vec.mk "b" [1, 0] default, Vec.mk "c" [1, 0] default] 2).Search [1, 0] 3
      = [⟨"b", 1, default⟩, ⟨"c", 1, default⟩, ⟨"a", 1, default⟩] := by
    simp only [BruteForceIndex.Search, List.length_cons, List.length_nil]
    norm_num
    simp only [List.foldl_cons, List.foldl_nil, hres]
    simp [mergeStep, heapPushG, heapUp, heapDrain, heapPopG, heapDown, hswap,
      resLess, kLess]
  refine ⟨by rw [heval]; simp, by rw [heval]; simp, by decide⟩

/-! ## Claim C4 -/

/-- C4 (amended): `SearchConcurrent(q, k, W)` (any worker count `W`, with
`W ≤ 0` treated as 4, and any order of worker-result arrival) returns a
result list whose multiset of scores equals that of `Search(q, k)`. -/
theorem searchConcurrent_score_multiset (idx : BruteForceIndex) (q : List ℝ)
    (k : ℕ) (numWorkers : ℤ) (arrival : List ℕ) (hk : 1 ≤ k)
    (harr : arrival.Perm
      (List.range (chunksOf idx.vectors numWorkers).length)) :
    Multiset.map SearchResult.score
        ↑(idx.SearchConcurrent q k numWorkers arrival)
      = Multiset.map SearchResult.score ↑(idx.Search q k) := by
  by_cases hemp : idx.vectors.length = 0
  · simp only [BruteForceIndex.SearchConcurrent, BruteForceIndex.Search,
      if_pos hemp]
  · simp only [BruteForceIndex.SearchConcurrent, BruteForceIndex.Search,
      if_neg hemp]
    have hfold : idx.vectors.foldl (fun h v => mergeStep k h (resOf q v)) []
        = (idx.vectors.map (resOf q)).foldl (mergeStep k) [] := by
      rw [List.foldl_map]
    rw [hfold]
    have hserial := drainRev_sel k hk (idx.vectors.map (resOf q))
    have hA := topKSel_scoreSel k _ _ hserial
    set chunks := chunksOf idx.vectors numWorkers with hchunks
    set partials := chunks.map (fun chunk => searchChunk q chunk k)
      with hpartials
    set received := arrival.filterMap (fun i => partials.get? i)
      with hreceived
    have hmr : mergeResults received k
        = (heapDrain resLess
            ((received.flatten).foldl (mergeStep k) [])).reverse := by
      simp only [mergeResults]
      rw [List.foldl_flatten]
    have hconc := drainRev_sel k hk received.flatten
    rw [← hmr] at hconc
    have hB := topKSel_scoreSel k _ _ hconc
    have hrecperm : received.Perm partials := by
      apply arrival_filterMap_perm
      rwa [hpartials, List.length_map]
    have hg : ∀ L : List (List SearchResult),
        Multiset.map SearchResult.score (Multiset.ofList L.flatten)
          = (L.map (fun l =>
              Multiset.map SearchResult.score (Multiset.ofList l))).sum := by
      intro L
      rw [coe_flatten_eq_sum, map_listSum, List.map_map]
      rfl
    -- the per-chunk selections
    have hparts : ∀ p ∈ chunks.map (fun c =>
        (Multiset.map SearchResult.score ↑(c.map (resOf q)),
         Multiset.map SearchResult.score ↑(searchChunk q c k))),
        ScoreSel k p.1 p.2 := by
      intro p hp
      obtain ⟨c, _hc, hpe⟩ := List.mem_map.mp hp
      have hsc : searchChunk q c k
          = (heapDrain resLess
              ((c.map (resOf q)).foldl (mergeStep k) [])).reverse := by
        simp only [searchChunk]
        rw [List.foldl_map]
      have hcs := drainRev_sel k hk (c.map (resOf q))
      rw [← hsc] at hcs
      rw [← hpe]
      exact topKSel_scoreSel k _ _ hcs
    -- the merged stream is the sum of the per-chunk selections
    have hsnd : ((chunks.map (fun c =>
        (Multiset.map SearchResult.score ↑(c.map (resOf q)),
         Multiset.map SearchResult.score ↑(searchChunk q c k)))).map
          Prod.snd).sum
        = Multiset.map SearchResult.score ↑received.flatten := by
      rw [hg received]
      have h1 : (received.map (fun l =>
          Multiset.map SearchResult.score (Multiset.ofList l))).Perm
          (partials.map (fun l =>
            Multiset.map SearchResult.score (Multiset.ofList l))) :=
        hrecperm.map _
      rw [h1.sum_eq, hpartials, List.map_map, List.map_map]
      rfl
    -- the full stream is the sum of the chunk streams
    have hfst : ((chunks.map (fun c =>
        (Multiset.map SearchResult.score ↑(c.map (resOf q)),
         Multiset.map SearchResult.score ↑(searchChunk q c k)))).map
          Prod.fst).sum
        = Multiset.map SearchResult.score ↑(idx.vectors.map (resOf q)) := by
      have h2 : (chunks.map (List.map (resOf q))).flatten
          = idx.vectors.map (resOf q) := by
        rw [← List.map_flatten, hchunks, chunksOf_flatten]
      rw [← h2, hg (chunks.map (List.map (resOf q))), List.map_map,
        List.map_map]
      rfl
    have hcomp := scoreSel_compose k _ hparts _ (by rw [hsnd]; exact hB)
    rw [hfst] at hcomp
    exact scoreSel_unique k _ _ _ hcomp hA

/-- C4 witness: one stored vector, one worker, `k = 1`; the hypotheses
hold and the concurrent and serial score multisets agree. -/
theorem searchConcurrent_score_multiset_witness :
    (1 ≤ 1 ∧ ([0] : List ℕ).Perm
      (List.range (chunksOf [Vec.mk "a" [1, 0] default] 1).length)) ∧
    Multiset.map SearchResult.score
        ↑((BruteForceIndex.mk [Vec.mk "a" [1, 0] default] 2).SearchConcurrent
            [1, 0] 1 1 [0])
      = Multiset.map SearchResult.score
        ↑((BruteForceIndex.mk [Vec.mk "a" [1, 0] default] 2).Search
            [1, 0] 1) := by
  have hlen : (chunksOf [Vec.mk "a" [1, 0] default] 1).length = 1 := by
    simp [chunksOf, chunkLoop, numWorkersOf]
  have hperm : ([0] : List ℕ).Perm
      (List.range (chunksOf [Vec.mk "a" [1, 0] default] 1).length) := by
    rw [hlen]
    decide
  exact ⟨⟨le_refl 1, hperm⟩,
    searchConcurrent_score_multiset _ _ _ _ _ (le_refl 1) hperm⟩

set_option maxRecDepth 8000 in
/-- C4 counterexample: two identical stored vectors split across two
workers with `k = 1`.  The merge keeps whichever tied result arrives
first on the channel, so with arrival order `[1, 0]` the concurrent
search returns id `b` while the serial search returns id `a`: the
`(id, score)` multisets differ even though the arrival order is a
legitimate schedule. -/
theorem searchConcurrent_id_counterexample :
    ([1, 0] : List ℕ).Perm (List.range (chunksOf
        [Vec.mk "a" [1, 0] default, Vec.mk "b" [1, 0] default] 2).length) ∧
    ((BruteForceIndex.mk [Vec.mk "a" [1, 0] default,
        Vec.mk "b" [1, 0] default] 2).SearchConcurrent [1, 0] 1 2
          [1, 0]).map (fun r => (r.id, r.score)) = [("b", 1)] ∧
    ((BruteForceIndex.mk [Vec.mk "a" [1, 0] default,
        Vec.mk "b" [1, 0] default] 2).Search [1, 0] 1).map
          (fun r => (r.id, r.score)) = [("a", 1)] ∧
    ¬ ([(("b" : String), (1 : ℝ))]).Perm [("a", 1)] := by
  have hres : ∀ s : String, resOf [(1 : ℝ), 0] (Vec.mk s [1, 0] default)
      = ⟨s, 1, default⟩ := by
    intro s
    rw [resOf, cosineSimilarity_unit]
  have hchunks : chunksOf [Vec.mk "a" [(1 : ℝ), 0] default,
      Vec.mk "b" [1, 0] default] 2
      = [[Vec.mk "a" [1, 0] default], [Vec.mk "b" [1, 0] default]] := by
    simp [chunksOf, chunkLoop, numWorkersOf]
  have hca : searchChunk [(1 : ℝ), 0] [Vec.mk "a" [1, 0] default] 1
      = [⟨"a", 1, default⟩] := by
    simp only [searchChunk, List.foldl_cons, List.foldl_nil, hres]
    simp [mergeStep, heapPushG, heapUp, heapDrain, heapPopG, heapDown, hswap,
      resLess, kLess]
  have hcb : searchChunk [(1 : ℝ), 0] [Vec.mk "b" [1, 0] default] 1
      = [⟨"b", 1, default⟩] := by
    simp only [searchChunk, List.foldl_cons, List.foldl_nil, hres]
    simp [mergeStep, heapPushG, heapUp, heapDrain, heapPopG, heapDown, hswap,
      resLess, kLess]
  have hsc : (BruteForceIndex.mk [Vec.mk "a" [1, 0] default,
      Vec.mk "b" [1, 0] default] 2).SearchConcurrent [1, 0] 1 2 [1, 0]
      = [⟨"b", 1, default⟩] := by
    simp only [BruteForceIndex.SearchConcurrent, List.length_cons,
      List.length_nil]
    norm_num
    rw [hchunks]
    simp only [List.filterMap_cons, List.filterMap_nil,
      List.getElem?_cons_zero, List.getElem?_cons_succ, Option.map_some',
      hca, hcb]
    simp [mergeResults, mergeStep, heapPushG, heapUp, heapDrain, heapPopG,
      heapDown, hswap, resLess, kLess]
  have hse : (BruteForceIndex.mk [Vec.mk "a" [1, 0] default,
      Vec.mk "b" [1, 0] default] 2).Search [1, 0] 1
      = [⟨"a", 1, default⟩] := by
    simp only [BruteForceIndex.Search, List.length_cons, List.length_nil]
    norm_num
    simp only [List.foldl_cons, List.foldl_nil, hres]
    simp [mergeStep, heapPushG, heapUp, heapDrain, heapPopG, heapDown, hswap,
      resLess, kLess]
  refine ⟨by rw [hchunks]; decide, by rw [hsc]; simp, by rw [hse]; simp, ?_⟩
  intro h
  rw [List.perm_singleton] at h
  have hids : ("b" : String) = "a" :=
    congrArg (fun l => l.headI.1) h
  exact absurd hids (by decide)

/-! ## Claim C7 -/

/-- C7: for equal-length non-empty vectors where either side has zero
norm, `CosineSimilarity` is `0` and hence `CosineDistance` is `1`; for
unequal-length or empty inputs, `CosineSimilarity` and `DotProduct`
return `0` and `L2Distance` returns the `math.MaxFloat32` sentinel. -/
theorem similarity_degenerate_cases (a b c d : List ℝ)
    (hab : a.length = b.length) (ha : a ≠ [])
    (hz : sumSq a = 0 ∨ sumSq b = 0)
    (hcd : c.length ≠ d.length ∨ c = []) :
    (CosineSimilarity a b = 0 ∧ CosineDistance a b = 1) ∧
    CosineSimilarity c d = 0 ∧ DotProduct c d = 0 ∧
    L2Distance c d = maxFloat32 := by
  have hga : ¬ (a.length ≠ b.length ∨ a.length = 0) := by
    push_neg
    exact ⟨hab, fun h0 => ha (List.length_eq_zero.mp h0)⟩
  have hsim : CosineSimilarity a b = 0 := by
    rw [CosineSimilarity, if_neg hga, if_pos hz]
  have hcdg : c.length ≠ d.length ∨ c.length = 0 := by
    rcases hcd with h | h
    · exact Or.inl h
    · exact Or.inr (by simp [h])
  refine ⟨⟨hsim, by rw [CosineDistance, hsim]; ring⟩, ?_, ?_, ?_⟩
  · rw [CosineSimilarity, if_pos hcdg]
  · rw [DotProduct, if_pos hcdg]
  · rw [L2Distance, if_pos hcdg]

/-- C7 witness at `a = [0,0]`, `b = [1,0]` (zero-norm side) and
`c = [1]`, `d = [1,2]` (length mismatch). -/
theorem similarity_degenerate_cases_witness :
    (([0, 0] : List ℝ).length = ([1, 0] : List ℝ).length ∧
      ([0, 0] : List ℝ) ≠ [] ∧
      (sumSq [(0 : ℝ), 0] = 0 ∨ sumSq [(1 : ℝ), 0] = 0) ∧
      (([1] : List ℝ).length ≠ ([1, 2] : List ℝ).length ∨
        ([1] : List ℝ) = [])) ∧
    (CosineSimilarity [0, 0] [1, 0] = 0 ∧
      CosineDistance [0, 0] [1, 0] = 1) ∧
    CosineSimilarity [1] [1, 2] = 0 ∧ DotProduct [1] [1, 2] = 0 ∧
    L2Distance [1] [1, 2] = maxFloat32 := by
  have h1 : ([0, 0] : List ℝ).length = ([1, 0] : List ℝ).length := rfl
  have h2 : ([0, 0] : List ℝ) ≠ [] := by simp
  have h3 : sumSq [(0 : ℝ), 0] = 0 ∨ sumSq [(1 : ℝ), 0] = 0 := by
    left
    simp [sumSq]
  have h4 : ([1] : List ℝ).length ≠ ([1, 2] : List ℝ).length ∨
      ([1] : List ℝ) = [] := by
    left
    simp
  exact ⟨⟨h1, h2, h3, h4⟩, similarity_degenerate_cases _ _ _ _ h1 h2 h3 h4⟩

/-! ## Claim C9 -/

/-- C9: from any state reachable by any operation trace, running the
same search twice (brute-force or HNSW) with no insert in between
returns identical result lists, and neither call modifies the state. -/
theorem search_read_idempotent (s0 : SysState) (pre : List Op)
    (q : List ℝ) (k : ℕ) :
    (stepOp (runTrace s0 pre).1 (Op.searchBF q k)).1
      = (runTrace s0 pre).1 ∧
    (stepOp (stepOp (runTrace s0 pre).1 (Op.searchBF q k)).1
        (Op.searchBF q k)).2
      = (stepOp (runTrace s0 pre).1 (Op.searchBF q k)).2 ∧
    (stepOp (runTrace s0 pre).1 (Op.searchHNSW q k)).1
      = (runTrace s0 pre).1 ∧
    (stepOp (stepOp (runTrace s0 pre).1 (Op.searchHNSW q k)).1
        (Op.searchHNSW q k)).2
      = (stepOp (runTrace s0 pre).1 (Op.searchHNSW q k)).2 :=
  ⟨rfl, rfl, rfl, rfl⟩

/-! ## Node-map bookkeeping lemmas (shared) -/

theorem lookupN_nil (id : String) : lookupN [] id = none := rfl

theorem lookupN_cons (a : String × HNSWNode) (t : List (String × HNSWNode))
    (id : String) :
    lookupN (a :: t) id = if a.1 = id then some a.2 else lookupN t id := by
  by_cases h : a.1 = id <;> simp [lookupN, List.find?_cons, h]

theorem adjustN_cons (a : String × HNSWNode) (t : List (String × HNSWNode))
    (id : String) (f : HNSWNode → HNSWNode) :
    adjustN (a :: t) id f
      = (if a.1 = id then (a.1, f a.2) else a) :: adjustN t id f := rfl

theorem keysOf_adjustN (nodes : List (String × HNSWNode)) (id : String)
    (f : HNSWNode → HNSWNode) :
    keysOf (adjustN nodes id f) = keysOf nodes := by
  simp only [keysOf, adjustN, List.map_map]
  apply List.map_congr_left
  intro p _
  by_cases h : p.1 = id <;> simp [h]

theorem lookupN_adjustN (nodes : List (String × HNSWNode)) (id id2 : String)
    (f : HNSWNode → HNSWNode) :
    lookupN (adjustN nodes id2 f) id
      = if id = id2 then (lookupN nodes id).map f
        else lookupN nodes id := by
  induction nodes with
  | nil =>
    by_cases h : id = id2 <;> simp [adjustN, lookupN, h]
  | cons a t ih =>
    rw [adjustN_cons]
    by_cases ha2 : a.1 = id2
    · rw [if_pos ha2]
      by_cases hai : a.1 = id
      · have hid : id = id2 := by rw [← hai, ha2]
        simp [lookupN_cons, hai, hid]
      · simp [lookupN_cons, hai, ih]
    · rw [if_neg ha2]
      by_cases hai : a.1 = id
      · have hne : ¬ id = id2 := fun hc => ha2 (by rw [hai, hc])
        simp [lookupN_cons, hai, hne]
      · simp [lookupN_cons, hai, ih]

theorem lookupN_isSome_iff (nodes : List (String × HNSWNode)) (id : String) :
    (lookupN nodes id).isSome = true ↔ id ∈ keysOf nodes := by
  induction nodes with
  | nil => simp [lookupN, keysOf]
  | cons a t ih =>
    rw [lookupN_cons]
    by_cases hai : a.1 = id
    · simp [hai, keysOf]
    · have hne : id ≠ a.1 := fun hc => hai hc.symm
      rw [if_neg hai, show keysOf (a :: t) = a.1 :: keysOf t from rfl,
        List.mem_cons, ih]
      simp [hne]

theorem setN_isSome_eq_adjustN (nodes : List (String × HNSWNode))
    (id : String) (node : HNSWNode)
    (h : (lookupN nodes id).isSome = true) :
    setN nodes id node = adjustN nodes id (fun _ => node) := by
  simp [setN, adjustN, h]

theorem lookupN_append_single (nodes : List (String × HNSWNode))
    (id id2 : String) (node : HNSWNode) :
    lookupN (nodes ++ [(id2, node)]) id
      = if (lookupN nodes id).isSome = true then lookupN nodes id
        else if id2 = id then some node else none := by
  induction nodes with
  | nil => simp [lookupN_nil, lookupN_cons]
  | cons a t ih =>
    rw [List.cons_append, lookupN_cons]
    by_cases hai : a.1 = id
    · simp [lookupN_cons, hai]
    · simp only [if_neg hai, ih, lookupN_cons, hai]
      rfl

theorem lookupN_setN_self (nodes : List (String × HNSWNode)) (id : String)
    (node : HNSWNode) :
    lookupN (setN nodes id node) id = some node := by
  by_cases h : (lookupN nodes id).isSome = true
  · rw [setN_isSome_eq_adjustN nodes id node h, lookupN_adjustN, if_pos rfl]
    obtain ⟨nd, hnd⟩ := Option.isSome_iff_exists.mp h
    rw [hnd]
    rfl
  · simp only [setN, if_neg h]
    rw [lookupN_append_single, if_neg h, if_pos rfl]

theorem lookupN_setN_ne (nodes : List (String × HNSWNode)) (id id2 : String)
    (node : HNSWNode) (hne : id ≠ id2) :
    lookupN (setN nodes id2 node) id = lookupN nodes id := by
  by_cases h : (lookupN nodes id2).isSome = true
  · rw [setN_isSome_eq_adjustN nodes id2 node h, lookupN_adjustN, if_neg hne]
  · simp only [setN, if_neg h]
    rw [lookupN_append_single]
    by_cases h2 : (lookupN nodes id).isSome = true
    · rw [if_pos h2]
    · rw [if_neg h2, if_neg (fun hc : id2 = id => hne hc.symm)]
      exact (Option.not_isSome_iff_eq_none.mp h2).symm

theorem keysOf_setN_isSome (nodes : List (String × HNSWNode)) (id : String)
    (node : HNSWNode) (h : (lookupN nodes id).isSome = true) :
    keysOf (setN nodes id node) = keysOf nodes := by
  rw [setN_isSome_eq_adjustN nodes id node h, keysOf_adjustN]

theorem keysOf_setN_none (nodes : List (String × HNSWNode)) (id : String)
    (node : HNSWNode) (h : ¬ (lookupN nodes id).isSome = true) :
    keysOf (setN nodes id node) = keysOf nodes ++ [id] := by
  simp [setN, h, keysOf]

theorem keysOf_foldl {β : Type} (g : List (String × HNSWNode) → β →
      List (String × HNSWNode))
    (hg : ∀ ns b, keysOf (g ns b) = keysOf ns) :
    ∀ (l : List β) (ns : List (String × HNSWNode)),
      keysOf (l.foldl g ns) = keysOf ns := by
  intro l
  induction l with
  | nil => intro ns; rfl
  | cons b t ih =>
    intro ns
    rw [List.foldl_cons, ih, hg]

theorem keysOf_insEdgeStep (vID : String) (mLayer l : ℕ)
    (nodes : List (String × HNSWNode)) (nid : String) :
    keysOf (insEdgeStep vID mLayer l nodes nid) = keysOf nodes := by
  simp only [insEdgeStep]
  split
  · simp [keysOf_adjustN]
  · split
    · split <;> simp [keysOf_adjustN]
    · simp [keysOf_adjustN]

theorem keysOf_insertLayer (cfg : HNSWConfig) (vID : String)
    (vEmb : List ℝ) (st : List (String × HNSWNode) × String) (l : ℤ) :
    keysOf (insertLayer cfg vID vEmb st l).1 = keysOf st.1 := by
  simp only [insertLayer]
  rw [keysOf_foldl
      (fun ns (n : DistanceNode) =>
        insEdgeStep vID (if l = 0 then cfg.mMax else cfg.m)
          l.toNat ns n.id)
      (fun ns n => keysOf_insEdgeStep vID _ _ ns n.id),
    keysOf_adjustN]

theorem keysOf_insertPhase (cfg : HNSWConfig) (vID : String)
    (vEmb : List ℝ) (layers : List ℤ)
    (st : List (String × HNSWNode) × String) :
    keysOf (layers.foldl (insertLayer cfg vID vEmb) st).1
      = keysOf st.1 := by
  induction layers generalizing st with
  | nil => rfl
  | cons a t ih =>
    rw [List.foldl_cons, ih, keysOf_insertLayer]


theorem lookupN_adjustN_core (nodes : List (String × HNSWNode))
    (id id2 : String) (f : HNSWNode → HNSWNode)
    (hf : ∀ nd, nodeCore (f nd) = nodeCore nd) :
    (lookupN (adjustN nodes id2 f) id).map nodeCore
      = (lookupN nodes id).map nodeCore := by
  rw [lookupN_adjustN]
  by_cases h : id = id2
  · rw [if_pos h]
    cases lookupN nodes id with
    | none => rfl
    | some nd => simp [hf]
  · rw [if_neg h]

theorem core_insEdgeStep (vID : String) (mLayer l : ℕ)
    (nodes : List (String × HNSWNode)) (nid id : String) :
    (lookupN (insEdgeStep vID mLayer l nodes nid) id).map nodeCore
      = (lookupN nodes id).map nodeCore := by
  simp only [insEdgeStep]
  split
  · rw [lookupN_adjustN_core]
    exact fun nd => rfl
  · split
    · split
      · rw [lookupN_adjustN_core, lookupN_adjustN_core,
          lookupN_adjustN_core]
        all_goals exact fun nd => rfl
      · rw [lookupN_adjustN_core, lookupN_adjustN_core]
        all_goals exact fun nd => rfl
    · rw [lookupN_adjustN_core]
      exact fun nd => rfl

theorem core_foldl {β : Type}
    (g : List (String × HNSWNode) → β → List (String × HNSWNode))
    (hg : ∀ ns b id, (lookupN (g ns b) id).map nodeCore
      = (lookupN ns id).map nodeCore) :
    ∀ (L : List β) (ns : List (String × HNSWNode)) (id : String),
      (lookupN (L.foldl g ns) id).map nodeCore
        = (lookupN ns id).map nodeCore := by
  intro L
  induction L with
  | nil => intro ns id; rfl
  | cons b t ih =>
    intro ns id
    rw [List.foldl_cons, ih, hg]

theorem core_insertLayer (cfg : HNSWConfig) (vID : String) (vEmb : List ℝ)
    (st : List (String × HNSWNode) × String) (l : ℤ) (id : String) :
    (lookupN (insertLayer cfg vID vEmb st l).1 id).map nodeCore
      = (lookupN st.1 id).map nodeCore := by
  simp only [insertLayer]
  rw [core_foldl
      (fun ns (n : DistanceNode) =>
        insEdgeStep vID (if l = 0 then cfg.mMax else cfg.m)
          l.toNat ns n.id)
      (fun ns n idq => core_insEdgeStep vID _ _ ns n.id idq),
    lookupN_adjustN_core]
  exact fun nd => rfl

theorem core_insertPhase (cfg : HNSWConfig) (vID : String) (vEmb : List ℝ)
    (layers : List ℤ) (st : List (String × HNSWNode) × String)
    (id : String) :
    (lookupN (layers.foldl (insertLayer cfg vID vEmb) st).1 id).map nodeCore
      = (lookupN st.1 id).map nodeCore := by
  induction layers generalizing st with
  | nil => rfl
  | cons a t ih =>
    rw [List.foldl_cons, ih, core_insertLayer]

/-! ## Claim C5 -/

/-- C5 (amended): `HandleInsert` performs NO empty-id validation — a
request with an empty id and matching dimensions is accepted with a
success response, the vector is appended to the brute-force index, and
a node is stored in the HNSW index under the empty key. -/
theorem handleInsert_empty_id (h : Handler) (req : Vec) (draws : List ℝ)
    (hid : req.id = "") (hdim : req.embedding.length = h.dimensions) :
    (HandleInsert h req draws).1.success = true ∧
    (HandleInsert h req draws).1.message = "Vector inserted successfully" ∧
    (HandleInsert h req draws).2.bruteForce.Count = h.bruteForce.Count + 1 ∧
    req.id ∈ keysOf (HandleInsert h req draws).2.hnsw.nodes := by
  have hg : ¬ req.embedding.length ≠ h.dimensions := fun hc => hc hdim
  have hmem : ∀ (idx : HNSWIndex) (level : ℕ),
      req.id ∈ keysOf (insertWithLevel idx req level).nodes := by
    intro idx level
    have hset : req.id ∈ keysOf (setN idx.nodes req.id
        { id := req.id, vector := req.embedding, metadata := req.metadata,
          neighbors := List.replicate (level + 1) [], layer := level }) := by
      rw [← lookupN_isSome_iff, lookupN_setN_self]
      rfl
    simp only [insertWithLevel]
    by_cases hep : idx.entryPoint = ""
    · simpa [hep] using hset
    · simp only [if_neg hep]
      by_cases hlv : idx.maxLevel < (level : ℤ) <;>
        simpa [hlv, keysOf_insertPhase] using hset
  refine ⟨?_, ?_, ?_, ?_⟩ <;>
    simp [HandleInsert, if_neg hg, BruteForceIndex.Insert,
      HNSWIndex.Insert, BruteForceIndex.Count, hmem]

/-- C5 witness: a fresh 2-dimensional handler accepts id `""`. -/
theorem handleInsert_empty_id_witness :
    ((Vec.mk "" [1, 0] default).id = "" ∧
      (Vec.mk "" [1, 0] default).embedding.length
        = (NewHandler 2).dimensions) ∧
    (HandleInsert (NewHandler 2) (Vec.mk "" [1, 0] default) []).1.success
        = true ∧
    (HandleInsert (NewHandler 2) (Vec.mk "" [1, 0] default) []).1.message
        = "Vector inserted successfully" ∧
    (HandleInsert (NewHandler 2) (Vec.mk "" [1, 0] default) []).2.bruteForce.Count
        = (NewHandler 2).bruteForce.Count + 1 ∧
    (Vec.mk "" [1, 0] default).id ∈
      keysOf (HandleInsert (NewHandler 2)
        (Vec.mk "" [1, 0] default) []).2.hnsw.nodes :=
  ⟨⟨rfl, rfl⟩, handleInsert_empty_id (NewHandler 2)
    (Vec.mk "" [1, 0] default) [] rfl rfl⟩

/-- C5 counterexample to the original claim: the empty-id insert is NOT
rejected — it succeeds and changes the index state (the brute-force
count grows from 0 to 1). -/
theorem handleInsert_empty_id_counterexample :
    (HandleInsert (NewHandler 2) (Vec.mk "" [1, 0] default) []).1.success
        = true ∧
    (HandleInsert (NewHandler 2) (Vec.mk "" [1, 0] default) []).2.bruteForce.Count
        = 1 ∧
    (NewHandler 2).bruteForce.Count = 0 := by
  refine ⟨?_, ?_, rfl⟩ <;>
    simp [HandleInsert, NewHandler, NewBruteForceIndex,
      BruteForceIndex.Insert, HNSWIndex.Insert, BruteForceIndex.Count]

/-! ## Claim C6 -/

/-- C6: an insert whose embedding length differs from the handler's
dimension is rejected with the dimension-mismatch message and the whole
state (both indexes) is unchanged; and the index-level insert operations
themselves never fail. -/
theorem dimension_guard (h : Handler) (req : Vec) (draws : List ℝ)
    (hdim : req.embedding.length ≠ h.dimensions) :
    (HandleInsert h req draws).1
      = { success := false, message := "Invalid embedding dimensions" } ∧
    (HandleInsert h req draws).2 = h ∧
    (∀ (idx : BruteForceIndex) (v : Vec),
      ∃ i, idx.Insert v = Except.ok i) ∧
    (∀ (idx : HNSWIndex) (v : Vec) (d : List ℝ),
      ∃ i, idx.Insert v d = Except.ok i) := by
  refine ⟨?_, ?_, ?_, ?_⟩
  · simp [HandleInsert, hdim]
  · simp [HandleInsert, hdim]
  · intro idx v
    exact ⟨_, rfl⟩
  · intro idx v d
    exact ⟨_, rfl⟩

/-- C6 witness: `D = 4`, embedding of length 5: rejected, and the fresh
handler's count stays 0. -/
theorem dimension_guard_witness :
    ((Vec.mk "a" [1, 2, 3, 4, 5] default).embedding.length
        ≠ (NewHandler 4).dimensions) ∧
    (HandleInsert (NewHandler 4) (Vec.mk "a" [1, 2, 3, 4, 5] default) []).1
      = { success := false, message := "Invalid embedding dimensions" } ∧
    (HandleInsert (NewHandler 4) (Vec.mk "a" [1, 2, 3, 4, 5] default) []).2
      = NewHandler 4 ∧
    (HandleInsert (NewHandler 4)
        (Vec.mk "a" [1, 2, 3, 4, 5] default) []).2.bruteForce.Count = 0 := by
  have hd : (Vec.mk "a" [1, 2, 3, 4, 5] default).embedding.length
      ≠ (NewHandler 4).dimensions := by
    simp [NewHandler]
  have hmain := dimension_guard (NewHandler 4)
    (Vec.mk "a" [1, 2, 3, 4, 5] default) [] hd
  exact ⟨hd, hmain.1, hmain.2.1, by rw [hmain.2.1]; rfl⟩

/-! ## Claim C10 -/

/-- C10 (amended): re-inserting an existing id succeeds, replaces the
stored node for that id with one carrying the new embedding, metadata
and level, and preserves the key list, so `Count` does not change;
but the replacement node's neighbor lists need not be empty after the
call, and edges of other nodes may be rewritten by pruning. -/
theorem insert_existing_id (idx : HNSWIndex) (v : Vec) (level : ℕ)
    (hmem : (lookupN idx.nodes v.id).isSome = true) :
    (insertWithLevel idx v level).Count = idx.Count ∧
    keysOf (insertWithLevel idx v level).nodes = keysOf idx.nodes ∧
    (lookupN (insertWithLevel idx v level).nodes v.id).map nodeCore
      = some (v.id, v.embedding, v.metadata, level) := by
  have hkeys : keysOf (insertWithLevel idx v level).nodes
      = keysOf idx.nodes := by
    simp only [insertWithLevel]
    split
    · exact keysOf_setN_isSome _ _ _ hmem
    · split <;>
        · dsimp only
          rw [keysOf_insertPhase]
          exact keysOf_setN_isSome _ _ _ hmem
  have hcore : (lookupN (insertWithLevel idx v level).nodes v.id).map
      nodeCore = some (v.id, v.embedding, v.metadata, level) := by
    simp only [insertWithLevel]
    split
    · rw [lookupN_setN_self]
      rfl
    · split <;>
        · dsimp only
          rw [core_insertPhase, lookupN_setN_self]
          rfl
  refine ⟨?_, hkeys, hcore⟩
  have hlen := congrArg List.length hkeys
  simpa [keysOf, HNSWIndex.Count] using hlen

/-- C10 witness: a one-node index re-receives id `a` with a new
embedding; the key set and count are preserved and the stored node now
carries the new embedding. -/
theorem insert_existing_id_witness :
    ((lookupN (insertWithLevel (NewHNSWIndex (HNSWConfig.mk 2 2 2 2 0 2))
        (Vec.mk "a" [1, 0] default) 0).nodes
        (Vec.mk "a" [0, 1] default).id).isSome = true) ∧
    ((insertWithLevel (insertWithLevel
          (NewHNSWIndex (HNSWConfig.mk 2 2 2 2 0 2))
          (Vec.mk "a" [1, 0] default) 0)
        (Vec.mk "a" [0, 1] default) 0).Count
      = (insertWithLevel (NewHNSWIndex (HNSWConfig.mk 2 2 2 2 0 2))
          (Vec.mk "a" [1, 0] default) 0).Count ∧
    keysOf (insertWithLevel (insertWithLevel
          (NewHNSWIndex (HNSWConfig.mk 2 2 2 2 0 2))
          (Vec.mk "a" [1, 0] default) 0)
        (Vec.mk "a" [0, 1] default) 0).nodes
      = keysOf (insertWithLevel (NewHNSWIndex (HNSWConfig.mk 2 2 2 2 0 2))
          (Vec.mk "a" [1, 0] default) 0).nodes ∧
    (lookupN (insertWithLevel (insertWithLevel
          (NewHNSWIndex (HNSWConfig.mk 2 2 2 2 0 2))
          (Vec.mk "a" [1, 0] default) 0)
        (Vec.mk "a" [0, 1] default) 0).nodes
        (Vec.mk "a" [0, 1] default).id).map nodeCore
      = some ((Vec.mk "a" [0, 1] default).id,
          (Vec.mk "a" [0, 1] default).embedding,
          (Vec.mk "a" [0, 1] default).metadata, 0)) := by
  have hyp : (lookupN (insertWithLevel
      (NewHNSWIndex (HNSWConfig.mk 2 2 2 2 0 2))
      (Vec.mk "a" [1, 0] default) 0).nodes
      (Vec.mk "a" [0, 1] default).id).isSome = true := by
    simp [insertWithLevel, NewHNSWIndex, setN, lookupN]
  exact ⟨hyp, insert_existing_id _ _ _ hyp⟩

/-- `CosineDistance` of the unit vector with itself is `0`. -/
theorem cosineDistance_unit :
    CosineDistance [(1 : ℝ), 0] [(1 : ℝ), 0] = 0 := by
  rw [CosineDistance, cosineSimilarity_unit]
  ring

/-- First insert of the C10 trace: id `a` on a fresh index takes the
first-node branch. -/
theorem hnswA_eval :
    insertWithLevel (NewHNSWIndex (HNSWConfig.mk 2 2 2 2 0 2))
      (Vec.mk "a" [1, 0] default) 0
    = HNSWIndex.mk [("a", HNSWNode.mk "a" [1, 0] default [[]] 0)]
        "a" 0 (HNSWConfig.mk 2 2 2 2 0 2) := by
  simp [insertWithLevel, NewHNSWIndex, setN, lookupN, List.replicate]

/-- Beam search on the one-node index finds the single node (used by
several concrete evaluations; `ef = 2`, layer 0). -/
theorem searchLayer_singleA :
    searchLayer [("a", HNSWNode.mk "a" [1, 0] default [[]] 0)]
      [1, 0] "a" 2 0
      = [⟨"a", 0, true⟩] := by
  simp [searchLayer, lookupN, cosineDistance_unit, slLoop, slVisit,
    heapPushG, heapPopG, heapUp, heapDown, heapDrain, hswap, dnLess]

/-- Second insert of the C10 trace: re-inserting id `a` links the
stored node against itself, leaving the doubled self-edge list
`[["a", "a"]]`. -/
theorem hnswAA_eval :
    insertWithLevel
      (HNSWIndex.mk [("a", HNSWNode.mk "a" [1, 0] default [[]] 0)]
        "a" 0 (HNSWConfig.mk 2 2 2 2 0 2))
      (Vec.mk "a" [1, 0] default) 0
    = HNSWIndex.mk [("a", HNSWNode.mk "a" [1, 0] default [["a", "a"]] 0)]
        "a" 0 (HNSWConfig.mk 2 2 2 2 0 2) := by
  have hset : setN [("a", HNSWNode.mk "a" [1, 0] default [[]] 0)] "a"
      (HNSWNode.mk "a" [1, 0] default (List.replicate (0 + 1) []) 0)
      = [("a", HNSWNode.mk "a" [1, 0] default [[]] 0)] := by
    simp [setN, lookupN, List.replicate]
  have hsl := searchLayer_singleA
  have hlay0 : intRangeDown (0 : ℤ) 0 = [] := by decide
  have hlay1 : intRangeDown (0 : ℤ) (-1) = [0] := by decide
  simp only [insertWithLevel, hset]
  rw [if_neg (by decide : ¬ ("a" : String) = "")]
  simp only [Nat.cast_zero, min_self, hlay0, hlay1, descend,
    List.foldl_nil, List.foldl_cons]
  norm_num [insertLayer, hsl, selectNeighbors, insEdgeStep, adjustN,
    lookupN, pruneConnections]

/-- C10 counterexample: inserting the same vector `a` twice leaves the
replacement node with the self-edge list `[["a", "a"]]` — NOT the empty
neighbor lists the claim asserts. -/
theorem insert_existing_id_counterexample :
    (lookupN (insertWithLevel (insertWithLevel
          (NewHNSWIndex (HNSWConfig.mk 2 2 2 2 0 2))
          (Vec.mk "a" [1, 0] default) 0)
        (Vec.mk "a" [1, 0] default) 0).nodes "a").map HNSWNode.neighbors
      = some [["a", "a"]] ∧
    some [["a", "a"]] ≠ some [([] : List String)] ∧
    (insertWithLevel (insertWithLevel
        (NewHNSWIndex (HNSWConfig.mk 2 2 2 2 0 2))
        (Vec.mk "a" [1, 0] default) 0)
      (Vec.mk "a" [1, 0] default) 0).Count = 1 := by
  rw [hnswA_eval, hnswAA_eval]
  refine ⟨?_, by simp, rfl⟩
  simp [lookupN]

/-! ## Claim C8 -/

theorem mem_mergeStep (k : ℕ) (h : List SearchResult) (r x : SearchResult)
    (hx : x ∈ mergeStep k h r) : x ∈ h ∨ x = r := by
  unfold mergeStep at hx
  split at hx
  · have h1 : x ∈ r :: h := (heapPushG_perm resLess h r).mem_iff.mp hx
    rcases List.mem_cons.mp h1 with h2 | h2
    · exact Or.inr h2
    · exact Or.inl h2
  · split at hx
    · have h1 : x ∈ r :: (heapPopG resLess h).2 :=
        (heapPushG_perm resLess _ r).mem_iff.mp hx
      rcases List.mem_cons.mp h1 with h2 | h2
      · exact Or.inr h2
      · by_cases hne : h = []
        · subst hne
          exfalso
          simp [heapPopG, hswap, heapDown] at h2
        · left
          exact (heapPopG_perm resLess h hne).mem_iff.mpr
            (List.mem_cons_of_mem _ h2)
    · exact Or.inl hx

theorem mem_mergeFold (k : ℕ) (rs : List SearchResult) :
    ∀ (h0 : List SearchResult) (x : SearchResult),
      x ∈ rs.foldl (mergeStep k) h0 → x ∈ h0 ∨ x ∈ rs := by
  induction rs with
  | nil =>
    intro h0 x hx
    exact Or.inl hx
  | cons r t ih =>
    intro h0 x hx
    rw [List.foldl_cons] at hx
    rcases ih _ x hx with h1 | h1
    · rcases mem_mergeStep k h0 r x h1 with h2 | h2
      · exact Or.inl h2
      · right
        rw [h2]
        exact List.mem_cons_self r t
    · exact Or.inr (List.mem_cons_of_mem _ h1)

theorem bfSearch_mem_resOf (idx : BruteForceIndex) (q : List ℝ) (k : ℕ)
    (r : SearchResult) (hr : r ∈ idx.Search q k) :
    ∃ v ∈ idx.vectors, r = resOf q v := by
  unfold BruteForceIndex.Search at hr
  split at hr
  · simp at hr
  · rw [List.mem_reverse] at hr
    have hperm := heapDrain_perm resLess
      (idx.vectors.foldl (fun h v => mergeStep k h (resOf q v)) []).length
      (idx.vectors.foldl (fun h v => mergeStep k h (resOf q v)) [])
      (le_refl _)
    have hr2 : r ∈ idx.vectors.foldl
        (fun h v => mergeStep k h (resOf q v)) [] := hperm.mem_iff.mp hr
    have hfold : idx.vectors.foldl (fun h v => mergeStep k h (resOf q v)) []
        = (idx.vectors.map (resOf q)).foldl (mergeStep k) [] := by
      rw [List.foldl_map]
    rw [hfold] at hr2
    rcases mem_mergeFold k _ _ _ hr2 with h1 | h1
    · simp at h1
    · obtain ⟨v, hv, hveq⟩ := List.mem_map.mp h1
      exact ⟨v, hv, hveq.symm⟩

/-- C8: every score in the result list of the brute-force search and of
the HNSW search lies in the closed interval `[-1, 1]`. -/
theorem search_scores_in_range (bf : BruteForceIndex) (hidx : HNSWIndex)
    (q qh : List ℝ) (k kh : ℕ) (r rh : SearchResult)
    (hr : r ∈ bf.Search q k) (hrh : rh ∈ hidx.Search qh kh) :
    (-1 ≤ r.score ∧ r.score ≤ 1) ∧ (-1 ≤ rh.score ∧ rh.score ≤ 1) := by
  constructor
  · obtain ⟨v, _, hveq⟩ := bfSearch_mem_resOf bf q k r hr
    rw [hveq]
    exact cosineSimilarity_bounds q v.embedding
  · unfold HNSWIndex.Search at hrh
    split at hrh
    · simp at hrh
    · obtain ⟨c, _, hceq⟩ := List.mem_filterMap.mp hrh
      cases hl : lookupN hidx.nodes c.id with
      | none =>
        rw [hl] at hceq
        simp at hceq
      | some node =>
        rw [hl] at hceq
        simp only [Option.map_some', Option.some.injEq] at hceq
        rw [← hceq]
        exact cosineSimilarity_bounds qh node.vector

/-- Brute-force search of the one-vector index returns the single
(unit-similarity) result (used by the C8 witness). -/
theorem bfW_eval :
    (BruteForceIndex.mk [Vec.mk "w" [1, 0] default] 2).Search [1, 0] 1
      = [⟨"w", 1, default⟩] := by
  have hres : resOf [(1 : ℝ), 0] (Vec.mk "w" [1, 0] default)
      = ⟨"w", 1, default⟩ := by
    rw [resOf, cosineSimilarity_unit]
  simp only [BruteForceIndex.Search, List.length_cons, List.length_nil]
  norm_num
  simp only [List.foldl_cons, List.foldl_nil, hres]
  simp [mergeStep, heapPushG, heapUp, heapDrain, heapPopG, heapDown,
    hswap, resLess, kLess]

/-- HNSW search of the one-node index returns the single
(unit-similarity) result (used by the C8 witness). -/
theorem hnswA_search_eval :
    (HNSWIndex.mk [("a", HNSWNode.mk "a" [1, 0] default [[]] 0)] "a" 0
      (HNSWConfig.mk 2 2 2 2 0 2)).Search [1, 0] 1
      = [⟨"a", 1, default⟩] := by
  have hlay0 : intRangeDown (0 : ℤ) 0 = [] := by decide
  simp only [HNSWIndex.Search]
  rw [if_neg (by simp : ¬ (([("a", HNSWNode.mk "a" [1, 0] default [[]] 0)]
    : List (String × HNSWNode)).length = 0 ∨ ("a" : String) = ""))]
  simp only [hlay0, descend, List.foldl_nil]
  rw [searchLayer_singleA]
  simp [lookupN, cosineSimilarity_unit]

/-- C8 witness: concrete members of both result lists, with their scores
in range. -/
theorem search_scores_in_range_witness :
    ((⟨"w", 1, default⟩ : SearchResult)
        ∈ (BruteForceIndex.mk [Vec.mk "w" [1, 0] default] 2).Search
          [1, 0] 1 ∧
      (⟨"a", 1, default⟩ : SearchResult)
        ∈ (HNSWIndex.mk [("a", HNSWNode.mk "a" [1, 0] default [[]] 0)]
            "a" 0 (HNSWConfig.mk 2 2 2 2 0 2)).Search [1, 0] 1) ∧
    ((-1 ≤ (⟨"w", 1, default⟩ : SearchResult).score ∧
        (⟨"w", 1, default⟩ : SearchResult).score ≤ 1) ∧
      (-1 ≤ (⟨"a", 1, default⟩ : SearchResult).score ∧
        (⟨"a", 1, default⟩ : SearchResult).score ≤ 1)) := by
  have h1 : (⟨"w", 1, default⟩ : SearchResult)
      ∈ (BruteForceIndex.mk [Vec.mk "w" [1, 0] default] 2).Search
        [1, 0] 1 := by
    rw [bfW_eval]
    exact List.mem_singleton.mpr rfl
  have h2 : (⟨"a", 1, default⟩ : SearchResult)
      ∈ (HNSWIndex.mk [("a", HNSWNode.mk "a" [1, 0] default [[]] 0)]
          "a" 0 (HNSWConfig.mk 2 2 2 2 0 2)).Search [1, 0] 1 := by
    rw [hnswA_search_eval]
    exact List.mem_singleton.mpr rfl
  exact ⟨⟨h1, h2⟩, search_scores_in_range _ _ _ _ _ _ _ _ h1 h2⟩

/-! ## Claim C3 -/

/-- `CosineDistance` between the zero vectors is `1` (zero-norm guard
of `CosineSimilarity`). -/
theorem cosineDistance_zeroes :
    CosineDistance [(0 : ℝ), 0] [(0 : ℝ), 0] = 1 := by
  have hs : CosineSimilarity [(0 : ℝ), 0] [(0 : ℝ), 0] = 0 := by
    rw [CosineSimilarity, if_neg (by norm_num)]
    rw [if_pos]
    left
    norm_num [sumSq]
  rw [CosineDistance, hs]
  ring

/-- C3 trace, insert 1 (`e` on the fresh index). -/
theorem hnswZ1_eval :
    insertWithLevel (NewHNSWIndex (HNSWConfig.mk 3 3 3 3 0 2))
      (Vec.mk "e" [0, 0] default) 0
    = HNSWIndex.mk [("e", HNSWNode.mk "e" [0, 0] default [[]] 0)]
        "e" 0 (HNSWConfig.mk 3 3 3 3 0 2) := by
  simp [insertWithLevel, NewHNSWIndex, setN, lookupN, List.replicate]

/-- C3 trace, beam search during insert 2. -/
theorem hnswZ2_searchLayer :
    searchLayer [("e", HNSWNode.mk "e" [0, 0] default [[]] 0),
        ("b", HNSWNode.mk "b" [0, 0] default [[]] 0)]
      [0, 0] "e" 3 0
      = [⟨"e", 1, true⟩] := by
  simp [searchLayer, lookupN, cosineDistance_zeroes, slLoop, slVisit,
    heapPushG, heapPopG, heapUp, heapDown, heapDrain, hswap, dnLess]

/-- C3 trace, insert 2 (`b`): a single bidirectional pair `e – b`. -/
theorem hnswZ2_eval :
    insertWithLevel
      (HNSWIndex.mk [("e", HNSWNode.mk "e" [0, 0] default [[]] 0)]
        "e" 0 (HNSWConfig.mk 3 3 3 3 0 2))
      (Vec.mk "b" [0, 0] default) 0
    = HNSWIndex.mk
        [("e", HNSWNode.mk "e" [0, 0] default [["b"]] 0),
         ("b", HNSWNode.mk "b" [0, 0] default [["e"]] 0)]
        "e" 0 (HNSWConfig.mk 3 3 3 3 0 2) := by
  have hset : setN [("e", HNSWNode.mk "e" [0, 0] default [[]] 0)] "b"
      (HNSWNode.mk "b" [0, 0] default (List.replicate (0 + 1) []) 0)
      = [("e", HNSWNode.mk "e" [0, 0] default [[]] 0),
         ("b", HNSWNode.mk "b" [0, 0] default [[]] 0)] := by
    simp [setN, lookupN, List.replicate]
  have hlay0 : intRangeDown (0 : ℤ) 0 = [] := by decide
  have hlay1 : intRangeDown (0 : ℤ) (-1) = [0] := by decide
  simp only [insertWithLevel, hset]
  rw [if_neg (by decide : ¬ ("e" : String) = "")]
  simp only [Nat.cast_zero, min_self, hlay0, hlay1, descend,
    List.foldl_nil, List.foldl_cons]
  simp [insertLayer, hnswZ2_searchLayer, selectNeighbors, insEdgeStep,
    adjustN, lookupN, pruneConnections]

set_option maxHeartbeats 4000000 in
/-- C3 trace, beam search during insert 3. -/
theorem hnswZ3_searchLayer :
    searchLayer [("e", HNSWNode.mk "e" [0, 0] default [["b"]] 0),
        ("b", HNSWNode.mk "b" [0, 0] default [["e"]] 0),
        ("a", HNSWNode.mk "a" [0, 0] default [[]] 0)]
      [0, 0] "e" 3 0
      = [⟨"e", 1, true⟩, ⟨"b", 1, true⟩] := by
  simp [searchLayer, lookupN, cosineDistance_zeroes, slLoop, slVisit,
    heapPushG, heapPopG, heapUp, heapDown, heapDrain, hswap, dnLess,
    List.contains_cons]

/-- C3 trace, insert 3 (first `a`): everything mutually linked, all
degrees 2 ≤ 3. -/
theorem hnswZ3_eval :
    insertWithLevel
      (HNSWIndex.mk
        [("e", HNSWNode.mk "e" [0, 0] default [["b"]] 0),
         ("b", HNSWNode.mk "b" [0, 0] default [["e"]] 0)]
        "e" 0 (HNSWConfig.mk 3 3 3 3 0 2))
      (Vec.mk "a" [0, 0] default) 0
    = HNSWIndex.mk
        [("e", HNSWNode.mk "e" [0, 0] default [["b", "a"]] 0),
         ("b", HNSWNode.mk "b" [0, 0] default [["e", "a"]] 0),
         ("a", HNSWNode.mk "a" [0, 0] default [["e", "b"]] 0)]
        "e" 0 (HNSWConfig.mk 3 3 3 3 0 2) := by
  have hset : setN [("e", HNSWNode.mk "e" [0, 0] default [["b"]] 0),
        ("b", HNSWNode.mk "b" [0, 0] default [["e"]] 0)] "a"
      (HNSWNode.mk "a" [0, 0] default (List.replicate (0 + 1) []) 0)
      = [("e", HNSWNode.mk "e" [0, 0] default [["b"]] 0),
         ("b", HNSWNode.mk "b" [0, 0] default [["e"]] 0),
         ("a", HNSWNode.mk "a" [0, 0] default [[]] 0)] := by
    simp [setN, lookupN, List.replicate]
  have hlay0 : intRangeDown (0 : ℤ) 0 = [] := by decide
  have hlay1 : intRangeDown (0 : ℤ) (-1) = [0] := by decide
  simp only [insertWithLevel, hset]
  rw [if_neg (by decide : ¬ ("e" : String) = "")]
  simp only [Nat.cast_zero, min_self, hlay0, hlay1, descend,
    List.foldl_nil, List.foldl_cons]
  simp [insertLayer, hnswZ3_searchLayer, selectNeighbors, insEdgeStep,
    adjustN, lookupN, pruneConnections]

set_option maxHeartbeats 4000000 in
/-- C3 trace, beam search during insert 4 (the re-inserted `a` is
reachable through `e` and `b` and is returned). -/
theorem hnswZ4_searchLayer :
    searchLayer [("e", HNSWNode.mk "e" [0, 0] default [["b", "a"]] 0),
        ("b", HNSWNode.mk "b" [0, 0] default [["e", "a"]] 0),
        ("a", HNSWNode.mk "a" [0, 0] default [[]] 0)]
      [0, 0] "e" 3 0
      = [⟨"e", 1, true⟩, ⟨"a", 1, true⟩, ⟨"b", 1, true⟩] := by
  simp [searchLayer, lookupN, cosineDistance_zeroes, slLoop, slVisit,
    heapPushG, heapPopG, heapUp, heapDown, heapDrain, hswap, dnLess,
    List.contains_cons]

/-- C3 trace, insert 4 (duplicate `a`): the self-links push node `a`'s
layer-0 list to `["e", "a", "a", "b"]` — four entries. -/
theorem hnswZ4_eval :
    insertWithLevel
      (HNSWIndex.mk
        [("e", HNSWNode.mk "e" [0, 0] default [["b", "a"]] 0),
         ("b", HNSWNode.mk "b" [0, 0] default [["e", "a"]] 0),
         ("a", HNSWNode.mk "a" [0, 0] default [["e", "b"]] 0)]
        "e" 0 (HNSWConfig.mk 3 3 3 3 0 2))
      (Vec.mk "a" [0, 0] default) 0
    = HNSWIndex.mk
        [("e", HNSWNode.mk "e" [0, 0] default [["b", "a", "a"]] 0),
         ("b", HNSWNode.mk "b" [0, 0] default [["e", "a", "a"]] 0),
         ("a", HNSWNode.mk "a" [0, 0] default [["e", "a", "a", "b"]] 0)]
        "e" 0 (HNSWConfig.mk 3 3 3 3 0 2) := by
  have hset : setN
      [("e", HNSWNode.mk "e" [0, 0] default [["b", "a"]] 0),
       ("b", HNSWNode.mk "b" [0, 0] default [["e", "a"]] 0),
       ("a", HNSWNode.mk "a" [0, 0] default [["e", "b"]] 0)] "a"
      (HNSWNode.mk "a" [0, 0] default (List.replicate (0 + 1) []) 0)
      = [("e", HNSWNode.mk "e" [0, 0] default [["b", "a"]] 0),
         ("b", HNSWNode.mk "b" [0, 0] default [["e", "a"]] 0),
         ("a", HNSWNode.mk "a" [0, 0] default [[]] 0)] := by
    simp [setN, lookupN, List.replicate]
  have hlay0 : intRangeDown (0 : ℤ) 0 = [] := by decide
  have hlay1 : intRangeDown (0 : ℤ) (-1) = [0] := by decide
  simp only [insertWithLevel, hset]
  rw [if_neg (by decide : ¬ ("e" : String) = "")]
  simp only [Nat.cast_zero, min_self, hlay0, hlay1, descend,
    List.foldl_nil, List.foldl_cons]
  simp [insertLayer, hnswZ4_searchLayer, selectNeighbors, insEdgeStep,
    adjustN, lookupN, pruneConnections]

/-- C3 counterexample: four `Insert` calls (ids `e`, `b`, `a`, `a` — a
duplicate id, all levels 0 since `ML = 0`) leave node `a` with FOUR
layer-0 neighbors while `MMax = 3`. -/
theorem insert_degree_bound_counterexample :
    (lookupN (applyInserts (NewHNSWIndex (HNSWConfig.mk 3 3 3 3 0 2))
        [(Vec.mk "e" [0, 0] default, []), (Vec.mk "b" [0, 0] default, []),
         (Vec.mk "a" [0, 0] default, []),
         (Vec.mk "a" [0, 0] default, [])]).nodes "a").map
        (fun nd => nd.neighbors.getD 0 [])
      = some ["e", "a", "a", "b"] ∧
    ¬ (["e", "a", "a", "b"].length ≤ (HNSWConfig.mk 3 3 3 3 0 2).mMax) := by
  have hrl : ∀ ml : ℝ, randomLevel ml [] = 0 := fun ml => rfl
  refine ⟨?_, by decide⟩
  simp only [applyInserts, List.foldl_cons, List.foldl_nil, hrl]
  rw [hnswZ1_eval, hnswZ2_eval, hnswZ3_eval, hnswZ4_eval]
  simp [lookupN]

/-! ## HNSW graph lemmas (shared by the degree-bound and
bidirectionality developments) -/

theorem lookupN_mem_key (nodes : List (String × HNSWNode)) (id : String)
    (node : HNSWNode) (h : lookupN nodes id = some node) :
    ∃ p ∈ nodes, p.1 = id ∧ p.2 = node := by
  unfold lookupN at h
  cases hf : nodes.find? (fun p => decide (p.1 = id)) with
  | none => rw [hf] at h; simp at h
  | some p =>
    rw [hf] at h
    simp only [Option.map_some', Option.some.injEq] at h
    refine ⟨p, List.mem_of_find?_eq_some hf, ?_, h⟩
    have := List.find?_some hf
    simpa using this

theorem mem_adjustN (nodes : List (String × HNSWNode)) (id : String)
    (f : HNSWNode → HNSWNode) (p : String × HNSWNode)
    (h : p ∈ adjustN nodes id f) :
    ∃ q ∈ nodes, p = if q.1 = id then (q.1, f q.2) else q := by
  obtain ⟨q, hq, hqe⟩ := List.mem_map.mp h
  exact ⟨q, hq, hqe.symm⟩

theorem mem_heapPushG {α : Type} [Inhabited α]
    (less : List α → ℕ → ℕ → Prop) [∀ l i j, Decidable (less l i j)]
    (l : List α) (y x : α) (hx : x ∈ heapPushG less l y) :
    x = y ∨ x ∈ l := by
  have h1 : x ∈ y :: l := (heapPushG_perm less l y).mem_iff.mp hx
  exact List.mem_cons.mp h1

theorem mem_heapPopG_snd {α : Type} [Inhabited α]
    (less : List α → ℕ → ℕ → Prop) [∀ l i j, Decidable (less l i j)]
    (l : List α) (x : α) (hx : x ∈ (heapPopG less l).2) : x ∈ l := by
  by_cases hne : l = []
  · subst hne
    simp [heapPopG, hswap, heapDown] at hx
  · exact (heapPopG_perm less l hne).mem_iff.mpr
      (List.mem_cons_of_mem _ hx)

theorem mem_heapPopG_fst {α : Type} [Inhabited α]
    (less : List α → ℕ → ℕ → Prop) [∀ l i j, Decidable (less l i j)]
    (l : List α) (hne : l ≠ []) : (heapPopG less l).1 ∈ l :=
  (heapPopG_perm less l hne).mem_iff.mpr (List.mem_cons_self _ _)

theorem mem_heapDrain {α : Type} [Inhabited α]
    (less : List α → ℕ → ℕ → Prop) [∀ l i j, Decidable (less l i j)]
    (l : List α) (x : α) (hx : x ∈ heapDrain less l) : x ∈ l :=
  (heapDrain_perm less l.length l (le_refl _)).mem_iff.mp hx

theorem selectNeighbors_length (c : List DistanceNode) (m : ℕ) :
    (selectNeighbors c m).length ≤ m ∨ selectNeighbors c m = c := by
  unfold selectNeighbors
  split
  · exact Or.inr rfl
  · left
    simp [List.length_take]

theorem selectNeighbors_length_le (c : List DistanceNode) (m : ℕ) :
    (selectNeighbors c m).length ≤ m := by
  unfold selectNeighbors
  split
  · omega
  · simp [List.length_take]

theorem selectNeighbors_subset (c : List DistanceNode) (m : ℕ)
    (x : DistanceNode) (hx : x ∈ selectNeighbors c m) : x ∈ c := by
  unfold selectNeighbors at hx
  split at hx
  · exact hx
  · exact List.mem_of_mem_take hx

theorem mem_refsAt (nodes : List (String × HNSWNode)) (l : ℕ)
    (x : String) :
    x ∈ refsAt nodes l ↔
      ∃ p ∈ nodes, x ∈ p.2.neighbors.getD l [] := by
  unfold refsAt
  rw [List.mem_flatten]
  constructor
  · rintro ⟨lst, hlst, hx⟩
    obtain ⟨p, hp, hpe⟩ := List.mem_map.mp hlst
    exact ⟨p, hp, hpe ▸ hx⟩
  · rintro ⟨p, hp, hx⟩
    exact ⟨p.2.neighbors.getD l [], List.mem_map.mpr ⟨p, hp, rfl⟩, hx⟩

theorem refsAt_append_single (nodes : List (String × HNSWNode))
    (id : String) (node : HNSWNode) (l : ℕ) :
    refsAt (nodes ++ [(id, node)]) l
      = refsAt nodes l ++ node.neighbors.getD l [] := by
  unfold refsAt
  simp

theorem exchFold_perm (i : ℕ) :
    ∀ (js : List ℕ) (acc : List (String × ℝ)),
      i < acc.length → (∀ j ∈ js, j < acc.length) →
      (js.foldl (fun a j =>
        if (a.getD j default).2 < (a.getD i default).2
        then hswap a i j else a) acc).Perm acc := by
  intro js
  induction js with
  | nil =>
    intro acc _ _
    exact List.Perm.refl acc
  | cons j t ih =>
    intro acc hi hjs
    rw [List.foldl_cons]
    split
    · have hp1 : (hswap acc i j).Perm acc :=
        hswap_perm acc i j hi (hjs j (List.mem_cons_self j t))
      have hlen : (hswap acc i j).length = acc.length :=
        hswap_length acc i j
      exact (ih (hswap acc i j) (by omega) (fun x hx => by
        have := hjs x (List.mem_cons_of_mem _ hx)
        omega)).trans hp1
    · exact ih acc hi (fun x hx => hjs x (List.mem_cons_of_mem _ hx))

theorem exchInner_perm (l : List (String × ℝ)) (i : ℕ) :
    (exchInner l i).Perm l := by
  unfold exchInner
  by_cases hi : i < l.length
  · apply exchFold_perm i _ l hi
    intro j hj
    have := List.mem_range'_1.mp hj
    omega
  · have h0 : l.length - (i + 1) = 0 := by omega
    rw [h0]
    exact List.Perm.refl l

theorem exchangeSort_perm (l : List (String × ℝ)) :
    (exchangeSort l).Perm l := by
  have hfold : ∀ (is : List ℕ) (acc : List (String × ℝ)),
      (is.foldl exchInner acc).Perm acc := by
    intro is
    induction is with
    | nil =>
      intro acc
      exact List.Perm.refl acc
    | cons i t ih =>
      intro acc
      rw [List.foldl_cons]
      exact (ih _).trans (exchInner_perm acc i)
  exact hfold _ l

theorem pruneConnections_subset (nodes : List (String × HNSWNode))
    (vec : List ℝ) (nb : List String) (m : ℕ) (x : String)
    (hx : x ∈ pruneConnections nodes vec nb m) : x ∈ nb := by
  unfold pruneConnections at hx
  split at hx
  · exact hx
  · obtain ⟨pr, hpr, hpre⟩ := List.mem_map.mp hx
    have h1 := List.mem_of_mem_take hpr
    have h2 := (exchangeSort_perm _).mem_iff.mp h1
    obtain ⟨nid, hnid, hmap⟩ := List.mem_filterMap.mp h2
    cases hl : lookupN nodes nid with
    | none =>
      rw [hl] at hmap
      simp at hmap
    | some nd =>
      rw [hl] at hmap
      simp only [Option.map_some', Option.some.injEq] at hmap
      rw [← hpre, ← hmap]
      exact hnid

theorem pruneConnections_length_le (nodes : List (String × HNSWNode))
    (vec : List ℝ) (nb : List String) (m : ℕ) (hm : m < nb.length) :
    (pruneConnections nodes vec nb m).length ≤ m := by
  unfold pruneConnections
  rw [if_neg (by omega)]
  simp only [List.length_map, List.length_take]
  omega

theorem mem_intRangeDown (hi lo l : ℤ) (hl : l ∈ intRangeDown hi lo) :
    lo < l ∧ l ≤ hi := by
  unfold intRangeDown at hl
  simp only [List.mem_map, List.mem_range] at hl
  obtain ⟨i, hi2, hie⟩ := hl
  omega

theorem intRangeDown_pairwise (hi lo : ℤ) :
    (intRangeDown hi lo).Pairwise (fun a b => b < a) := by
  unfold intRangeDown
  rw [List.pairwise_map]
  refine List.Pairwise.imp ?_ (List.pairwise_lt_range ((hi - lo).toNat))
  intro a b h
  omega

theorem slVisit_mem (nodes : List (String × HNSWNode)) (query : List ℝ)
    (ef : ℕ) (P : String → Prop) (st : SLState) (nid : String)
    (hc : ∀ x ∈ st.cands, P x.id) (hr : ∀ x ∈ st.results, P x.id)
    (hn : P nid) :
    (∀ x ∈ (slVisit nodes query ef st nid).cands, P x.id) ∧
    (∀ x ∈ (slVisit nodes query ef st nid).results, P x.id) := by
  simp only [slVisit]
  split
  · exact ⟨hc, hr⟩
  · split
    · exact ⟨hc, hr⟩
    · split
      · refine ⟨?_, ?_⟩
        · intro x hx
          rcases mem_heapPushG _ _ _ _ hx with h | h
          · rw [h]
            exact hn
          · exact hc x h
        · intro x hx
          rcases mem_heapPushG _ _ _ _ hx with h | h
          · rw [h]
            exact hn
          · exact hr x h
      · split
        · refine ⟨?_, ?_⟩
          · intro x hx
            rcases mem_heapPushG _ _ _ _ hx with h | h
            · rw [h]
              exact hn
            · exact hc x h
          · intro x hx
            rcases mem_heapPushG _ _ _ _ hx with h | h
            · rw [h]
              exact hn
            · exact hr x (mem_heapPopG_snd _ _ _ h)
        · exact ⟨hc, hr⟩

theorem slVisitFold_mem (nodes : List (String × HNSWNode))
    (query : List ℝ) (ef : ℕ) (P : String → Prop) :
    ∀ (lst : List String) (st : SLState),
      (∀ x ∈ st.cands, P x.id) → (∀ x ∈ st.results, P x.id) →
      (∀ nid ∈ lst, P nid) →
      (∀ x ∈ (lst.foldl (slVisit nodes query ef) st).cands, P x.id) ∧
      (∀ x ∈ (lst.foldl (slVisit nodes query ef) st).results, P x.id) := by
  intro lst
  induction lst with
  | nil =>
    intro st hc hr _
    exact ⟨hc, hr⟩
  | cons n t ih =>
    intro st hc hr hl
    rw [List.foldl_cons]
    obtain ⟨hc2, hr2⟩ := slVisit_mem nodes query ef P st n hc hr
      (hl n (List.mem_cons_self n t))
    exact ih _ hc2 hr2 (fun x hx => hl x (List.mem_cons_of_mem _ hx))

theorem slLoop_mem (nodes : List (String × HNSWNode)) (query : List ℝ)
    (ef layer : ℕ) (P : String → Prop)
    (hrefs : ∀ p ∈ nodes, ∀ x ∈ p.2.neighbors.getD layer [], P x) :
    ∀ (fuel : ℕ) (st : SLState),
      (∀ x ∈ st.cands, P x.id) → (∀ x ∈ st.results, P x.id) →
      ∀ x ∈ (slLoop nodes query ef layer fuel st).results, P x.id := by
  intro fuel
  induction fuel using Nat.strong_induction_on with
  | _ fuel ih =>
    intro st hc hr
    rw [slLoop]
    dsimp only
    split
    · exact hr
    · split
      · exact hr
      · split
        · exact hr
        · split
          · rename_i hfz _ _ _
            exact ih (fuel - 1) (by omega) _
              (fun x hx => hc x (mem_heapPopG_snd _ _ _ hx)) hr
          · split
            · rename_i hfz _ _ node hnode _
              exact ih (fuel - 1) (by omega) _
                (fun x hx => hc x (mem_heapPopG_snd _ _ _ hx)) hr
            · rename_i hfz _ _ node hnode _
              obtain ⟨q, hq, _, hqv⟩ := lookupN_mem_key nodes _ node hnode
              have hnids : ∀ nid ∈ node.neighbors.getD layer [], P nid :=
                fun nid hmm => hrefs q hq nid (by rw [hqv]; exact hmm)
              obtain ⟨hc2, hr2⟩ := slVisitFold_mem nodes query ef P
                (node.neighbors.getD layer [])
                (SLState.mk st.visited (heapPopG dnLess st.cands).2
                  st.results)
                (fun x hx => hc x (mem_heapPopG_snd dnLess _ x hx)) hr hnids
              exact ih (fuel - 1) (by omega) _ hc2 hr2

theorem searchLayer_mem (nodes : List (String × HNSWNode))
    (query : List ℝ) (e : String) (ef layer : ℕ) (d : DistanceNode)
    (hd : d ∈ searchLayer nodes query e ef layer) :
    d.id = e ∨ d.id ∈ refsAt nodes layer := by
  simp only [searchLayer] at hd
  split at hd
  · simp at hd
  · rw [List.reverse_reverse] at hd
    have hd2 := mem_heapDrain _ _ _ hd
    refine slLoop_mem nodes query ef layer
      (fun s => s = e ∨ s ∈ refsAt nodes layer) ?_ _ _ ?_ ?_ d hd2
    · intro p hp x hx
      right
      exact (mem_refsAt nodes layer x).mpr ⟨p, hp, hx⟩
    · intro x hx
      rcases mem_heapPushG _ _ _ _ hx with h | h
      · rw [h]
        left
        rfl
      · simp at h
    · intro x hx
      rcases mem_heapPushG _ _ _ _ hx with h | h
      · rw [h]
        left
        rfl
      · simp at h

theorem greedyFold_post (nodes : List (String × HNSWNode)) (q : List ℝ)
    (l : ℕ) (cur : String × HNSWNode) :
    ∀ (lst : List String) (acc : (String × HNSWNode) × Bool),
      (∀ x ∈ lst, x ∈ refsAt nodes l) →
      (acc.1 = cur ∨ (acc.1.1 ∈ refsAt nodes l ∧
        ∃ p ∈ nodes, p.1 = acc.1.1 ∧ p.2 = acc.1.2)) →
      ((lst.foldl (fun acc nid =>
          match lookupN nodes nid with
          | none => acc
          | some nb =>
            if CosineDistance q nb.vector < CosineDistance q acc.1.2.vector
            then ((nid, nb), true) else acc) acc).1 = cur ∨
        (((lst.foldl (fun acc nid =>
          match lookupN nodes nid with
          | none => acc
          | some nb =>
            if CosineDistance q nb.vector < CosineDistance q acc.1.2.vector
            then ((nid, nb), true) else acc) acc).1.1 ∈ refsAt nodes l) ∧
          ∃ p ∈ nodes, p.1 = ((lst.foldl (fun acc nid =>
            match lookupN nodes nid with
            | none => acc
            | some nb =>
              if CosineDistance q nb.vector <
                  CosineDistance q acc.1.2.vector
              then ((nid, nb), true) else acc) acc).1.1) ∧
            p.2 = ((lst.foldl (fun acc nid =>
              match lookupN nodes nid with
              | none => acc
              | some nb =>
                if CosineDistance q nb.vector <
                    CosineDistance q acc.1.2.vector
                then ((nid, nb), true) else acc) acc).1.2))) := by
  intro lst
  induction lst with
  | nil =>
    intro acc _ hacc
    exact hacc
  | cons n t ih =>
    intro acc hlst hacc
    rw [List.foldl_cons]
    apply ih
    · exact fun x hx => hlst x (List.mem_cons_of_mem _ hx)
    · dsimp only
      cases hl : lookupN nodes n with
      | none => exact hacc
      | some nb =>
        dsimp only
        split
        · right
          refine ⟨hlst n (List.mem_cons_self n t), ?_⟩
          obtain ⟨p, hp, hpk, hpv⟩ := lookupN_mem_key nodes n nb hl
          exact ⟨p, hp, hpk, hpv⟩
        · exact hacc

theorem greedyPass_post (nodes : List (String × HNSWNode)) (q : List ℝ)
    (l : ℕ) (cur : String × HNSWNode)
    (hcur : ∃ p ∈ nodes, p.1 = cur.1 ∧ p.2 = cur.2) :
    (greedyPass nodes q l cur).1 = cur ∨
    ((greedyPass nodes q l cur).1.1 ∈ refsAt nodes l ∧
      ∃ p ∈ nodes, p.1 = (greedyPass nodes q l cur).1.1 ∧
        p.2 = (greedyPass nodes q l cur).1.2) := by
  simp only [greedyPass]
  split
  · apply greedyFold_post nodes q l cur
    · intro x hx
      obtain ⟨p, hp, _, hpv⟩ := hcur
      refine (mem_refsAt nodes l x).mpr ⟨p, hp, ?_⟩
      rw [hpv]
      exact hx
    · exact Or.inl rfl
  · exact Or.inl rfl

theorem greedyLoop_post (nodes : List (String × HNSWNode)) (q : List ℝ)
    (l : ℕ) :
    ∀ (fuel : ℕ) (cur : String × HNSWNode),
      (∃ p ∈ nodes, p.1 = cur.1 ∧ p.2 = cur.2) →
      (greedyLoop nodes q l fuel cur = cur ∨
        ((greedyLoop nodes q l fuel cur).1 ∈ refsAt nodes l ∧
          ∃ p ∈ nodes, p.1 = (greedyLoop nodes q l fuel cur).1 ∧
            p.2 = (greedyLoop nodes q l fuel cur).2)) := by
  intro fuel
  induction fuel using Nat.strong_induction_on with
  | _ fuel ih =>
    intro cur hcur
    rw [greedyLoop]
    dsimp only
    split
    · exact Or.inl rfl
    · have hpass := greedyPass_post nodes q l cur hcur
      split
      · have hstored : ∃ p ∈ nodes,
            p.1 = (greedyPass nodes q l cur).1.1 ∧
            p.2 = (greedyPass nodes q l cur).1.2 := by
          rcases hpass with h | h
          · rw [h]
            exact hcur
          · exact h.2
        rcases ih (fuel - 1) (by omega) (greedyPass nodes q l cur).1
            hstored with h2 | h2
        · rcases hpass with h | h
          · rw [h2, h]
            exact Or.inl rfl
          · rw [h2]
            exact Or.inr h
        · exact Or.inr h2
      · rcases hpass with h | h
        · exact Or.inl h
        · exact Or.inr h

theorem descend_post (nodes : List (String × HNSWNode)) (q : List ℝ) :
    ∀ (layers : List ℤ) (cur : String × HNSWNode),
      (∃ p ∈ nodes, p.1 = cur.1 ∧ p.2 = cur.2) →
      ((descend nodes q cur layers = cur ∨
        ∃ l : ℕ, (descend nodes q cur layers).1 ∈ refsAt nodes l) ∧
        ∃ p ∈ nodes, p.1 = (descend nodes q cur layers).1 ∧
          p.2 = (descend nodes q cur layers).2) := by
  intro layers
  induction layers with
  | nil =>
    intro cur hcur
    exact ⟨Or.inl rfl, hcur⟩
  | cons a t ih =>
    intro cur hcur
    simp only [descend, List.foldl_cons] at *
    have hl := greedyLoop_post nodes q a.toNat (nodes.length + 1) cur hcur
    have hstored : ∃ p ∈ nodes,
        p.1 = (greedyLoop nodes q a.toNat (nodes.length + 1) cur).1 ∧
        p.2 = (greedyLoop nodes q a.toNat (nodes.length + 1) cur).2 := by
      rcases hl with h | h
      · rw [h]
        exact hcur
      · exact h.2
    obtain ⟨hres, hst⟩ := ih _ hstored
    refine ⟨?_, hst⟩
    rcases hres with h2 | h2
    · rw [h2]
      rcases hl with h | h
      · rw [h]
        exact Or.inl rfl
      · exact Or.inr ⟨a.toNat, h.1⟩
    · exact Or.inr h2

theorem adjustN_mem_cases (ms : List (String × HNSWNode)) (id : String)
    (f : HNSWNode → HNSWNode) (p : String × HNSWNode)
    (hp : p ∈ adjustN ms id f) :
    (p ∈ ms ∧ p.1 ≠ id) ∨ (∃ q ∈ ms, q.1 = id ∧ p = (q.1, f q.2)) := by
  obtain ⟨q, hq, hqe⟩ := mem_adjustN ms id f p hp
  by_cases h : q.1 = id
  · right
    refine ⟨q, hq, h, ?_⟩
    rw [hqe, if_pos h]
  · left
    rw [hqe, if_neg h]
    exact ⟨hq, h⟩

theorem getD_set_len_le (l0 : ℕ) (L : List (List String))
    (x : List String) :
    ((L.set l0 x).getD l0 []).length ≤ x.length := by
  by_cases h : l0 < L.length
  · rw [getD_set_self L l0 x [] h]
  · rw [List.set_eq_of_length_le (by omega)]
    rw [List.getD_eq_default]
    · simp
    · omega

theorem insEdgeStep_bound (cfg : HNSWConfig) (vID nid : String)
    (mL l0 k : ℕ) (hm : mL = mBound cfg l0) (hnid : nid ≠ vID)
    (ns : List (String × HNSWNode))
    (hother : ∀ p ∈ ns, p.1 ≠ vID →
      ∀ l : ℕ, (p.2.neighbors.getD l []).length ≤ mBound cfg l)
    (hvo : ∀ p ∈ ns, p.1 = vID → ∀ l : ℕ, l ≠ l0 →
      (p.2.neighbors.getD l []).length ≤ mBound cfg l)
    (hvl : ∀ p ∈ ns, p.1 = vID →
      (p.2.neighbors.getD l0 []).length ≤ k) :
    (∀ p ∈ insEdgeStep vID mL l0 ns nid, p.1 ≠ vID →
      ∀ l : ℕ, (p.2.neighbors.getD l []).length ≤ mBound cfg l) ∧
    (∀ p ∈ insEdgeStep vID mL l0 ns nid, p.1 = vID → ∀ l : ℕ, l ≠ l0 →
      (p.2.neighbors.getD l []).length ≤ mBound cfg l) ∧
    (∀ p ∈ insEdgeStep vID mL l0 ns nid, p.1 = vID →
      (p.2.neighbors.getD l0 []).length ≤ k + 1) := by
  have h1keep : ∀ p ∈ adjustN ns vID (fun nd =>
      { nd with neighbors :=
          nd.neighbors.set l0 ((nd.neighbors.getD l0 []) ++ [nid]) }),
      p.1 ≠ vID → p ∈ ns := by
    intro p hp hpv
    rcases adjustN_mem_cases _ _ _ p hp with ⟨hm2, _⟩ | ⟨q, _, hql, hqe⟩
    · exact hm2
    · exact absurd (by rw [hqe]; exact hql) hpv
  have h1other : ∀ p ∈ adjustN ns vID (fun nd =>
      { nd with neighbors :=
          nd.neighbors.set l0 ((nd.neighbors.getD l0 []) ++ [nid]) }),
      p.1 ≠ vID →
      ∀ l : ℕ, (p.2.neighbors.getD l []).length ≤ mBound cfg l :=
    fun p hp hpv => hother p (h1keep p hp hpv) hpv
  have h1vo : ∀ p ∈ adjustN ns vID (fun nd =>
      { nd with neighbors :=
          nd.neighbors.set l0 ((nd.neighbors.getD l0 []) ++ [nid]) }),
      p.1 = vID → ∀ l : ℕ, l ≠ l0 →
      (p.2.neighbors.getD l []).length ≤ mBound cfg l := by
    intro p hp hpv l hl
    rcases adjustN_mem_cases _ _ _ p hp with ⟨hm2, hne2⟩ | ⟨q, hq, hql, hqe⟩
    · exact hvo p hm2 hpv l hl
    · rw [hqe]
      dsimp only
      rw [getD_set_ne _ _ _ _ _ (fun hc => hl hc.symm)]
      exact hvo q hq hql l hl
  have h1vl : ∀ p ∈ adjustN ns vID (fun nd =>
      { nd with neighbors :=
          nd.neighbors.set l0 ((nd.neighbors.getD l0 []) ++ [nid]) }),
      p.1 = vID →
      (p.2.neighbors.getD l0 []).length ≤ k + 1 := by
    intro p hp hpv
    rcases adjustN_mem_cases _ _ _ p hp with ⟨hm2, _⟩ | ⟨q, hq, hql, hqe⟩
    · exact Nat.le_succ_of_le (hvl p hm2 hpv)
    · rw [hqe]
      dsimp only
      have hle := getD_set_len_le l0 q.2.neighbors
        ((q.2.neighbors.getD l0 []) ++ [nid])
      have hq2 := hvl q hq hql
      simp only [List.length_append, List.length_cons,
        List.length_nil] at hle
      omega
  have hcontra : ∀ (p q : String × HNSWNode) (z : HNSWNode),
      q.1 = nid → p = (q.1, z) → p.1 ≠ vID := by
    intro p q z hql hqe hpv
    rw [hqe] at hpv
    dsimp only at hpv
    rw [hql] at hpv
    exact hnid hpv
  simp only [insEdgeStep]
  split
  · exact ⟨h1other, h1vo, h1vl⟩
  · rename_i neighbor hnb
    split
    · rename_i hguard
      obtain ⟨p0, hp0, hp0k, hp0v⟩ := lookupN_mem_key _ _ _ hnb
      have hp0ne : p0.1 ≠ vID := by
        rw [hp0k]
        exact hnid
      have hnbbound : (neighbor.neighbors.getD l0 []).length
          ≤ mBound cfg l0 := by
        have h := h1other p0 hp0 hp0ne l0
        rw [hp0v] at h
        exact h
      split
      · rename_i hprune
        refine ⟨?_, ?_, ?_⟩
        · intro p hp hpv l
          rcases adjustN_mem_cases _ nid _ p hp with ⟨hp2, hpn⟩ |
            ⟨q, hq, hql, hqe⟩
          · rcases adjustN_mem_cases _ nid _ p hp2 with ⟨hp1, _⟩ |
              ⟨q, _, hql, hqe⟩
            · exact h1other p hp1 hpv l
            · exact absurd (by rw [hqe]; exact hql) hpn
          · rcases adjustN_mem_cases _ nid _ q hq with ⟨_, hqn⟩ |
              ⟨q2, hq2, hql2, hqe2⟩
            · exact absurd hql hqn
            · have hq2ne : q2.1 ≠ vID := by
                rw [hql2]
                exact hnid
              have hq2ns := h1keep q2 hq2 hq2ne
              rw [hqe, hqe2]
              dsimp only
              by_cases hl : l = l0
              · rw [hl]
                refine le_trans (getD_set_len_le l0 _ _) ?_
                rw [← hm]
                exact pruneConnections_length_le _ _ _ _ hprune
              · rw [getD_set_ne _ _ _ _ _ (fun hc => hl hc.symm),
                  getD_set_ne _ _ _ _ _ (fun hc => hl hc.symm)]
                exact hother q2 hq2ns hq2ne l
        · intro p hp hpv l hl
          rcases adjustN_mem_cases _ nid _ p hp with ⟨hp2, _⟩ |
            ⟨q, hq, hql, hqe⟩
          · rcases adjustN_mem_cases _ nid _ p hp2 with ⟨hp1, _⟩ |
              ⟨q, _, hql, hqe⟩
            · exact h1vo p hp1 hpv l hl
            · exact absurd hpv (hcontra p _ _ hql hqe)
          · exact absurd hpv (hcontra p _ _ hql hqe)
        · intro p hp hpv
          rcases adjustN_mem_cases _ nid _ p hp with ⟨hp2, _⟩ |
            ⟨q, hq, hql, hqe⟩
          · rcases adjustN_mem_cases _ nid _ p hp2 with ⟨hp1, _⟩ |
              ⟨q, _, hql, hqe⟩
            · exact h1vl p hp1 hpv
            · exact absurd hpv (hcontra p _ _ hql hqe)
          · exact absurd hpv (hcontra p _ _ hql hqe)
      · rename_i hnoprune
        refine ⟨?_, ?_, ?_⟩
        · intro p hp hpv l
          rcases adjustN_mem_cases _ nid _ p hp with ⟨hp1, _⟩ |
            ⟨q, hq, hql, hqe⟩
          · exact h1other p hp1 hpv l
          · have hqne : q.1 ≠ vID := by
              rw [hql]
              exact hnid
            have hqns := h1keep q hq hqne
            rw [hqe]
            dsimp only
            by_cases hl : l = l0
            · rw [hl]
              refine le_trans (getD_set_len_le l0 _ _) ?_
              rw [← hm]
              omega
            · rw [getD_set_ne _ _ _ _ _ (fun hc => hl hc.symm)]
              exact hother q hqns hqne l
        · intro p hp hpv l hl
          rcases adjustN_mem_cases _ nid _ p hp with ⟨hp1, _⟩ |
            ⟨q, _, hql, hqe⟩
          · exact h1vo p hp1 hpv l hl
          · exact absurd hpv (hcontra p _ _ hql hqe)
        · intro p hp hpv
          rcases adjustN_mem_cases _ nid _ p hp with ⟨hp1, _⟩ |
            ⟨q, _, hql, hqe⟩
          · exact h1vl p hp1 hpv
          · exact absurd hpv (hcontra p _ _ hql hqe)
    · exact ⟨h1other, h1vo, h1vl⟩

theorem getD_set_or (L : List (List String)) (l0 : ℕ)
    (x : List String) :
    (L.set l0 x).getD l0 [] = x ∨
    (L.set l0 x).getD l0 [] = L.getD l0 [] := by
  by_cases h : l0 < L.length
  · exact Or.inl (getD_set_self L l0 x [] h)
  · right
    rw [List.set_eq_of_length_le (by omega)]

theorem edgeFold_bound (cfg : HNSWConfig) (vID : String) (mL l0 : ℕ)
    (hm : mL = mBound cfg l0) :
    ∀ (sel : List DistanceNode) (ns : List (String × HNSWNode)) (k : ℕ),
      (∀ n ∈ sel, n.id ≠ vID) →
      (∀ p ∈ ns, p.1 ≠ vID →
        ∀ l : ℕ, (p.2.neighbors.getD l []).length ≤ mBound cfg l) →
      (∀ p ∈ ns, p.1 = vID → ∀ l : ℕ, l ≠ l0 →
        (p.2.neighbors.getD l []).length ≤ mBound cfg l) →
      (∀ p ∈ ns, p.1 = vID →
        (p.2.neighbors.getD l0 []).length ≤ k) →
      k + sel.length ≤ mL →
      DegreeBounded cfg
        (sel.foldl (fun a n => insEdgeStep vID mL l0 a n.id) ns) := by
  intro sel
  induction sel with
  | nil =>
    intro ns k _ hother hvo hvl hbud
    intro p hp l
    by_cases hpv : p.1 = vID
    · by_cases hl : l = l0
      · rw [hl]
        refine le_trans (hvl p hp hpv) ?_
        omega
      · exact hvo p hp hpv l hl
    · exact hother p hp hpv l
  | cons n t ih =>
    intro ns k hselne hother hvo hvl hbud
    rw [List.foldl_cons]
    obtain ⟨h1, h2, h3⟩ := insEdgeStep_bound cfg vID n.id mL l0 k hm
      (hselne n (List.mem_cons_self n t)) ns hother hvo hvl
    refine ih _ (k + 1) (fun m hm2 => hselne m (List.mem_cons_of_mem _ hm2))
      h1 h2 h3 ?_
    simp only [List.length_cons] at hbud
    omega

theorem refsAt_insEdgeStep_subset (vID nid : String) (mL l0 : ℕ)
    (hnid : nid ≠ vID) (ns : List (String × HNSWNode)) (x : String)
    (hx : x ∈ refsAt (insEdgeStep vID mL l0 ns nid) l0) :
    x ∈ refsAt ns l0 ∨ x = nid ∨ x = vID := by
  have hfwd : ∀ y ∈ refsAt (adjustN ns vID (fun nd =>
      { nd with neighbors :=
          nd.neighbors.set l0 ((nd.neighbors.getD l0 []) ++ [nid]) })) l0,
      y ∈ refsAt ns l0 ∨ y = nid := by
    intro y hy
    obtain ⟨p, hp, hpy⟩ := (mem_refsAt _ _ _).mp hy
    rcases adjustN_mem_cases _ _ _ p hp with ⟨hm2, _⟩ | ⟨q, hq, hql, hqe⟩
    · exact Or.inl ((mem_refsAt _ _ _).mpr ⟨p, hm2, hpy⟩)
    · rw [hqe] at hpy
      dsimp only at hpy
      rcases getD_set_or q.2.neighbors l0
          ((q.2.neighbors.getD l0 []) ++ [nid]) with hc | hc
      · rw [hc] at hpy
        rcases List.mem_append.mp hpy with h | h
        · exact Or.inl ((mem_refsAt _ _ _).mpr ⟨q, hq, h⟩)
        · exact Or.inr (List.mem_singleton.mp h)
      · rw [hc] at hpy
        exact Or.inl ((mem_refsAt _ _ _).mpr ⟨q, hq, hpy⟩)
  simp only [insEdgeStep] at hx
  split at hx
  · rcases hfwd x hx with h | h
    · exact Or.inl h
    · exact Or.inr (Or.inl h)
  · rename_i neighbor hnb
    split at hx
    · rename_i hguard
      -- the looked-up neighbor list is an original one
      obtain ⟨p0, hp0, hp0k, hp0v⟩ := lookupN_mem_key _ _ _ hnb
      have hp0ne : p0.1 ≠ vID := by
        rw [hp0k]
        exact hnid
      rcases adjustN_mem_cases _ _ _ p0 hp0 with ⟨hp0ns, _⟩ |
        ⟨q0, _, hql0, hqe0⟩
      · have hnbsub : ∀ y ∈ (neighbor.neighbors.getD l0 []) ++ [vID],
            y ∈ refsAt ns l0 ∨ y = vID := by
          intro y hy
          rcases List.mem_append.mp hy with h | h
          · left
            refine (mem_refsAt _ _ _).mpr ⟨p0, hp0ns, ?_⟩
            rw [hp0v]
            exact h
          · exact Or.inr (List.mem_singleton.mp h)
        have htrace : ∀ (ms : List (String × HNSWNode))
            (newl : List String),
            (∀ y ∈ refsAt ms l0, y ∈ refsAt ns l0 ∨ y = nid ∨ y = vID) →
            (∀ y ∈ newl, y ∈ refsAt ns l0 ∨ y = nid ∨ y = vID) →
            ∀ y ∈ refsAt (adjustN ms nid (fun nd =>
              { nd with neighbors := nd.neighbors.set l0 newl })) l0,
              y ∈ refsAt ns l0 ∨ y = nid ∨ y = vID := by
          intro ms newl hms hnew y hy
          obtain ⟨p, hp, hpy⟩ := (mem_refsAt _ _ _).mp hy
          rcases adjustN_mem_cases _ _ _ p hp with ⟨hm2, _⟩ |
            ⟨q, hq, hql, hqe⟩
          · exact hms y ((mem_refsAt _ _ _).mpr ⟨p, hm2, hpy⟩)
          · rw [hqe] at hpy
            dsimp only at hpy
            rcases getD_set_or q.2.neighbors l0 newl with hc | hc
            · rw [hc] at hpy
              exact hnew y hpy
            · rw [hc] at hpy
              exact hms y ((mem_refsAt _ _ _).mpr ⟨q, hq, hpy⟩)
        have hms1 : ∀ y ∈ refsAt (adjustN ns vID (fun nd =>
            { nd with neighbors :=
                nd.neighbors.set l0 ((nd.neighbors.getD l0 []) ++ [nid]) }))
            l0,
            y ∈ refsAt ns l0 ∨ y = nid ∨ y = vID := by
          intro y hy
          rcases hfwd y hy with h | h
          · exact Or.inl h
          · exact Or.inr (Or.inl h)
        split at hx
        · -- prune branch
          refine htrace _ _ ?_ ?_ x hx
          · exact htrace _ _ hms1 (fun y hy => by
              rcases hnbsub y hy with h | h
              · exact Or.inl h
              · exact Or.inr (Or.inr h))
          · intro y hy
            have := pruneConnections_subset _ _ _ _ y hy
            rcases hnbsub y this with h | h
            · exact Or.inl h
            · exact Or.inr (Or.inr h)
        · -- no-prune branch
          exact htrace _ _ hms1 (fun y hy => by
            rcases hnbsub y hy with h | h
            · exact Or.inl h
            · exact Or.inr (Or.inr h)) x hx
      · exfalso
        apply hp0ne
        rw [hqe0]
        exact hql0
    · rcases hfwd x hx with h | h
      · exact Or.inl h
      · exact Or.inr (Or.inl h)

theorem refsAt_edgeFold_subset (vID : String) (mL l0 : ℕ) :
    ∀ (sel : List DistanceNode) (ns : List (String × HNSWNode))
      (x : String),
      (∀ n ∈ sel, n.id ≠ vID) →
      x ∈ refsAt (sel.foldl
        (fun a n => insEdgeStep vID mL l0 a n.id) ns) l0 →
      x ∈ refsAt ns l0 ∨ (∃ n ∈ sel, x = n.id) ∨ x = vID := by
  intro sel
  induction sel with
  | nil =>
    intro ns x _ hx
    exact Or.inl hx
  | cons n t ih =>
    intro ns x hne hx
    rw [List.foldl_cons] at hx
    rcases ih _ x (fun m hm => hne m (List.mem_cons_of_mem _ hm)) hx with
      h | h | h
    · rcases refsAt_insEdgeStep_subset vID n.id mL l0
        (hne n (List.mem_cons_self n t)) ns x h with h2 | h2 | h2
      · exact Or.inl h2
      · exact Or.inr (Or.inl ⟨n, List.mem_cons_self n t, h2⟩)
      · exact Or.inr (Or.inr h2)
    · obtain ⟨m, hm, hxe⟩ := h
      exact Or.inr (Or.inl ⟨m, List.mem_cons_of_mem _ hm, hxe⟩)
    · exact Or.inr (Or.inr h)

theorem refsAt_reset_subset (ns : List (String × HNSWNode))
    (vID : String) (l0 : ℕ) (x : String)
    (hx : x ∈ refsAt (adjustN ns vID (fun nd =>
      { nd with neighbors := nd.neighbors.set l0 [] })) l0) :
    x ∈ refsAt ns l0 := by
  obtain ⟨p, hp, hpy⟩ := (mem_refsAt _ _ _).mp hx
  rcases adjustN_mem_cases _ _ _ p hp with ⟨hm2, _⟩ | ⟨q, hq, hql, hqe⟩
  · exact (mem_refsAt _ _ _).mpr ⟨p, hm2, hpy⟩
  · rw [hqe] at hpy
    dsimp only at hpy
    rcases getD_set_or q.2.neighbors l0 [] with hc | hc
    · rw [hc] at hpy
      simp at hpy
    · rw [hc] at hpy
      exact (mem_refsAt _ _ _).mpr ⟨q, hq, hpy⟩

theorem getD_set_nil (L : List (List String)) (l0 : ℕ) :
    (L.set l0 []).getD l0 [] = [] := by
  by_cases h : l0 < L.length
  · exact getD_set_self L l0 [] [] h
  · rw [List.set_eq_of_length_le (by omega),
      List.getD_eq_default _ _ (by omega)]

theorem getD_replicate_nil (n l : ℕ) :
    ((List.replicate n ([] : List String)).getD l []) = [] := by
  by_cases h : l < n
  · rw [List.getD_eq_getElem _ _ (by simpa using h)]
    simp
  · rw [List.getD_eq_default]
    simpa using h

theorem getD_mem {α : Type} (l : List α) (n : ℕ) (d : α)
    (h : n < l.length) : l.getD n d ∈ l := by
  rw [List.getD_eq_getElem l d h]
  exact List.getElem_mem h

theorem refsAt_adjustN_set_ne (ns : List (String × HNSWNode))
    (id : String) (g : HNSWNode → List String) (l0 l2 : ℕ)
    (hne : l2 ≠ l0) :
    refsAt (adjustN ns id (fun nd =>
      { nd with neighbors := nd.neighbors.set l0 (g nd) })) l2
      = refsAt ns l2 := by
  unfold refsAt adjustN
  rw [List.map_map]
  congr 1
  apply List.map_congr_left
  intro p _
  simp only [Function.comp]
  by_cases h : p.1 = id
  · rw [if_pos h]
    dsimp only
    exact getD_set_ne _ _ _ _ _ (fun hc => hne hc.symm)
  · rw [if_neg h]

theorem refsAt_insEdgeStep_ne (vID nid : String) (mL l0 : ℕ)
    (ns : List (String × HNSWNode)) (l2 : ℕ) (hne : l2 ≠ l0) :
    refsAt (insEdgeStep vID mL l0 ns nid) l2 = refsAt ns l2 := by
  simp only [insEdgeStep]
  split
  · rw [refsAt_adjustN_set_ne _ _ _ _ _ hne]
  · split
    · split
      · rw [refsAt_adjustN_set_ne _ _ _ _ _ hne,
          refsAt_adjustN_set_ne _ _ _ _ _ hne,
          refsAt_adjustN_set_ne _ _ _ _ _ hne]
      · rw [refsAt_adjustN_set_ne _ _ _ _ _ hne,
          refsAt_adjustN_set_ne _ _ _ _ _ hne]
    · rw [refsAt_adjustN_set_ne _ _ _ _ _ hne]

theorem refsAt_edgeFold_ne (vID : String) (mL l0 : ℕ) :
    ∀ (sel : List DistanceNode) (ns : List (String × HNSWNode))
      (l2 : ℕ), l2 ≠ l0 →
      refsAt (sel.foldl
        (fun a n => insEdgeStep vID mL l0 a n.id) ns) l2
        = refsAt ns l2 := by
  intro sel
  induction sel with
  | nil =>
    intro ns l2 _
    rfl
  | cons n t ih =>
    intro ns l2 hne
    rw [List.foldl_cons, ih _ _ hne, refsAt_insEdgeStep_ne _ _ _ _ _ _ hne]

theorem insertLayer_inv (cfg : HNSWConfig) (vID : String) (vEmb : List ℝ)
    (st : List (String × HNSWNode) × String) (l : ℤ) (hl : 0 ≤ l)
    (hdb : DegreeBounded cfg st.1)
    (hkeys : st.2 ∈ keysOf st.1)
    (hentry : st.2 ≠ vID)
    (hclosed : ∀ l2 : ℕ, ∀ x ∈ refsAt st.1 l2, x ∈ keysOf st.1)
    (hvmem : vID ∈ keysOf st.1)
    (hnotref : ∀ x ∈ refsAt st.1 l.toNat, x ≠ vID) :
    DegreeBounded cfg (insertLayer cfg vID vEmb st l).1 ∧
    keysOf (insertLayer cfg vID vEmb st l).1 = keysOf st.1 ∧
    (insertLayer cfg vID vEmb st l).2 ∈ keysOf st.1 ∧
    (insertLayer cfg vID vEmb st l).2 ≠ vID ∧
    (∀ l2 : ℕ, l2 ≠ l.toNat →
      refsAt (insertLayer cfg vID vEmb st l).1 l2 = refsAt st.1 l2) ∧
    (∀ l2 : ℕ, ∀ x ∈ refsAt (insertLayer cfg vID vEmb st l).1 l2,
      x ∈ keysOf st.1) := by
  have hm : (if l = 0 then cfg.mMax else cfg.m) = mBound cfg l.toNat := by
    unfold mBound
    by_cases h : l = 0
    · rw [if_pos h, if_pos (by omega)]
    · rw [if_neg h, if_neg (by omega)]
  have hsel : ∀ n ∈ selectNeighbors
      (searchLayer st.1 vEmb st.2 cfg.efConstruction l.toNat)
      (if l = 0 then cfg.mMax else cfg.m),
      n.id ≠ vID ∧ n.id ∈ keysOf st.1 := by
    intro n hn
    have hn2 := selectNeighbors_subset _ _ n hn
    rcases searchLayer_mem _ _ _ _ _ n hn2 with h | h
    · rw [h]
      exact ⟨hentry, hkeys⟩
    · exact ⟨hnotref n.id h, hclosed l.toNat n.id h⟩
  -- facts about the reset state
  have hother1 : ∀ p ∈ adjustN st.1 vID (fun nd =>
      { nd with neighbors := nd.neighbors.set l.toNat [] }),
      p.1 ≠ vID →
      ∀ l2 : ℕ, (p.2.neighbors.getD l2 []).length ≤ mBound cfg l2 := by
    intro p hp hpv l2
    rcases adjustN_mem_cases _ _ _ p hp with ⟨hm2, _⟩ | ⟨q, _, hql, hqe⟩
    · exact hdb p hm2 l2
    · exact absurd (by rw [hqe]; exact hql) hpv
  have hvo1 : ∀ p ∈ adjustN st.1 vID (fun nd =>
      { nd with neighbors := nd.neighbors.set l.toNat [] }),
      p.1 = vID → ∀ l2 : ℕ, l2 ≠ l.toNat →
      (p.2.neighbors.getD l2 []).length ≤ mBound cfg l2 := by
    intro p hp hpv l2 hl2
    rcases adjustN_mem_cases _ _ _ p hp with ⟨hm2, _⟩ | ⟨q, hq, hql, hqe⟩
    · exact hdb p hm2 l2
    · rw [hqe]
      dsimp only
      rw [getD_set_ne _ _ _ _ _ (fun hc => hl2 hc.symm)]
      exact hdb q hq l2
  have hvl1 : ∀ p ∈ adjustN st.1 vID (fun nd =>
      { nd with neighbors := nd.neighbors.set l.toNat [] }),
      p.1 = vID →
      (p.2.neighbors.getD l.toNat []).length ≤ 0 := by
    intro p hp hpv
    rcases adjustN_mem_cases _ _ _ p hp with ⟨_, hne2⟩ | ⟨q, _, hql, hqe⟩
    · exact (hne2 hpv).elim
    · rw [hqe]
      dsimp only
      rw [getD_set_nil]
      exact le_refl 0
  refine ⟨?_, keysOf_insertLayer cfg vID vEmb st l, ?_, ?_, ?_, ?_⟩
  · -- degree bound
    simp only [insertLayer]
    refine edgeFold_bound cfg vID _ l.toNat hm _ _ 0
      (fun n hn => (hsel n hn).1) hother1 hvo1 hvl1 ?_
    rw [Nat.zero_add]
    exact selectNeighbors_length_le _ _
  · -- the new entry is a stored key
    simp only [insertLayer]
    by_cases hpos : 0 < (selectNeighbors
        (searchLayer st.1 vEmb st.2 cfg.efConstruction l.toNat)
        (if l = 0 then cfg.mMax else cfg.m)).length
    · rw [if_pos hpos]
      exact (hsel _ (getD_mem _ 0 default hpos)).2
    · rw [if_neg hpos]
      exact hkeys
  · -- the new entry is not the inserted id
    simp only [insertLayer]
    by_cases hpos : 0 < (selectNeighbors
        (searchLayer st.1 vEmb st.2 cfg.efConstruction l.toNat)
        (if l = 0 then cfg.mMax else cfg.m)).length
    · rw [if_pos hpos]
      exact (hsel _ (getD_mem _ 0 default hpos)).1
    · rw [if_neg hpos]
      exact hentry
  · -- layers other than l are untouched
    intro l2 hl2
    simp only [insertLayer]
    rw [refsAt_edgeFold_ne vID _ l.toNat _ _ l2 hl2,
      refsAt_adjustN_set_ne _ _ _ _ _ hl2]
  · -- closure: every reference of the result is a stored key
    intro l2 x hx
    simp only [insertLayer] at hx
    by_cases hl2 : l2 = l.toNat
    · rw [hl2] at hx
      rcases refsAt_edgeFold_subset vID _ l.toNat _ _ x
          (fun n hn => (hsel n hn).1) hx with h | h | h
      · exact hclosed l.toNat x (refsAt_reset_subset _ _ _ x h)
      · obtain ⟨n, hn, hxe⟩ := h
        rw [hxe]
        exact (hsel n hn).2
      · rw [h]
        exact hvmem
    · rw [refsAt_edgeFold_ne vID _ l.toNat _ _ l2 hl2,
        refsAt_adjustN_set_ne _ _ _ _ _ hl2] at hx
      exact hclosed l2 x hx

theorem insertPhase_inv (cfg : HNSWConfig) (vID : String)
    (vEmb : List ℝ) :
    ∀ (layers : List ℤ) (st : List (String × HNSWNode) × String),
      (∀ l ∈ layers, 0 ≤ l) →
      layers.Pairwise (fun a b => b < a) →
      DegreeBounded cfg st.1 →
      st.2 ∈ keysOf st.1 →
      st.2 ≠ vID →
      (∀ l2 : ℕ, ∀ x ∈ refsAt st.1 l2, x ∈ keysOf st.1) →
      vID ∈ keysOf st.1 →
      (∀ l ∈ layers, ∀ x ∈ refsAt st.1 l.toNat, x ≠ vID) →
      DegreeBounded cfg (layers.foldl (insertLayer cfg vID vEmb) st).1 ∧
      (∀ l2 : ℕ, ∀ x ∈
        refsAt (layers.foldl (insertLayer cfg vID vEmb) st).1 l2,
        x ∈ keysOf st.1) := by
  intro layers
  induction layers with
  | nil =>
    intro st _ _ hdb _ _ hclosed _ _
    exact ⟨hdb, hclosed⟩
  | cons a t ih =>
    intro st hpos hpw hdb hkeys hentry hclosed hvmem hnotref
    rw [List.foldl_cons]
    have ha0 : 0 ≤ a := hpos a (List.mem_cons_self a t)
    obtain ⟨i1, i2, i3, i4, i5, i6⟩ := insertLayer_inv cfg vID vEmb st a
      ha0 hdb hkeys hentry hclosed hvmem
      (hnotref a (List.mem_cons_self a t))
    have hpw2 := (List.pairwise_cons.mp hpw)
    have hstep := ih (insertLayer cfg vID vEmb st a)
      (fun l hl => hpos l (List.mem_cons_of_mem _ hl)) hpw2.2 i1
      (by rw [i2]; exact i3) i4
      (fun l2 x hx => by rw [i2]; exact i6 l2 x hx)
      (by rw [i2]; exact hvmem)
      (fun l hl x hx => by
        have hlt : l < a := hpw2.1 l hl
        have hl0 : 0 ≤ l := hpos l (List.mem_cons_of_mem _ hl)
        have hne : l.toNat ≠ a.toNat := by omega
        rw [i5 l.toNat hne] at hx
        exact hnotref l (List.mem_cons_of_mem _ hl) x hx)
    refine ⟨hstep.1, ?_⟩
    intro l2 x hx
    have := hstep.2 l2 x hx
    rw [i2] at this
    exact this

theorem getD_append_nil_of_replicate (level : ℕ) (l : ℕ) :
    ((List.replicate (level + 1) ([] : List String)).getD l []) = [] :=
  getD_replicate_nil (level + 1) l

theorem insertWithLevel_inv3 (idx : HNSWIndex) (v : Vec) (level : ℕ)
    (hdb : DegreeBounded idx.config idx.nodes)
    (hclosed : ∀ l : ℕ, ∀ x ∈ refsAt idx.nodes l, x ∈ keysOf idx.nodes)
    (hep : idx.entryPoint = "" ∨ idx.entryPoint ∈ keysOf idx.nodes)
    (hfresh : v.id ∉ keysOf idx.nodes) :
    DegreeBounded idx.config (insertWithLevel idx v level).nodes ∧
    (∀ l : ℕ, ∀ x ∈ refsAt (insertWithLevel idx v level).nodes l,
      x ∈ keysOf (insertWithLevel idx v level).nodes) ∧
    ((insertWithLevel idx v level).entryPoint = "" ∨
      (insertWithLevel idx v level).entryPoint
        ∈ keysOf (insertWithLevel idx v level).nodes) ∧
    keysOf (insertWithLevel idx v level).nodes
      = keysOf idx.nodes ++ [v.id] ∧
    (insertWithLevel idx v level).config = idx.config := by
  have hnsome : ¬ (lookupN idx.nodes v.id).isSome = true := by
    rw [lookupN_isSome_iff]
    exact hfresh
  have hset : setN idx.nodes v.id
      (HNSWNode.mk v.id v.embedding v.metadata
        (List.replicate (level + 1) []) level)
      = idx.nodes ++ [(v.id,
        HNSWNode.mk v.id v.embedding v.metadata
          (List.replicate (level + 1) []) level)] := by
    simp only [setN, if_neg hnsome]
  have hkeys0 : keysOf (setN idx.nodes v.id
      (HNSWNode.mk v.id v.embedding v.metadata
        (List.replicate (level + 1) []) level))
      = keysOf idx.nodes ++ [v.id] :=
    keysOf_setN_none _ _ _ hnsome
  have hdb0 : DegreeBounded idx.config (setN idx.nodes v.id
      (HNSWNode.mk v.id v.embedding v.metadata
        (List.replicate (level + 1) []) level)) := by
    rw [hset]
    intro p hp l
    rcases List.mem_append.mp hp with h | h
    · exact hdb p h l
    · rw [List.mem_singleton.mp h]
      dsimp only
      rw [getD_replicate_nil]
      exact Nat.zero_le _
  have hrefs0 : ∀ l : ℕ, refsAt (setN idx.nodes v.id
      (HNSWNode.mk v.id v.embedding v.metadata
        (List.replicate (level + 1) []) level)) l
      = refsAt idx.nodes l := by
    intro l
    rw [hset, refsAt_append_single]
    dsimp only
    rw [getD_replicate_nil, List.append_nil]
  have hclosed0 : ∀ l : ℕ, ∀ x ∈ refsAt (setN idx.nodes v.id
      (HNSWNode.mk v.id v.embedding v.metadata
        (List.replicate (level + 1) []) level)) l,
      x ∈ keysOf (setN idx.nodes v.id
        (HNSWNode.mk v.id v.embedding v.metadata
          (List.replicate (level + 1) []) level)) := by
    intro l x hx
    rw [hrefs0] at hx
    rw [hkeys0]
    exact List.mem_append_left _ (hclosed l x hx)
  have hvmem0 : v.id ∈ keysOf (setN idx.nodes v.id
      (HNSWNode.mk v.id v.embedding v.metadata
        (List.replicate (level + 1) []) level)) := by
    rw [hkeys0]
    exact List.mem_append_right _ (List.mem_singleton.mpr rfl)
  have hnotref0 : ∀ l : ℕ, ∀ x ∈ refsAt (setN idx.nodes v.id
      (HNSWNode.mk v.id v.embedding v.metadata
        (List.replicate (level + 1) []) level)) l,
      x ≠ v.id := by
    intro l x hx hxe
    rw [hrefs0] at hx
    exact hfresh (hxe ▸ hclosed l x hx)
  simp only [insertWithLevel]
  split
  · -- first-node branch
    refine ⟨hdb0, ?_, ?_, hkeys0, rfl⟩
    · intro l x hx
      exact hclosed0 l x hx
    · right
      exact hvmem0
  · rename_i hepne
    have hepk : idx.entryPoint ∈ keysOf idx.nodes := by
      rcases hep with h | h
      · exact absurd h hepne
      · exact h
    have hepv : idx.entryPoint ≠ v.id := fun hc => hfresh (hc ▸ hepk)
    -- the descent starts from a stored pair
    have hlook : lookupN (setN idx.nodes v.id
        (HNSWNode.mk v.id v.embedding v.metadata
          (List.replicate (level + 1) []) level)) idx.entryPoint
        = lookupN idx.nodes idx.entryPoint :=
      lookupN_setN_ne _ _ _ _ hepv
    obtain ⟨nd0, hnd0⟩ := Option.isSome_iff_exists.mp
      ((lookupN_isSome_iff idx.nodes idx.entryPoint).mpr hepk)
    have hstored : ∃ p ∈ setN idx.nodes v.id
        (HNSWNode.mk v.id v.embedding v.metadata
          (List.replicate (level + 1) []) level),
        p.1 = idx.entryPoint ∧
        p.2 = (lookupN (setN idx.nodes v.id
          (HNSWNode.mk v.id v.embedding v.metadata
            (List.replicate (level + 1) []) level))
          idx.entryPoint).getD
          (HNSWNode.mk v.id v.embedding v.metadata
            (List.replicate (level + 1) []) level) := by
      apply lookupN_mem_key
      rw [hlook, hnd0]
      rfl
    obtain ⟨hdpost, hdstored⟩ := descend_post
      (setN idx.nodes v.id
        (HNSWNode.mk v.id v.embedding v.metadata
          (List.replicate (level + 1) []) level)) v.embedding
      (intRangeDown idx.maxLevel (level : ℤ))
      (idx.entryPoint, (lookupN (setN idx.nodes v.id
        (HNSWNode.mk v.id v.embedding v.metadata
          (List.replicate (level + 1) []) level)) idx.entryPoint).getD
        (HNSWNode.mk v.id v.embedding v.metadata
          (List.replicate (level + 1) []) level))
      hstored
    obtain ⟨pd, hpd, hpdk, _⟩ := hdstored
    have hdmem : (descend (setN idx.nodes v.id
        (HNSWNode.mk v.id v.embedding v.metadata
          (List.replicate (level + 1) []) level)) v.embedding
        (idx.entryPoint, (lookupN (setN idx.nodes v.id
          (HNSWNode.mk v.id v.embedding v.metadata
            (List.replicate (level + 1) []) level)) idx.entryPoint).getD
          (HNSWNode.mk v.id v.embedding v.metadata
            (List.replicate (level + 1) []) level))
        (intRangeDown idx.maxLevel (level : ℤ))).1
        ∈ keysOf (setN idx.nodes v.id
          (HNSWNode.mk v.id v.embedding v.metadata
            (List.replicate (level + 1) []) level)) := by
      rw [← hpdk]
      exact List.mem_map.mpr ⟨pd, hpd, rfl⟩
    have hdne : (descend (setN idx.nodes v.id
        (HNSWNode.mk v.id v.embedding v.metadata
          (List.replicate (level + 1) []) level)) v.embedding
        (idx.entryPoint, (lookupN (setN idx.nodes v.id
          (HNSWNode.mk v.id v.embedding v.metadata
            (List.replicate (level + 1) []) level)) idx.entryPoint).getD
          (HNSWNode.mk v.id v.embedding v.metadata
            (List.replicate (level + 1) []) level))
        (intRangeDown idx.maxLevel (level : ℤ))).1 ≠ v.id := by
      rcases hdpost with h | ⟨l, h⟩
      · rw [h]
        exact hepv
      · exact hnotref0 l _ h
    have hphase := insertPhase_inv idx.config v.id v.embedding
      (intRangeDown (min (level : ℤ) idx.maxLevel) (-1))
      (setN idx.nodes v.id
        (HNSWNode.mk v.id v.embedding v.metadata
          (List.replicate (level + 1) []) level),
       (descend (setN idx.nodes v.id
          (HNSWNode.mk v.id v.embedding v.metadata
            (List.replicate (level + 1) []) level)) v.embedding
          (idx.entryPoint, (lookupN (setN idx.nodes v.id
            (HNSWNode.mk v.id v.embedding v.metadata
              (List.replicate (level + 1) []) level)) idx.entryPoint).getD
            (HNSWNode.mk v.id v.embedding v.metadata
              (List.replicate (level + 1) []) level))
          (intRangeDown idx.maxLevel (level : ℤ))).1)
      (fun l hl => by
        have h2 := mem_intRangeDown _ _ _ hl
        omega)
      (intRangeDown_pairwise _ _)
      hdb0 hdmem hdne hclosed0 hvmem0
      (fun l _ x hx => hnotref0 l.toNat x hx)
    have hkeysF : keysOf ((intRangeDown (min (level : ℤ) idx.maxLevel)
          (-1)).foldl (insertLayer idx.config v.id v.embedding)
        (setN idx.nodes v.id
          (HNSWNode.mk v.id v.embedding v.metadata
            (List.replicate (level + 1) []) level),
         (descend (setN idx.nodes v.id
            (HNSWNode.mk v.id v.embedding v.metadata
              (List.replicate (level + 1) []) level)) v.embedding
            (idx.entryPoint, (lookupN (setN idx.nodes v.id
              (HNSWNode.mk v.id v.embedding v.metadata
                (List.replicate (level + 1) []) level))
              idx.entryPoint).getD
              (HNSWNode.mk v.id v.embedding v.metadata
                (List.replicate (level + 1) []) level))
            (intRangeDown idx.maxLevel (level : ℤ))).1)).1
        = keysOf idx.nodes ++ [v.id] := by
      rw [keysOf_insertPhase]
      exact hkeys0
    have hclosedF : ∀ l : ℕ, ∀ x ∈
        refsAt ((intRangeDown (min (level : ℤ) idx.maxLevel)
            (-1)).foldl (insertLayer idx.config v.id v.embedding)
          (setN idx.nodes v.id
            (HNSWNode.mk v.id v.embedding v.metadata
              (List.replicate (level + 1) []) level),
           (descend (setN idx.nodes v.id
              (HNSWNode.mk v.id v.embedding v.metadata
                (List.replicate (level + 1) []) level)) v.embedding
              (idx.entryPoint, (lookupN (setN idx.nodes v.id
                (HNSWNode.mk v.id v.embedding v.metadata
                  (List.replicate (level + 1) []) level))
                idx.entryPoint).getD
                (HNSWNode.mk v.id v.embedding v.metadata
                  (List.replicate (level + 1) []) level))
              (intRangeDown idx.maxLevel (level : ℤ))).1)).1 l,
        x ∈ keysOf ((intRangeDown (min (level : ℤ) idx.maxLevel)
            (-1)).foldl (insertLayer idx.config v.id v.embedding)
          (setN idx.nodes v.id
            (HNSWNode.mk v.id v.embedding v.metadata
              (List.replicate (level + 1) []) level),
           (descend (setN idx.nodes v.id
              (HNSWNode.mk v.id v.embedding v.metadata
                (List.replicate (level + 1) []) level)) v.embedding
              (idx.entryPoint, (lookupN (setN idx.nodes v.id
                (HNSWNode.mk v.id v.embedding v.metadata
                  (List.replicate (level + 1) []) level))
                idx.entryPoint).getD
                (HNSWNode.mk v.id v.embedding v.metadata
                  (List.replicate (level + 1) []) level))
              (intRangeDown idx.maxLevel (level : ℤ))).1)).1 := by
      intro l x hx
      rw [hkeysF]
      have h2 : x ∈ keysOf (setN idx.nodes v.id
          (HNSWNode.mk v.id v.embedding v.metadata
            (List.replicate (level + 1) []) level)) := hphase.2 l x hx
      rw [hkeys0] at h2
      exact h2
    have hvmemF : v.id ∈ keysOf ((intRangeDown (min (level : ℤ)
          idx.maxLevel) (-1)).foldl
        (insertLayer idx.config v.id v.embedding)
        (setN idx.nodes v.id
          (HNSWNode.mk v.id v.embedding v.metadata
            (List.replicate (level + 1) []) level),
         (descend (setN idx.nodes v.id
            (HNSWNode.mk v.id v.embedding v.metadata
              (List.replicate (level + 1) []) level)) v.embedding
            (idx.entryPoint, (lookupN (setN idx.nodes v.id
              (HNSWNode.mk v.id v.embedding v.metadata
                (List.replicate (level + 1) []) level))
              idx.entryPoint).getD
              (HNSWNode.mk v.id v.embedding v.metadata
                (List.replicate (level + 1) []) level))
            (intRangeDown idx.maxLevel (level : ℤ))).1)).1 := by
      rw [hkeysF]
      exact List.mem_append_right _ (List.mem_singleton.mpr rfl)
    have hepF : idx.entryPoint ∈ keysOf ((intRangeDown (min (level : ℤ)
          idx.maxLevel) (-1)).foldl
        (insertLayer idx.config v.id v.embedding)
        (setN idx.nodes v.id
          (HNSWNode.mk v.id v.embedding v.metadata
            (List.replicate (level + 1) []) level),
         (descend (setN idx.nodes v.id
            (HNSWNode.mk v.id v.embedding v.metadata
              (List.replicate (level + 1) []) level)) v.embedding
            (idx.entryPoint, (lookupN (setN idx.nodes v.id
              (HNSWNode.mk v.id v.embedding v.metadata
                (List.replicate (level + 1) []) level))
              idx.entryPoint).getD
              (HNSWNode.mk v.id v.embedding v.metadata
                (List.replicate (level + 1) []) level))
            (intRangeDown idx.maxLevel (level : ℤ))).1)).1 := by
      rw [hkeysF]
      exact List.mem_append_left _ hepk
    split
    · exact ⟨hphase.1, hclosedF, Or.inr hvmemF, hkeysF, rfl⟩
    · exact ⟨hphase.1, hclosedF, Or.inr hepF, hkeysF, rfl⟩


theorem applyInserts_degree_aux (cfg : HNSWConfig) :
    ∀ (ops : List (Vec × List ℝ)) (idx : HNSWIndex),
      idx.config = cfg →
      DegreeBounded cfg idx.nodes →
      (∀ l : ℕ, ∀ x ∈ refsAt idx.nodes l, x ∈ keysOf idx.nodes) →
      (idx.entryPoint = "" ∨ idx.entryPoint ∈ keysOf idx.nodes) →
      (ops.map (fun p => p.1.id)).Nodup →
      (∀ p ∈ ops, p.1.id ∉ keysOf idx.nodes) →
      DegreeBounded cfg (applyInserts idx ops).nodes := by
  intro ops
  induction ops with
  | nil =>
    intro idx _ hdb _ _ _ _
    exact hdb
  | cons a t ih =>
    intro idx hcfg hdb hclosed hep hnodup hfresh
    have hdb0 : DegreeBounded idx.config idx.nodes := by
      rw [hcfg]
      exact hdb
    obtain ⟨s1, s2, s3, s4, s5⟩ := insertWithLevel_inv3 idx a.1
      (randomLevel idx.config.ml a.2) hdb0 hclosed hep
      (hfresh a (List.mem_cons_self a t))
    rw [List.map_cons] at hnodup
    obtain ⟨hhead, htail⟩ := List.nodup_cons.mp hnodup
    simp only [applyInserts, List.foldl_cons]
    refine ih (insertWithLevel idx a.1 (randomLevel idx.config.ml a.2))
      (by rw [s5, hcfg]) (by rw [← hcfg]; exact s1) s2 s3 htail ?_
    intro p hp hmem
    rw [s4] at hmem
    rcases List.mem_append.mp hmem with h | h
    · exact hfresh p (List.mem_cons_of_mem a hp) h
    · have he : p.1.id = a.1.id := List.mem_singleton.mp h
      exact hhead (he ▸ List.mem_map.mpr ⟨p, hp, rfl⟩)

/-- C3 (amended): after every sequence of `Insert` calls with pairwise
distinct ids, starting from a fresh index, every stored node's neighbor
count at every layer `l` is at most `MMax` when `l = 0` and at most `M`
when `l > 0` — for every configuration, every rng stream and every
sequence of drawn levels.  The distinctness hypothesis is necessary:
re-inserting an existing id can break the bound
(see the trace `e, b, a, a` with `MMax = 3`). -/
theorem insert_degree_bound (cfg : HNSWConfig)
    (ops : List (Vec × List ℝ))
    (hnodup : (ops.map (fun p => p.1.id)).Nodup) :
    DegreeBounded cfg (applyInserts (NewHNSWIndex cfg) ops).nodes :=
  applyInserts_degree_aux cfg ops (NewHNSWIndex cfg) rfl
    (fun p hp _ => absurd hp (List.not_mem_nil p))
    (fun _ x hx => absurd hx (List.not_mem_nil x))
    (Or.inl rfl)
    hnodup
    (fun p _ hmem => absurd hmem (List.not_mem_nil p.1.id))

theorem insert_degree_bound_witness :
    (([(Vec.mk "e" [0, 0] default, ([] : List ℝ)),
       (Vec.mk "b" [0, 0] default, []),
       (Vec.mk "a" [0, 0] default, [])].map
        (fun p => p.1.id)).Nodup) ∧
    DegreeBounded (HNSWConfig.mk 3 3 3 3 0 2)
      (applyInserts (NewHNSWIndex (HNSWConfig.mk 3 3 3 3 0 2))
        [(Vec.mk "e" [0, 0] default, ([] : List ℝ)),
         (Vec.mk "b" [0, 0] default, []),
         (Vec.mk "a" [0, 0] default, [])]).nodes :=
  ⟨by simp, insert_degree_bound (HNSWConfig.mk 3 3 3 3 0 2)
    [(Vec.mk "e" [0, 0] default, ([] : List ℝ)),
     (Vec.mk "b" [0, 0] default, []),
     (Vec.mk "a" [0, 0] default, [])] (by simp)⟩

/-- C2 trace, insert 1 (`a` on a fresh index with `M = MMax = 1`). -/
theorem hnswP1_eval :
    insertWithLevel (NewHNSWIndex (HNSWConfig.mk 1 1 2 2 0 2))
      (Vec.mk "a" [0, 0] default) 0
    = HNSWIndex.mk [("a", HNSWNode.mk "a" [0, 0] default [[]] 0)]
        "a" 0 (HNSWConfig.mk 1 1 2 2 0 2) := by
  simp [insertWithLevel, NewHNSWIndex, setN, lookupN, List.replicate]

/-- C2 trace, beam search during insert 2. -/
theorem hnswP2_searchLayer :
    searchLayer [("a", HNSWNode.mk "a" [0, 0] default [[]] 0),
        ("b", HNSWNode.mk "b" [0, 0] default [[]] 0)]
      [0, 0] "a" 2 0
      = [⟨"a", 1, true⟩] := by
  simp [searchLayer, lookupN, cosineDistance_zeroes, slLoop, slVisit,
    heapPushG, heapPopG, heapUp, heapDown, heapDrain, hswap, dnLess]

/-- C2 trace, insert 2 (`b`): one bidirectional pair `a – b`. -/
theorem hnswP2_eval :
    insertWithLevel
      (HNSWIndex.mk [("a", HNSWNode.mk "a" [0, 0] default [[]] 0)]
        "a" 0 (HNSWConfig.mk 1 1 2 2 0 2))
      (Vec.mk "b" [0, 0] default) 0
    = HNSWIndex.mk
        [("a", HNSWNode.mk "a" [0, 0] default [["b"]] 0),
         ("b", HNSWNode.mk "b" [0, 0] default [["a"]] 0)]
        "a" 0 (HNSWConfig.mk 1 1 2 2 0 2) := by
  have hset : setN [("a", HNSWNode.mk "a" [0, 0] default [[]] 0)] "b"
      (HNSWNode.mk "b" [0, 0] default (List.replicate (0 + 1) []) 0)
      = [("a", HNSWNode.mk "a" [0, 0] default [[]] 0),
         ("b", HNSWNode.mk "b" [0, 0] default [[]] 0)] := by
    simp [setN, lookupN, List.replicate]
  have hlay0 : intRangeDown (0 : ℤ) 0 = [] := by decide
  have hlay1 : intRangeDown (0 : ℤ) (-1) = [0] := by decide
  simp only [insertWithLevel, hset]
  rw [if_neg (by decide : ¬ ("a" : String) = "")]
  simp only [Nat.cast_zero, min_self, hlay0, hlay1, descend,
    List.foldl_nil, List.foldl_cons]
  simp [insertLayer, hnswP2_searchLayer, selectNeighbors, insEdgeStep,
    adjustN, lookupN, pruneConnections]

set_option maxHeartbeats 4000000 in
/-- C2 trace, beam search during insert 3 (`a` closest, then `b`). -/
theorem hnswP3_searchLayer :
    searchLayer [("a", HNSWNode.mk "a" [0, 0] default [["b"]] 0),
        ("b", HNSWNode.mk "b" [0, 0] default [["a"]] 0),
        ("c", HNSWNode.mk "c" [0, 0] default [[]] 0)]
      [0, 0] "a" 2 0
      = [⟨"a", 1, true⟩, ⟨"b", 1, true⟩] := by
  simp [searchLayer, lookupN, cosineDistance_zeroes, slLoop, slVisit,
    heapPushG, heapPopG, heapUp, heapDown, heapDrain, hswap, dnLess,
    List.contains_cons]

/-- C2 trace, insert 3 (`c`): `c` links to `a`, the reverse edge pushes
`a`'s list to `["b", "c"]`, and pruning truncates it back to `["b"]`,
leaving the forward edge `c → a` without its reverse. -/
theorem hnswP3_eval :
    insertWithLevel
      (HNSWIndex.mk
        [("a", HNSWNode.mk "a" [0, 0] default [["b"]] 0),
         ("b", HNSWNode.mk "b" [0, 0] default [["a"]] 0)]
        "a" 0 (HNSWConfig.mk 1 1 2 2 0 2))
      (Vec.mk "c" [0, 0] default) 0
    = HNSWIndex.mk
        [("a", HNSWNode.mk "a" [0, 0] default [["b"]] 0),
         ("b", HNSWNode.mk "b" [0, 0] default [["a"]] 0),
         ("c", HNSWNode.mk "c" [0, 0] default [["a"]] 0)]
        "a" 0 (HNSWConfig.mk 1 1 2 2 0 2) := by
  have hset : setN [("a", HNSWNode.mk "a" [0, 0] default [["b"]] 0),
        ("b", HNSWNode.mk "b" [0, 0] default [["a"]] 0)] "c"
      (HNSWNode.mk "c" [0, 0] default (List.replicate (0 + 1) []) 0)
      = [("a", HNSWNode.mk "a" [0, 0] default [["b"]] 0),
         ("b", HNSWNode.mk "b" [0, 0] default [["a"]] 0),
         ("c", HNSWNode.mk "c" [0, 0] default [[]] 0)] := by
    simp [setN, lookupN, List.replicate]
  have hlay0 : intRangeDown (0 : ℤ) 0 = [] := by decide
  have hlay1 : intRangeDown (0 : ℤ) (-1) = [0] := by decide
  simp only [insertWithLevel, hset]
  rw [if_neg (by decide : ¬ ("a" : String) = "")]
  simp only [Nat.cast_zero, min_self, hlay0, hlay1, descend,
    List.foldl_nil, List.foldl_cons]
  simp [insertLayer, hnswP3_searchLayer, selectNeighbors, insEdgeStep,
    adjustN, lookupN, pruneConnections, cosineDistance_zeroes]
  have hrange : List.range 2 = [0, 1] := by decide
  norm_num [exchangeSort, hrange, exchInner, List.range', hswap]

/-- C2 counterexample: three `Insert` calls (`a`, `b`, `c`, all levels 0,
`M = MMax = 1`, `efConstruction = 2`) end with the edge `c → a` stored
while `a`'s layer-0 list is `["b"]`: pruning node `a`'s over-full list
removed the reverse edge `a → c` but the forward edge remains, so edges
are not bidirectional. -/
theorem hnsw_bidirectional_counterexample :
    "a" ∈ (((lookupN (applyInserts
        (NewHNSWIndex (HNSWConfig.mk 1 1 2 2 0 2))
        [(Vec.mk "a" [0, 0] default, []), (Vec.mk "b" [0, 0] default, []),
         (Vec.mk "c" [0, 0] default, [])]).nodes "c").getD
        default).neighbors.getD 0 []) ∧
    "c" ∉ (((lookupN (applyInserts
        (NewHNSWIndex (HNSWConfig.mk 1 1 2 2 0 2))
        [(Vec.mk "a" [0, 0] default, []), (Vec.mk "b" [0, 0] default, []),
         (Vec.mk "c" [0, 0] default, [])]).nodes "a").getD
        default).neighbors.getD 0 []) := by
  have hrl : ∀ ml : ℝ, randomLevel ml [] = 0 := fun ml => rfl
  have hfin : applyInserts (NewHNSWIndex (HNSWConfig.mk 1 1 2 2 0 2))
      [(Vec.mk "a" [0, 0] default, []), (Vec.mk "b" [0, 0] default, []),
       (Vec.mk "c" [0, 0] default, [])]
      = HNSWIndex.mk
        [("a", HNSWNode.mk "a" [0, 0] default [["b"]] 0),
         ("b", HNSWNode.mk "b" [0, 0] default [["a"]] 0),
         ("c", HNSWNode.mk "c" [0, 0] default [["a"]] 0)]
        "a" 0 (HNSWConfig.mk 1 1 2 2 0 2) := by
    simp only [applyInserts, List.foldl_cons, List.foldl_nil, hrl]
    rw [hnswP1_eval, hnswP2_eval, hnswP3_eval]
  rw [hfin]
  refine ⟨?_, ?_⟩ <;> simp [lookupN]

end DocuMind
